import Mathlib

/-! # Teleporter test utilities and bindings: a verification development

Shallow embedding of the Go helpers of `tests/utils/chain.go`, of the
`PauseTeleporter` flow and of the generated contract bindings, together with
the properties proved about them.

Conventions of the embedding:

* a Go result pair `(v, err)` is a Lean pair whose second component is an
  `Option GoError` (`none` is the `nil` error); a pointer result is an `Option`;
* everything the helpers reach through an interface (the RPC endpoint, the
  context, `encoding/json`) is an explicit oracle of the environment;
* a polling loop takes the number of rounds it may run and reports `pending`
  when that number does not suffice;
* a Go string is the list of its characters (valid UTF-8 text), and `len`
  counts the bytes of its encoding;
* a value reached through a pointer or a reference and written in place (a
  `big.Int`, a map held by a package variable) is a cell of an explicit store;
* a channel is the list of what it holds, and the case a `select` takes when
  several are ready is an input.
-/

namespace Teleporter

/-! ## Errors and logs -/

/-- Go `error` values as far as the helpers tell them apart. -/
inductive GoError where
  /-- `subnetEvmInterfaces.NotFound` -/
  | notFound
  /-- `context.DeadlineExceeded` -/
  | deadlineExceeded
  /-- `context.Canceled` -/
  | canceled
  /-- `fmt.Errorf("msg: %w", inner)` -/
  | wrap (msg : String) (inner : GoError)
  /-- any other error, by its text -/
  | other (msg : String)
  deriving DecidableEq

/-- `errors.Is(err, subnetEvmInterfaces.NotFound)`: the sentinel itself or an
error wrapping it. -/
def GoError.isNotFound : GoError → Bool
  | .notFound => true
  | .wrap _ inner => inner.isNotFound
  | _ => false

/-- The fields of `types.Log` an event parser reads. -/
structure Log where
  Address : Nat
  Topics : List Nat
  Data : List Nat
  deriving DecidableEq

/-- A parser of the generated bindings, `func(log types.Log) (T, error)`. -/
abbrev LogParser (T : Type) := Log → T × Option GoError

/-- The parser returns a `nil` error for the log. -/
def accepts {T : Type} (parser : LogParser T) (log : Log) : Prop :=
  (parser log).2 = none

/-- Acceptance is decided by looking at the returned error. -/
instance {T : Type} (parser : LogParser T) (log : Log) : Decidable (accepts parser log) := by
  unfold accepts; infer_instance

/-- `GetEventFromLogs` of `tests/utils/chain.go`: the range loop over `logs`
returns at the first log whose parse has a `nil` error; falling out of the loop
returns `*new(T)` (here `zero`) with the `fmt.Errorf` error, whose `%T` verb
prints the name of `T` (here `typeName`). The slice holds non-nil pointers, as
the logs of a decoded receipt do, so `*log` is the log itself. -/
def GetEventFromLogs {T : Type} (zero : T) (typeName : String) :
    List Log → LogParser T → T × Option GoError
  | [], _ => (zero, some (.other ("failed to find " ++ typeName ++ " event in receipt logs")))
  | log :: rest, parser =>
    match parser log with
    | (event, none) => (event, none)
    | (_, some _) => GetEventFromLogs zero typeName rest parser

/-! ## The chain client and the polling helpers -/

/-- The fields of `types.Receipt` the helpers read. `Status` is a `uint64`,
`BlockNumber` a `*big.Int`. -/
structure Receipt where
  Status : Nat
  TxHash : Nat
  BlockNumber : Nat
  Logs : List Log
  deriving DecidableEq

/-- `types.ReceiptStatusFailed` -/
def ReceiptStatusFailed : Nat := 0

/-- `types.ReceiptStatusSuccessful` -/
def ReceiptStatusSuccessful : Nat := 1

/-- `(*big.Int).Uint64`: the low 64 bits. -/
def Uint64 (n : Nat) : Nat := n % 2 ^ 64

/-- What an RPC method gives back: a value with a `nil` error, or an error.
(`ethclient` turns a missing receipt into the `NotFound` error, so a `nil`
error always comes with a receipt.) -/
inductive Response (α : Type) where
  | value (a : α)
  | failure (err : GoError)
  deriving DecidableEq

/-- The value `debug_traceTransaction` decoded into `result interface{}`. -/
structure TraceValue where
  raw : String
  deriving DecidableEq

/-- Everything the helpers reach through an interface.

* `receipts h n`: the answer to the `n`-th `TransactionReceipt` query, for hash `h`;
* `heights n`: the answer to the `n`-th `BlockNumber` query;
* `waits n`: the `n`-th `select` between `cctx.Done()` and the ticker:
  `some err` when the context is done (`err` is `cctx.Err()`, never `nil` then),
  `none` when the ticker fires;
* `traceCall h`: the answer of `debug_traceTransaction` for hash `h`;
* `marshal`: `json.Marshal`. -/
structure Env where
  receipts : Nat → Nat → Response Receipt
  heights : Nat → Response Nat
  waits : Nat → Option GoError
  traceCall : Nat → Response TraceValue
  marshal : TraceValue → Response String

/-- One interaction of a polling helper with its environment. -/
inductive Event where
  | receiptQuery (resp : Response Receipt)
  | heightQuery (resp : Response Nat)
  | wait (done : Option GoError)
  deriving DecidableEq

/-- How far the environment has been consumed: the number of queries of each
kind made so far, and the interactions in the order they happened. -/
structure Progress where
  receiptQueries : Nat
  heightQueries : Nat
  waited : Nat
  trace : List Event
  deriving DecidableEq

/-- Nothing has happened yet. -/
def Progress.start : Progress := ⟨0, 0, 0, []⟩

/-- Record a `TransactionReceipt` query. -/
def Progress.afterReceiptQuery (p : Progress) (resp : Response Receipt) : Progress :=
  { p with receiptQueries := p.receiptQueries + 1, trace := p.trace ++ [.receiptQuery resp] }

/-- Record a `BlockNumber` query. -/
def Progress.afterHeightQuery (p : Progress) (resp : Response Nat) : Progress :=
  { p with heightQueries := p.heightQueries + 1, trace := p.trace ++ [.heightQuery resp] }

/-- Record a `select` on the context and the ticker. -/
def Progress.afterWait (p : Progress) (done : Option GoError) : Progress :=
  { p with waited := p.waited + 1, trace := p.trace ++ [.wait done] }

/-- How a call ends: it returns, it does not return (a panic, or a failed
Gomega assertion, which fails the running test), or it is still polling after
the rounds it was given. -/
inductive Exec (α : Type) where
  | ret (a : α)
  | abort (why : String)
  | pending
  deriving DecidableEq

/-- `waitForTransactionReceipt`: each round queries the receipt; a `nil` error
returns it, an error that is not `NotFound` is returned, and after `NotFound`
the `select` either returns `cctx.Err()` or lets the next round start. -/
def waitForTransactionReceipt (env : Env) (txHash : Nat) :
    Nat → Progress → Exec ((Option Receipt × Option GoError) × Progress)
  | 0, _ => .pending
  | rounds + 1, p =>
    let resp := env.receipts txHash p.receiptQueries
    let p1 := p.afterReceiptQuery resp
    match resp with
    | .value receipt => .ret ((some receipt, none), p1)
    | .failure err =>
      if err.isNotFound then
        let done := env.waits p1.waited
        let p2 := p1.afterWait done
        match done with
        | some ctxErr => .ret ((none, some ctxErr), p2)
        | none => waitForTransactionReceipt env txHash rounds p2
      else .ret ((none, some err), p1)

/-- `waitForBlockHeight`: each round queries the height; an error is returned,
a height `>= expectedBlockNumber` returns `nil`, and otherwise the `select`
either returns `cctx.Err()` or lets the next round start. -/
def waitForBlockHeight (env : Env) (expectedBlockNumber : Nat) :
    Nat → Progress → Exec (Option GoError × Progress)
  | 0, _ => .pending
  | rounds + 1, p =>
    let resp := env.heights p.heightQueries
    let p1 := p.afterHeightQuery resp
    match resp with
    | .failure err => .ret (some err, p1)
    | .value currentBlockNumber =>
      if currentBlockNumber ≥ expectedBlockNumber then .ret (none, p1)
      else
        let done := env.waits p1.waited
        let p2 := p1.afterWait done
        match done with
        | some ctxErr => .ret (some ctxErr, p2)
        | none => waitForBlockHeight env expectedBlockNumber rounds p2

/-- `WaitMined`: the receipt wait, then the height wait for
`receipt.BlockNumber.Uint64()`; either error is returned with a `nil` receipt.
Both waits run under the one derived context, and `rounds` bounds each. -/
def WaitMined (env : Env) (txHash : Nat) (rounds : Nat) (p : Progress) :
    Exec ((Option Receipt × Option GoError) × Progress) :=
  match waitForTransactionReceipt env txHash rounds p with
  | .pending => .pending
  | .abort why => .abort why
  | .ret ((_, some err), p1) => .ret ((none, some err), p1)
  | .ret ((none, none), _) => .abort "nil pointer dereference"
  | .ret ((some receipt, none), p1) =>
    match waitForBlockHeight env (Uint64 receipt.BlockNumber) rounds p1 with
    | .pending => .pending
    | .abort why => .abort why
    | .ret (some err, p2) => .ret ((none, some err), p2)
    | .ret (none, p2) => .ret ((some receipt, none), p2)

/-- `TraceTransaction`: the tracer call and `json.Marshal`, each followed by
`Expect(err).Should(BeNil())`. -/
def TraceTransaction (env : Env) (txHash : Nat) : Exec String :=
  match env.traceCall txHash with
  | .failure _ => .abort "Expected error to be nil"
  | .value result =>
    match env.marshal result with
    | .failure _ => .abort "Expected error to be nil"
    | .value jsonStr => .ret jsonStr

/-- `TraceTransactionAndExit`: `Expect(TraceTransaction(...)).Should(Equal(""))`. -/
def TraceTransactionAndExit (env : Env) (txHash : Nat) : Exec Unit :=
  match TraceTransaction env txHash with
  | .pending => .pending
  | .abort why => .abort why
  | .ret jsonStr => if jsonStr = "" then .ret () else .abort ("Expected to equal the empty string: " ++ jsonStr)

/-- `waitForTransaction`: `WaitMined`, the assertion that its error is `nil`,
then the check of `receipt.Status` against `success`. -/
def waitForTransaction (env : Env) (txHash : Nat) (success : Bool) (rounds : Nat)
    (p : Progress) : Exec (Receipt × Progress) :=
  match WaitMined env txHash rounds p with
  | .pending => .pending
  | .abort why => .abort why
  | .ret ((_, some _), _) => .abort "Expected error to be nil"
  | .ret ((none, none), _) => .abort "nil pointer dereference"
  | .ret ((some receipt, none), p1) =>
    if success then
      if receipt.Status = ReceiptStatusFailed then
        match TraceTransactionAndExit env receipt.TxHash with
        | .pending => .pending
        | .abort why => .abort why
        | .ret _ => .ret (receipt, p1)
      else .ret (receipt, p1)
    else
      if receipt.Status = ReceiptStatusFailed then .ret (receipt, p1)
      else .abort "Expected receipt.Status to equal ReceiptStatusFailed"

/-! ## The token-remote binding -/

/-- `SendTokensInput` of the generated binding (`*big.Int` and address fields
as numbers). -/
structure SendTokensInput where
  DestinationBlockchainID : Nat
  DestinationTokenTransferrerAddress : Nat
  Recipient : Nat
  PrimaryFeeTokenAddress : Nat
  PrimaryFee : Nat
  SecondaryFee : Nat
  RequiredGasLimit : Nat
  MultiHopFallback : Nat
  deriving DecidableEq

/-- `SendAndCallInput` of the generated binding. -/
structure SendAndCallInput where
  DestinationBlockchainID : Nat
  DestinationTokenTransferrerAddress : Nat
  RecipientContract : Nat
  RecipientPayload : List Nat
  RequiredGasLimit : Nat
  RecipientGasLimit : Nat
  MultiHopFallback : Nat
  FallbackRecipient : Nat
  PrimaryFeeTokenAddress : Nat
  PrimaryFee : Nat
  SecondaryFee : Nat
  deriving DecidableEq

/-- A value passed in `params ...interface{}`. -/
inductive ABIArg where
  | sendTokensInput (input : SendTokensInput)
  | sendAndCallInput (input : SendAndCallInput)
  deriving DecidableEq

/-- The fields of `bind.TransactOpts` a submission carries. -/
structure TransactOpts where
  From : Nat
  Value : Nat
  deriving DecidableEq

/-- A submitted transaction: the sender and value of the options, the ABI
method and the arguments packed into its call data. -/
structure Transaction where
  From : Nat
  Value : Nat
  Method : String
  Params : List ABIArg
  deriving DecidableEq

/-- `bind.BoundContract` as the binding uses it: `Transact` takes the options,
the method name and the arguments, and acts on the transactions submitted to
the chain so far. -/
structure BoundContract where
  Transact : TransactOpts → String → List ABIArg → List Transaction →
    (Option Transaction × Option GoError) × List Transaction

/-- `NativeTokenRemoteTransactor`: the struct holds the bound contract. -/
structure NativeTokenRemoteTransactor where
  contract : BoundContract

/-- `NativeTokenRemoteSession` (of its contract only the transactor matters here). -/
structure NativeTokenRemoteSession where
  Contract : NativeTokenRemoteTransactor
  TransactOpts : TransactOpts

/-- `NativeTokenRemoteTransactorSession` -/
structure NativeTokenRemoteTransactorSession where
  Contract : NativeTokenRemoteTransactor
  TransactOpts : TransactOpts

/-- `NativeTokenRemoteTransactor.Send` -/
def NativeTokenRemoteTransactor.Send (t : NativeTokenRemoteTransactor) (opts : TransactOpts)
    (input : SendTokensInput) (submitted : List Transaction) :
    (Option Transaction × Option GoError) × List Transaction :=
  t.contract.Transact opts "send" [.sendTokensInput input] submitted

/-- `NativeTokenRemoteSession.Send` -/
def NativeTokenRemoteSession.Send (s : NativeTokenRemoteSession) (input : SendTokensInput)
    (submitted : List Transaction) : (Option Transaction × Option GoError) × List Transaction :=
  s.Contract.Send s.TransactOpts input submitted

/-- `NativeTokenRemoteTransactorSession.Send` -/
def NativeTokenRemoteTransactorSession.Send (s : NativeTokenRemoteTransactorSession)
    (input : SendTokensInput) (submitted : List Transaction) :
    (Option Transaction × Option GoError) × List Transaction :=
  s.Contract.Send s.TransactOpts input submitted

/-- `NativeTokenRemoteTransactor.SendAndCall` -/
def NativeTokenRemoteTransactor.SendAndCall (t : NativeTokenRemoteTransactor)
    (opts : TransactOpts) (input : SendAndCallInput) (submitted : List Transaction) :
    (Option Transaction × Option GoError) × List Transaction :=
  t.contract.Transact opts "sendAndCall" [.sendAndCallInput input] submitted

/-- `NativeTokenRemoteSession.SendAndCall` -/
def NativeTokenRemoteSession.SendAndCall (s : NativeTokenRemoteSession)
    (input : SendAndCallInput) (submitted : List Transaction) :
    (Option Transaction × Option GoError) × List Transaction :=
  s.Contract.SendAndCall s.TransactOpts input submitted

/-- `NativeTokenRemoteTransactorSession.SendAndCall` -/
def NativeTokenRemoteTransactorSession.SendAndCall (s : NativeTokenRemoteTransactorSession)
    (input : SendAndCallInput) (submitted : List Transaction) :
    (Option Transaction × Option GoError) × List Transaction :=
  s.Contract.SendAndCall s.TransactOpts input submitted

/-- A bound contract whose backend takes every transaction: it appends the
transaction to the submitted ones and returns it with a `nil` error. -/
def submittingContract : BoundContract where
  Transact opts method params submitted :=
    let tx : Transaction := ⟨opts.From, opts.Value, method, params⟩
    ((some tx, none), submitted ++ [tx])

/-- A `SendTokensInput` whose destination address and recipient are zero. -/
def zeroSendTokensInput : SendTokensInput := ⟨1, 0, 0, 0, 0, 0, 0, 0⟩

/-- A `SendAndCallInput` with zero destination address and recipient contract
and with `RequiredGasLimit` above `RecipientGasLimit`. -/
def badSendAndCallInput : SendAndCallInput := ⟨1, 0, 0, [], 5, 3, 0, 0, 0, 0, 0⟩

/-! ## The pause flow -/

/-- Topic 0 of `TeleporterAddressPaused(address indexed teleporterAddress)`. -/
def TeleporterAddressPausedID : Nat :=
  0x933f93e57a222e6330362af8b376d0a8725b6901e9a2fb86d00f169702b28a4c

/-- Topic 0 of `TeleporterAddressUnpaused(address indexed teleporterAddress)`. -/
def TeleporterAddressUnpausedID : Nat :=
  0x844e2f3154214672229235858fd029d1dfd543901c6d05931f0bc2480a2d72c3

/-- The event struct of the binding, for both events: the indexed address and
the raw log. -/
structure TeleporterAddressEvent where
  TeleporterAddress : Nat
  Raw : Log
  deriving DecidableEq

/-- The body shared by `ParseTeleporterAddressPaused` and
`ParseTeleporterAddressUnpaused` of the binding, for the event with topic 0
`eventID`: `UnpackLog` fails on a log without topics or with another signature,
and reads the indexed address from the next topic; on failure the event pointer
is `nil`. -/
def ParseTeleporterAddressEvent (eventID : Nat) : LogParser (Option TeleporterAddressEvent) :=
  fun log =>
    match log.Topics with
    | [] => (none, some (.other "no event signature"))
    | sig :: indexed =>
      if sig ≠ eventID then (none, some (.other "event signature mismatch"))
      else
        match indexed with
        | [a] => (some ⟨a, log⟩, none)
        | _ => (none, some (.other "topic/field count mismatch"))

/-- `ParseTeleporterAddressPaused` of the binding. -/
def ParseTeleporterAddressPaused : LogParser (Option TeleporterAddressEvent) :=
  ParseTeleporterAddressEvent TeleporterAddressPausedID

/-- `ParseTeleporterAddressUnpaused` of the binding. -/
def ParseTeleporterAddressUnpaused : LogParser (Option TeleporterAddressEvent) :=
  ParseTeleporterAddressEvent TeleporterAddressUnpausedID

/-- Modelled from the spec: the receiving messenger contract, whose Solidity
source and Go binding are not among the sources. The spec's scenario gives it a
per-address paused flag and says that a message arriving through a paused
address is rejected with no state change and no event, until the address is
unpaused. `received` lists the messages taken in, oldest first. -/
structure Messenger where
  address : Nat
  paused : List Nat
  received : List String
  deriving DecidableEq

/-- Modelled from the spec: the calls that reach the messenger in the flow;
their contract code is not among the sources. -/
inductive MessengerCall where
  | PauseTeleporterAddress (a : Nat)
  | UnpauseTeleporterAddress (a : Nat)
  | receiveTeleporterMessage (via : Nat) (message : String)
  deriving DecidableEq

/-- Modelled from the spec: `IsTeleporterAddressPaused`, the paused flag of an
address (the contract code is not among the sources). -/
def Messenger.IsTeleporterAddressPaused (m : Messenger) (a : Nat) : Bool :=
  decide (a ∈ m.paused)

/-- Modelled from the spec: one transaction on the messenger, whose contract
code is not among the sources; `none` is a rejected call, which changes nothing
and emits nothing, otherwise the new state and the emitted logs. Pausing sets
the flag of the address and unpausing clears it, each emitting its event; a
message is rejected exactly when it arrives through a paused address, and a
message taken in is stored and emitted in a log. The spec
names no condition under which pausing or unpausing fails, so whatever the
contract requires of those calls is the parameter `admits`. -/
def Messenger.transact (admits : Messenger → MessengerCall → Bool) (m : Messenger) :
    MessengerCall → Option (Messenger × List Log)
  | .PauseTeleporterAddress a =>
    if admits m (.PauseTeleporterAddress a) then
      some ({ m with paused := a :: m.paused }, [⟨m.address, [TeleporterAddressPausedID, a], []⟩])
    else none
  | .UnpauseTeleporterAddress a =>
    if admits m (.UnpauseTeleporterAddress a) then
      some ({ m with paused := m.paused.filter (fun b => b ≠ a) },
        [⟨m.address, [TeleporterAddressUnpausedID, a], []⟩])
    else none
  | .receiveTeleporterMessage via message =>
    if m.IsTeleporterAddressPaused via then none
    else some ({ m with received := m.received ++ [message] },
      [⟨m.address, [], message.toList.map Char.toNat⟩])

/-- Modelled from the spec: `SendExampleCrossChainMessageAndVerify`, which is
not among the sources: the message is delivered to the receiving messenger
through `teleporterAddress`, and the helper asserts that it was received when
`expectSuccess` is set and that it was rejected otherwise. -/
def SendExampleCrossChainMessageAndVerify (admits : Messenger → MessengerCall → Bool)
    (teleporterAddress : Nat) (testMessengerB : Messenger) (message : String)
    (expectSuccess : Bool) : Exec Messenger :=
  match testMessengerB.transact admits (.receiveTeleporterMessage teleporterAddress message) with
  | some (after, _) =>
    if expectSuccess then .ret after else .abort "Expected the message not to be received"
  | none =>
    if expectSuccess then .abort "Expected the message to be received" else .ret testMessengerB

/-- One pause or unpause step of `PauseTeleporter`: the transaction must
succeed, its logs must hold the event (found by `GetEventFromLogs` with the
binding's parser) for `teleporterAddress`, and `IsTeleporterAddressPaused` must
then answer `expected`. -/
def pauseStep (admits : Messenger → MessengerCall → Bool) (call : MessengerCall)
    (parser : LogParser (Option TeleporterAddressEvent)) (teleporterAddress : Nat)
    (expected : Bool) (testMessengerB : Messenger) : Exec Messenger :=
  match testMessengerB.transact admits call with
  | none => .abort "Expected the transaction to succeed"
  | some (after, logs) =>
    match GetEventFromLogs none "TeleporterAddressEvent" logs parser with
    | (_, some _) => .abort "Expected error to be nil"
    | (none, none) => .abort "nil pointer dereference"
    | (some event, none) =>
      if event.TeleporterAddress ≠ teleporterAddress then .abort "Expected the event address to equal teleporterAddress"
      else if after.IsTeleporterAddressPaused teleporterAddress ≠ expected then
        .abort "Expected isPaused to match"
      else .ret after

/-- `PauseTeleporter` of `tests/flows/teleporter/registry/pause_teleporter.go`,
from the pause on subnet B onwards: pause, `message_1` must fail, unpause,
`message_2` must succeed. -/
def PauseTeleporter (admits : Messenger → MessengerCall → Bool) (teleporterAddress : Nat)
    (testMessengerB : Messenger) : Exec Messenger :=
  match pauseStep admits (.PauseTeleporterAddress teleporterAddress) ParseTeleporterAddressPaused
      teleporterAddress true testMessengerB with
  | .pending => .pending
  | .abort why => .abort why
  | .ret m1 =>
    match SendExampleCrossChainMessageAndVerify admits teleporterAddress m1 "message_1" false with
    | .pending => .pending
    | .abort why => .abort why
    | .ret m2 =>
      match pauseStep admits (.UnpauseTeleporterAddress teleporterAddress)
          ParseTeleporterAddressUnpaused teleporterAddress false m2 with
      | .pending => .pending
      | .abort why => .abort why
      | .ret m3 =>
        SendExampleCrossChainMessageAndVerify admits teleporterAddress m3 "message_2" true

/-! ## The validator lifecycle -/

/-- Modelled from the spec: the status of a validation record; the contract
that keeps it is not among the sources. -/
inductive ValidatorStatus where
  | Unknown
  | PendingAdded
  | Active
  | PendingRemoved
  | Completed
  deriving DecidableEq

/-- Modelled from the spec: the place of a status in the forward order
`Unknown, PendingAdded, Active, PendingRemoved, Completed` (the contract is not
among the sources). -/
def ValidatorStatus.rank : ValidatorStatus → Nat
  | .Unknown => 0
  | .PendingAdded => 1
  | .Active => 2
  | .PendingRemoved => 3
  | .Completed => 4

/-- Modelled from the spec: the `ValidationRecord` of the data model (the
contract is not among the sources). -/
structure ValidationRecord where
  validationID : Nat
  nodeID : Nat
  weight : Nat
  status : ValidatorStatus
  registrationExpiry : Nat
  messageID : Nat
  deriving DecidableEq

/-- Modelled from the spec: the failures the spec names for registration (the
contract is not among the sources), and one for an acknowledgment that does not
verify. -/
inductive LifecycleError where
  | InvalidLength
  | DuplicateNodeID
  | ChurnLimitExceeded
  | RegistrationExpired
  | NotPendingAdded
  | AcknowledgmentNotVerified
  deriving DecidableEq

/-- Modelled from the spec: what the lifecycle consumes and the spec leaves to
other components, none of them among the sources: the fixed size of a BLS
public key and the packed registration payload (MessageCodec), the
content-derived identifiers, whether the warp message at an index is a verified
acknowledgment of a registration (chain client and SignatureAggregator), and
the churn policy, which the spec treats as a parameter. -/
structure Collaborators where
  blsPublicKeyLength : Nat
  encodeRegistration : Nat → Nat → Nat → List Nat → List Nat
  deriveValidationID : List Nat → Nat
  deriveMessageID : List Nat → Nat
  acknowledged : Nat → Nat → Bool
  churnAdmits : List ValidationRecord → Nat → Bool

/-- Modelled from the spec: the state of the lifecycle (the contract is not
among the sources): the records, never deleted, and the audit trail of status
assignments, oldest first. -/
structure Lifecycle where
  records : List ValidationRecord
  trail : List (Nat × ValidatorStatus)
  deriving DecidableEq

/-- Modelled from the spec: the record of a validation ID (the contract is not
among the sources). -/
def Lifecycle.find (s : Lifecycle) (validationID : Nat) : Option ValidationRecord :=
  s.records.find? (fun r => r.validationID = validationID)

/-- Modelled from the spec: the status of a validation ID, `Unknown` when it
has no record (the contract is not among the sources). -/
def Lifecycle.statusOf (s : Lifecycle) (validationID : Nat) : ValidatorStatus :=
  match s.find validationID with
  | some r => r.status
  | none => .Unknown

/-- Modelled from the spec: whether a node ID has an active record (the
contract is not among the sources). -/
def Lifecycle.nodeActive (s : Lifecycle) (nodeID : Nat) : Bool :=
  s.records.any (fun r => r.nodeID = nodeID && r.status = .Active)

/-- Modelled from the spec: `initializeRegistration` (the contract behind the
binding's `InitializeValidatorRegistration` is not among the sources). It
fails with `InvalidLength` on a key of the wrong size, with `DuplicateNodeID`
when the node ID has an active record and with `ChurnLimitExceeded` when the
churn policy refuses the weight; otherwise it builds the registration message,
derives the validation ID from it and records the record as `PendingAdded`. -/
def initializeRegistration (c : Collaborators) (weight nodeID expiry : Nat) (blsKey : List Nat)
    (s : Lifecycle) : Except LifecycleError (Nat × Lifecycle) :=
  if blsKey.length ≠ c.blsPublicKeyLength then .error .InvalidLength
  else if s.nodeActive nodeID then .error .DuplicateNodeID
  else if !c.churnAdmits s.records weight then .error .ChurnLimitExceeded
  else
    let message := c.encodeRegistration weight nodeID expiry blsKey
    let validationID := c.deriveValidationID message
    let record : ValidationRecord :=
      ⟨validationID, nodeID, weight, .PendingAdded, expiry, c.deriveMessageID message⟩
    .ok (validationID,
      { records := record :: s.records.filter (fun r => r.validationID ≠ validationID),
        trail := s.trail ++ [(validationID, .PendingAdded)] })

/-- Modelled from the spec: `completeRegistration` (the contract behind the
binding's `CompleteValidatorRegistration` is not among the sources). It fails
with `NotPendingAdded` when the record is not in that state, with
`RegistrationExpired` when the current time is past the expiry, and when the
warp message at the index is not a verified acknowledgment; otherwise the
record becomes `Active`. -/
def completeRegistration (c : Collaborators) (now validationID warpMessageIndex : Nat)
    (s : Lifecycle) : Except LifecycleError Lifecycle :=
  match s.find validationID with
  | none => .error .NotPendingAdded
  | some r =>
    if r.status ≠ .PendingAdded then .error .NotPendingAdded
    else if now > r.registrationExpiry then .error .RegistrationExpired
    else if !c.acknowledged warpMessageIndex validationID then .error .AcknowledgmentNotVerified
    else
      .ok { records := s.records.map (fun q =>
              if q.validationID = validationID then { q with status := .Active } else q),
            trail := s.trail ++ [(validationID, .Active)] }

/-! ## Go strings -/

/-- `len(s)` of a Go string given by its characters: the number of bytes of
its UTF-8 encoding. -/
def goLen (s : List Char) : Nat :=
  (s.map Char.utf8Size).sum

/-- `strings.Split(s, sep)` for a separator of one character: the pieces of
`s` between the separators, in order, at least one piece. -/
def Split : List Char → Char → List (List Char)
  | [], _ => [[]]
  | c :: cs, sep =>
    if c = sep then [] :: Split cs sep
    else
      match Split cs sep with
      | [] => [[c]]
      | piece :: pieces => (c :: piece) :: pieces

/-- `strings.Join(elems, sep)` -/
def Join : List (List Char) → List Char → List Char
  | [], _ => []
  | [e], _ => e
  | e :: f :: rest, sep => e ++ sep ++ Join (f :: rest) sep

/-- `unicode.IsSpace`: the White_Space code points. -/
def isSpace (c : Char) : Bool :=
  let n := c.toNat
  (0x09 ≤ n && n ≤ 0x0d) || n = 0x20 || n = 0x85 || n = 0xa0 || n = 0x1680 ||
    (0x2000 ≤ n && n ≤ 0x200a) || n = 0x2028 || n = 0x2029 || n = 0x202f || n = 0x205f ||
    n = 0x3000

/-- `strings.TrimSpace`: the string without its leading and trailing white space. -/
def TrimSpace (s : List Char) : List Char :=
  ((s.dropWhile isSpace).reverse.dropWhile isSpace).reverse

/-- `strings.ToLower`, character by character. Only `A` to `Z` are mapped; no
character outside ASCII lowers to `d`, `y` or `n`, so the comparison with the
`dyn` sentinel, the only use made of the result, is the one of the full
Unicode mapping. -/
def ToLower (s : List Char) : List Char :=
  s.map Char.toLower

/-- `strings.TrimPrefix`: `s` without the leading `pre`, or `s` itself when it
does not start with `pre`. -/
def TrimPrefix (s pre : List Char) : List Char :=
  if pre.isPrefixOf s then s.drop pre.length else s

/-- The value of a string of decimal digits, most significant digit first. -/
def decimalValue (s : List Char) : Nat :=
  s.foldl (fun n c => n * 10 + (c.toNat - 48)) 0

/-- The loop of `strconv.ParseUint` for base 10: a character that is not a
digit is a syntax error, a value above `maxVal` a range error. (With a 32-bit
`maxVal` the accumulator stays below `2^32`, so the 64-bit cutoff and
wrap-around tests of the loop never fire.) -/
def parseUintLoop (maxVal : Nat) : List Char → Nat → Except GoError Nat
  | [], n => .ok n
  | c :: cs, n =>
    if c.isDigit then
      let n1 := n * 10 + (c.toNat - 48)
      if n1 > maxVal then .error (.other "value out of range")
      else parseUintLoop maxVal cs n1
    else .error (.other "invalid syntax")

/-- `strconv.ParseUint(s, 10, 32)`: the empty string is a syntax error. -/
def ParseUint32 (s : List Char) : Except GoError Nat :=
  if s = [] then .error (.other "invalid syntax")
  else parseUintLoop (2 ^ 32 - 1) s 0

/-- The character of a decimal digit. -/
def digitChar : Nat → Char
  | 0 => '0'
  | 1 => '1'
  | 2 => '2'
  | 3 => '3'
  | 4 => '4'
  | 5 => '5'
  | 6 => '6'
  | 7 => '7'
  | 8 => '8'
  | _ => '9'

/-- The digits of `n` put in front of `acc`, most significant first; `fuel`
bounds the number of digits. -/
def formatUintLoop : Nat → Nat → List Char → List Char
  | 0, _, acc => acc
  | fuel + 1, n, acc =>
    if n / 10 = 0 then digitChar (n % 10) :: acc
    else formatUintLoop fuel (n / 10) (digitChar (n % 10) :: acc)

/-- `fmt.Sprintf("%d", v)` for an unsigned `v`: its decimal digits. -/
def FormatUint (n : Nat) : List Char :=
  formatUintLoop (n + 1) n []

/-- The string is a base-10 unsigned integer that fits 32 bits: decimal digits
only, at least one, with a value below `2^32`. -/
def isUint32Decimal (s : List Char) : Prop :=
  s ≠ [] ∧ (∀ c ∈ s, c.isDigit = true) ∧ decimalValue s < 2 ^ 32

/-- The string is a decimal number in its shortest form: digits only, at least
one, and no leading zero except for the number zero itself. -/
def isCanonicalDecimal (s : List Char) : Prop :=
  s ≠ [] ∧ (∀ c ∈ s, c.isDigit = true) ∧ (s.head? = some '0' → s = ['0'])

/-! ## The byte-sizes flag of `unpackgen` -/

/-- `dynFlagSentinel` -/
def dynFlagSentinel : List Char := "dyn".toList

/-- `bytesFlag`: the parsed groups of byte sizes. -/
structure bytesFlag where
  val : List (List Nat)
  deriving DecidableEq

/-- One pass of the inner loop body of `bytesFlag.Set`: the sentinel, compared
after `strings.ToLower` only, gives `unpack.Dynamic` (a constant of a package
outside these sources, here the parameter `Dynamic`); anything else is trimmed
and parsed as a 32-bit unsigned number. -/
def parseByteSize (Dynamic : Nat) (bStr : List Char) : Except GoError Nat :=
  if ToLower bStr = dynFlagSentinel then .ok Dynamic
  else ParseUint32 (TrimSpace bStr)

/-- The inner loop of `bytesFlag.Set` over the comma-separated items of one
group: the first error is returned, otherwise the sizes in order. -/
def parseGroup (Dynamic : Nat) : List (List Char) → Except GoError (List Nat)
  | [] => .ok []
  | bStr :: rest =>
    match parseByteSize Dynamic bStr with
    | .error err => .error err
    | .ok b =>
      match parseGroup Dynamic rest with
      | .error err => .error err
      | .ok bytes => .ok (b :: bytes)

/-- The outer loop of `bytesFlag.Set` over the semicolon-separated groups. -/
def parseGroups (Dynamic : Nat) : List (List Char) → Except GoError (List (List Nat))
  | [] => .ok []
  | g :: rest =>
    match parseGroup Dynamic (Split g ',') with
    | .error err => .error err
    | .ok bytes =>
      match parseGroups Dynamic rest with
      | .error err => .error err
      | .ok val => .ok (bytes :: val)

/-- `bytesFlag.Set`: the flag after the call and the returned error; the value
is assigned only when every item parsed. -/
def bytesFlag.Set (Dynamic : Nat) (f : bytesFlag) (s : List Char) : bytesFlag × Option GoError :=
  match parseGroups Dynamic (Split s ';') with
  | .error err => (f, some err)
  | .ok val => (⟨val⟩, none)

/-- `bytesFlag.String` -/
def bytesFlag.String (Dynamic : Nat) (f : bytesFlag) : List Char :=
  Join (f.val.map (fun grp =>
    Join (grp.map (fun v => if v = Dynamic then dynFlagSentinel else FormatUint v)) [','])) [';']

/-- Whether a string is a 32-bit decimal is decided by looking at its characters. -/
instance (s : List Char) : Decidable (isUint32Decimal s) := by
  unfold isUint32Decimal; infer_instance

/-- The text `bytesFlag.String` writes for one size. -/
def renderByteSize (Dynamic : Nat) (v : Nat) : List Char :=
  if v = Dynamic then dynFlagSentinel else FormatUint v

/-- A value `bytesFlag.Set` can store: at least one group, no group empty, and
every size either `unpack.Dynamic` or below `2^32`. -/
def isSetValue (Dynamic : Nat) (val : List (List Nat)) : Prop :=
  val ≠ [] ∧ ∀ grp ∈ val, grp ≠ [] ∧ ∀ v ∈ grp, v = Dynamic ∨ v < 2 ^ 32

/-- An item as `bytesFlag.String` writes it: the sentinel in lower case, or a
number below `2^32` other than `unpack.Dynamic` in its shortest decimal form,
with no white space around it. -/
def isCanonicalItem (Dynamic : Nat) (item : List Char) : Prop :=
  item = dynFlagSentinel ∨
    (isCanonicalDecimal item ∧ decimalValue item < 2 ^ 32 ∧ decimalValue item ≠ Dynamic)

/-- What an item of the flag denotes: `unpack.Dynamic` for the sentinel in any
letter case, else the base-10 value of the trimmed item, an unsigned integer
below `2^32`. -/
def itemDenotes (Dynamic : Nat) (item : List Char) (v : Nat) : Prop :=
  (ToLower item = dynFlagSentinel ∧ v = Dynamic) ∨
    (ToLower item ≠ dynFlagSentinel ∧ isUint32Decimal (TrimSpace item) ∧
      v = decimalValue (TrimSpace item))

/-- An item `Set` cannot parse: neither the sentinel nor, after trimming, a
base-10 unsigned integer below `2^32`. -/
def isBadItem (item : List Char) : Prop :=
  ToLower item ≠ dynFlagSentinel ∧ ¬ isUint32Decimal (TrimSpace item)

/-! ## URL helpers -/

/-- `HttpToWebsocketURI` -/
def HttpToWebsocketURI (uri blockchainID : List Char) : List Char :=
  "ws://".toList ++ TrimPrefix uri "http://".toList ++ "/ext/bc/".toList ++ blockchainID
    ++ "/ws".toList

/-- `HttpToRPCURI` -/
def HttpToRPCURI (uri blockchainID : List Char) : List Char :=
  "http://".toList ++ TrimPrefix uri "http://".toList ++ "/ext/bc/".toList ++ blockchainID
    ++ "/rpc".toList

/-- The slice `s[:n]`: out of range when `n` exceeds `len(s)`. The helpers
compare it with an ASCII literal of `n` bytes only, for which the first `n`
characters give the same answer as the first `n` bytes. -/
def sliceTo (s : List Char) (n : Nat) : Option (List Char) :=
  if n ≤ goLen s then some (s.take n) else none

/-- The slice `s[n:]`: out of range when `n` exceeds `len(s)`. The helpers take
it only after `s[:n]` matched an ASCII literal, so `n` bytes are `n` characters. -/
def sliceFrom (s : List Char) (n : Nat) : Option (List Char) :=
  if n ≤ goLen s then some (s.drop n) else none

/-- The tail of `GetURIHostAndPort`, once the scheme is cut off: the split at
`:`, the assertion that it has two parts, and the parse of the port. -/
def hostAndPortOf (uri : List Char) : Exec (List Char × Nat × Option GoError) :=
  match Split uri ':' with
  | [host, portStr] =>
    match ParseUint32 portStr with
    | .error err => .ret ([], 0, some (.wrap "failed to parse port" err))
    | .ok port => .ret (host, port % 2 ^ 32, none)
  | _ => .abort "Expected the length of hostAndPort to equal 2"

/-- The tail of `GetURIHostAndPort` with the length assertion and the two index
expressions `hostAndPort[1]` and `hostAndPort[0]` written out, an index out of
range being a panic. -/
def hostAndPortChecked (uri : List Char) : Exec (List Char × Nat × Option GoError) :=
  let hostAndPort := Split uri ':'
  if hostAndPort.length ≠ 2 then .abort "Expected the length of hostAndPort to equal 2"
  else
    match hostAndPort[1]? with
    | none => .abort "index out of range"
    | some portStr =>
      match ParseUint32 portStr with
      | .error err => .ret ([], 0, some (.wrap "failed to parse port" err))
      | .ok port =>
        match hostAndPort[0]? with
        | none => .abort "index out of range"
        | some host => .ret (host, port % 2 ^ 32, none)

/-- `GetURIHostAndPort`: the assertion `len(uri) > 7`, the two scheme tests
with their slices, and the tail above. An out-of-range slice is a panic. -/
def GetURIHostAndPort (uri : List Char) : Exec (List Char × Nat × Option GoError) :=
  if ¬ goLen uri > 7 then .abort "Expected len(uri) to be > 7"
  else
    match sliceTo uri 7 with
    | none => .abort "slice bounds out of range"
    | some head7 =>
      if head7 = "http://".toList then
        match sliceFrom uri 7 with
        | none => .abort "slice bounds out of range"
        | some rest => hostAndPortOf rest
      else
        match sliceTo uri 8 with
        | none => .abort "slice bounds out of range"
        | some head8 =>
          if head8 = "https://".toList then
            match sliceFrom uri 8 with
            | none => .abort "slice bounds out of range"
            | some rest => hostAndPortOf rest
          else .ret ([], 0, some (.other ("invalid uri: " ++ String.mk uri)))

/-! ## The message codec -/

/-- Modelled from the spec: a byte of a packed payload (the MessageCodec is not
among the sources). -/
abbrev Byte := Fin 256

/-- Modelled from the spec: the big-endian fixed-width form of a number, its
`width` low bytes, most significant first (the MessageCodec is not among the
sources). -/
def bigEndian : Nat → Nat → List Byte
  | 0, _ => []
  | width + 1, v => bigEndian width (v / 256) ++ [⟨v % 256, Nat.mod_lt _ (by decide)⟩]

/-- Modelled from the spec: the number a big-endian byte string stands for (the
MessageCodec is not among the sources). -/
def fromBigEndian (bytes : List Byte) : Nat :=
  bytes.foldl (fun acc b => acc * 256 + b.val) 0

/-- Modelled from the spec: what the spec leaves open in the packed layouts of
the MessageCodec, which is not among the sources: the two type tags, the fixed
size of a BLS public key and the width of the nonce. The weight is an unsigned
64-bit number, the expiry a 64-bit timestamp, the identifiers 32 bytes. -/
structure CodecLayout where
  registrationTag : Byte
  setWeightTag : Byte
  blsPublicKeyLength : Nat
  nonceWidth : Nat

/-- Modelled from the spec: the message types of the MessageCodec (not among
the sources) that the round trip is stated for. -/
inductive MessageType where
  | Registration
  | SetWeight
  deriving DecidableEq

/-- Modelled from the spec: the decoded messages of the MessageCodec (not among
the sources): a registration is weight, node ID, expiry and BLS public key, a
set-weight message is validation ID, nonce and weight. -/
inductive Message where
  | Registration (weight : Nat) (nodeID : List Byte) (expiry : Nat) (blsPublicKey : List Byte)
  | SetWeight (validationID : List Byte) (nonce : Nat) (weight : Nat)
  deriving DecidableEq

/-- Modelled from the spec: the failures of the MessageCodec (not among the
sources). -/
inductive CodecError where
  | InvalidLength
  | UnknownMessageType
  | MalformedPayload
  deriving DecidableEq

/-- Modelled from the spec: the type of a message (the MessageCodec is not
among the sources). -/
def Message.type : Message → MessageType
  | .Registration .. => .Registration
  | .SetWeight .. => .SetWeight

/-- Modelled from the spec: the tag of a message type (the MessageCodec is not
among the sources). -/
def CodecLayout.tag (layout : CodecLayout) : MessageType → Byte
  | .Registration => layout.registrationTag
  | .SetWeight => layout.setWeightTag

/-- Modelled from the spec: the size of the fields that follow the tag (the
MessageCodec is not among the sources). -/
def CodecLayout.payloadSize (layout : CodecLayout) : MessageType → Nat
  | .Registration => 8 + 32 + 8 + layout.blsPublicKeyLength
  | .SetWeight => 32 + layout.nonceWidth + 8

/-- Modelled from the spec: the messages the layout can represent: numbers
within their widths, identifiers of 32 bytes, a key of the fixed size (the
MessageCodec is not among the sources). -/
def CodecLayout.representable (layout : CodecLayout) : Message → Prop
  | .Registration weight nodeID expiry blsPublicKey =>
    weight < 2 ^ 64 ∧ nodeID.length = 32 ∧ expiry < 2 ^ 64 ∧
      blsPublicKey.length = layout.blsPublicKeyLength
  | .SetWeight validationID nonce weight =>
    validationID.length = 32 ∧ nonce < 256 ^ layout.nonceWidth ∧ weight < 2 ^ 64

/-- Modelled from the spec: `encodeRegistration` of the MessageCodec (not among
the sources): the tag, then weight, node ID, expiry and key, numbers in
big-endian fixed width; `InvalidLength` when the key has not the fixed size. -/
def encodeRegistration (layout : CodecLayout) (weight : Nat) (nodeID : List Byte) (expiry : Nat)
    (blsPubKey : List Byte) : Except CodecError (List Byte) :=
  if blsPubKey.length ≠ layout.blsPublicKeyLength then .error .InvalidLength
  else
    .ok (layout.registrationTag ::
      (bigEndian 8 weight ++ nodeID ++ bigEndian 8 expiry ++ blsPubKey))

/-- Modelled from the spec: the packed set-weight message of the MessageCodec
(not among the sources): the tag, then validation ID, nonce and weight, the
validation ID passed through as it is. -/
def encodeSetWeight (layout : CodecLayout) (validationID : List Byte) (nonce weight : Nat) :
    List Byte :=
  layout.setWeightTag ::
    (validationID ++ bigEndian layout.nonceWidth nonce ++ bigEndian 8 weight)

/-- Modelled from the spec: `encode` of the MessageCodec (not among the
sources), by message type. -/
def encode (layout : CodecLayout) : Message → Except CodecError (List Byte)
  | .Registration weight nodeID expiry blsPublicKey =>
    encodeRegistration layout weight nodeID expiry blsPublicKey
  | .SetWeight validationID nonce weight => .ok (encodeSetWeight layout validationID nonce weight)

/-- Modelled from the spec: `decode(msgType, bytes)` of the MessageCodec (not
among the sources). It fails with `UnknownMessageType` when the leading tag is
none of the known ones (or missing) and with `MalformedPayload` when the
remaining length is not the fixed size of the type; otherwise the fields are
read back in order. The spec does not say what a known tag other than the one
of `msgType` gives: here it is `MalformedPayload`. -/
def decode (layout : CodecLayout) (msgType : MessageType) (bytes : List Byte) :
    Except CodecError Message :=
  match bytes with
  | [] => .error .UnknownMessageType
  | tag :: fields =>
    if tag ≠ layout.registrationTag ∧ tag ≠ layout.setWeightTag then .error .UnknownMessageType
    else if tag ≠ layout.tag msgType then .error .MalformedPayload
    else if fields.length ≠ layout.payloadSize msgType then .error .MalformedPayload
    else
      match msgType with
      | .Registration =>
        .ok (.Registration (fromBigEndian (fields.take 8)) ((fields.drop 8).take 32)
          (fromBigEndian ((fields.drop 40).take 8)) (fields.drop 48))
      | .SetWeight =>
        .ok (.SetWeight (fields.take 32)
          (fromBigEndian ((fields.drop 32).take layout.nonceWidth))
          (fromBigEndian ((fields.drop (32 + layout.nonceWidth)).take 8)))

/-! ## The churn limiter -/

/-- `ValidatorManagerSettings` of the generated binding; `MaximumHourlyChurn` is
a `uint8`, a percentage. -/
structure ValidatorManagerSettings where
  PChainBlockchainID : Nat
  SubnetID : Nat
  MaximumHourlyChurn : Nat
  deriving DecidableEq

/-- Modelled from the spec: an operation that changes the validator set, with
the weight it adds or removes (the contract is not among the sources). -/
inductive ChurnOperation where
  | add (weight : Nat)
  | remove (weight : Nat)
  deriving DecidableEq

/-- Modelled from the spec: the weight an operation moves (the contract is not
among the sources). -/
def ChurnOperation.weight : ChurnOperation → Nat
  | .add weight => weight
  | .remove weight => weight

/-- Modelled from the spec: the total active weight after an operation (the
contract is not among the sources). -/
def ChurnOperation.applyTo : ChurnOperation → Nat → Nat
  | .add weight, total => total + weight
  | .remove weight, total => total - weight

/-- Modelled from the spec: the state of the churn limiter (the contract is not
among the sources): the total active weight, and the time and weight of every
operation that was applied, oldest first. -/
structure ChurnState where
  totalWeight : Nat
  churned : List (Nat × Nat)
  deriving DecidableEq

/-- Modelled from the spec: the cumulative weight added or removed within the
rolling hour that ends at `now`, in seconds (the contract is not among the
sources). -/
def hourlyChurn (churned : List (Nat × Nat)) (now : Nat) : Nat :=
  ((churned.filter (fun e => now < e.1 + 3600)).map (fun e => e.2)).sum

/-- Modelled from the spec: the churn invariant at time `now`: the cumulative
churn of the rolling hour is at most `MaximumHourlyChurn` percent of the total
active weight (the contract is not among the sources). -/
def withinChurnLimit (settings : ValidatorManagerSettings) (s : ChurnState) (now : Nat) : Prop :=
  hourlyChurn s.churned now * 100 ≤ settings.MaximumHourlyChurn * s.totalWeight

/-- The churn invariant is decided by computing both sides. -/
instance (settings : ValidatorManagerSettings) (s : ChurnState) (now : Nat) :
    Decidable (withinChurnLimit settings s now) := by
  unfold withinChurnLimit; infer_instance

/-- Modelled from the spec: one add or remove operation at time `now` (the
contract is not among the sources): the operation is applied as a whole, and
it is rejected, with nothing applied, when it would leave the cumulative churn
of the rolling hour above `MaximumHourlyChurn` percent of the total active
weight. -/
def submitChurn (settings : ValidatorManagerSettings) (now : Nat) (op : ChurnOperation)
    (s : ChurnState) : Except LifecycleError ChurnState :=
  let after : ChurnState :=
    { totalWeight := op.applyTo s.totalWeight, churned := s.churned ++ [(now, op.weight)] }
  if withinChurnLimit settings after now then .ok after else .error .ChurnLimitExceeded

/-- Modelled from the spec: a sequence of timed operations, each submitted in
turn; a rejected operation leaves the state as it was (the contract is not
among the sources). -/
def runChurn (settings : ValidatorManagerSettings) :
    List (Nat × ChurnOperation) → ChurnState → ChurnState
  | [], s => s
  | (now, op) :: rest, s =>
    match submitChurn settings now op s with
    | .ok after => runChurn settings rest after
    | .error _ => runChurn settings rest s

/-- The time of the last operation of a sequence, `t0` for the empty one. -/
def lastTime : Nat → List (Nat × ChurnOperation) → Nat
  | t0, [] => t0
  | _, (now, _) :: rest => lastTime now rest

/-! ## Transaction parameters -/

/-- The `big.Int` values of the heap: the integer held at each address, a
`*big.Int` being an address, and the next address to allocate. -/
structure BigHeap where
  cells : Nat → Int
  next : Nat

/-- `big.NewInt(v)`, and a value decoded by the RPC client: a fresh cell. -/
def BigHeap.alloc (heap : BigHeap) (v : Int) : Nat × BigHeap :=
  (heap.next, ⟨fun p => if p = heap.next then v else heap.cells p, heap.next + 1⟩)

/-- `z.Mul(x, y)`: sets the cell of `z` to `x * y` and returns `z`. -/
def BigHeap.Mul (heap : BigHeap) (z x y : Nat) : Nat × BigHeap :=
  (z, ⟨fun p => if p = z then heap.cells x * heap.cells y else heap.cells p, heap.next⟩)

/-- `z.Add(x, y)`: sets the cell of `z` to `x + y` and returns `z`. -/
def BigHeap.Add (heap : BigHeap) (z x y : Nat) : Nat × BigHeap :=
  (z, ⟨fun p => if p = z then heap.cells x + heap.cells y else heap.cells p, heap.next⟩)

/-- The three answers of the RPC client that `CalculateTxParams` asks for: the
base-fee estimate, the suggested tip cap and the nonce of an address, a
`uint64`. Each `big.Int` answer is decoded into a cell of its own. -/
structure FeeClient where
  EstimateBaseFee : Response Int
  SuggestGasTipCap : Response Int
  NonceAt : Nat → Response Nat

/-- `CalculateTxParams`, with the constants `gasUtils.BaseFeeFactor` and
`gasUtils.MaxPriorityFeePerGas` as parameters: the three queries, each followed
by the assertion that it did not fail, then `baseFee.Mul(baseFee, factor)` and
`gasFeeCap.Add(gasFeeCap, priority)` in place. The result is the two pointers
and the nonce, with the heap after the call. -/
def CalculateTxParams (rpc : FeeClient) (BaseFeeFactor MaxPriorityFeePerGas : Int)
    (fundedAddress : Nat) (heap : BigHeap) : Exec ((Nat × Nat × Nat) × BigHeap) :=
  match rpc.EstimateBaseFee with
  | .failure _ => .abort "Expected err to be nil"
  | .value baseFeeValue =>
    let (baseFee, heap1) := heap.alloc baseFeeValue
    match rpc.SuggestGasTipCap with
    | .failure _ => .abort "Expected err to be nil"
    | .value tipValue =>
      let (gasTipCap, heap2) := heap1.alloc tipValue
      match rpc.NonceAt fundedAddress with
      | .failure _ => .abort "Expected err to be nil"
      | .value nonce =>
        let (factor, heap3) := heap2.alloc BaseFeeFactor
        let (gasFeeCap, heap4) := heap3.Mul baseFee baseFee factor
        let (priority, heap5) := heap4.alloc MaxPriorityFeePerGas
        let (gasFeeCap2, heap6) := heap5.Add gasFeeCap gasFeeCap priority
        .ret ((gasFeeCap2, gasTipCap, nonce), heap6)

/-- The values the result of `CalculateTxParams` points to: fee cap, tip cap
and nonce. -/
def txParamValues (result : Exec ((Nat × Nat × Nat) × BigHeap)) : Exec (Int × Int × Nat) :=
  match result with
  | .ret ((gasFeeCap, gasTipCap, nonce), heap) =>
    .ret (heap.cells gasFeeCap, heap.cells gasTipCap, nonce)
  | .abort why => .abort why
  | .pending => .pending

/-- `NativeTransferGas` -/
def NativeTransferGas : Nat := 21000

/-- `types.DynamicFeeTx` with the fields `CreateNativeTransferTransaction` fills. -/
structure DynamicFeeTx where
  ChainID : Int
  Nonce : Nat
  To : Nat
  Gas : Nat
  GasFeeCap : Int
  GasTipCap : Int
  Value : Int
  deriving DecidableEq

/-- The rule of a dynamic-fee transaction that a chain checks: the tip cap is
not above the fee cap. -/
def DynamicFeeTx.wellFormed (tx : DynamicFeeTx) : Prop := tx.GasTipCap ≤ tx.GasFeeCap

instance (tx : DynamicFeeTx) : Decidable tx.wellFormed := by
  unfold DynamicFeeTx.wellFormed
  infer_instance

/-- `CreateNativeTransferTransaction` up to the signature: the transaction built
from the result of `CalculateTxParams` for the sender. `types.NewTx` copies the
values the pointers hold. -/
def CreateNativeTransferTransaction (rpc : FeeClient) (BaseFeeFactor MaxPriorityFeePerGas : Int)
    (EVMChainID : Int) (fromAddress recipient : Nat) (amount : Int) (heap : BigHeap) :
    Exec DynamicFeeTx :=
  match CalculateTxParams rpc BaseFeeFactor MaxPriorityFeePerGas fromAddress heap with
  | .ret ((gasFeeCap, gasTipCap, nonce), heap1) =>
    .ret
      { ChainID := EVMChainID
        Nonce := nonce
        To := recipient
        Gas := NativeTransferGas
        GasFeeCap := heap1.cells gasFeeCap
        GasTipCap := heap1.cells gasTipCap
        Value := amount }
  | .abort why => .abort why
  | .pending => .pending

/-- The heap with nothing allocated. -/
def BigHeap.empty : BigHeap := ⟨fun _ => 0, 0⟩

/-! ## Chain configurations -/

/-- An allocated Go map with string keys: the entry at each key, if any. An
assignment to a nil map panics; the maps here are allocated. -/
abbrev GoMap (α : Type) := String → Option α

/-- The map with no entry. -/
def GoMap.empty {α : Type} : GoMap α := fun _ => none

/-- `m[key] = value` -/
def GoMap.set {α : Type} (m : GoMap α) (key : String) (value : α) : GoMap α :=
  fun k => if k = key then some value else m k

/-- `CChainPathSpecifier` -/
def CChainPathSpecifier : String := "C"

/-- `ChainConfigMap` -/
abbrev ChainConfigMap := GoMap String

/-- The two fields of `interfaces.SubnetTestInfo` that `Add` reads. -/
structure SubnetTestInfo where
  SubnetID : Nat
  BlockchainID : Nat
  deriving DecidableEq

/-- `ChainConfigMap.Add`, with `constants.PrimaryNetworkID` and the `String`
method of an identifier as parameters; the result is the map after the call. -/
def ChainConfigMap.Add (PrimaryNetworkID : Nat) (idString : Nat → String) (m : ChainConfigMap)
    (subnet : SubnetTestInfo) (chainConfig : String) : ChainConfigMap :=
  if subnet.SubnetID = PrimaryNetworkID then
    m.set CChainPathSpecifier chainConfig
  else
    m.set (idString subnet.BlockchainID) chainConfig

/-- A value of `tmpnet.FlagsMap`, a `map[string]interface{}`, as the chain
configuration holds them. -/
inductive FlagValue where
  | str (s : String)
  | bool (b : Bool)
  | strings (l : List String)
  deriving DecidableEq

/-- `tmpnet.FlagsMap` -/
abbrev FlagsMap := GoMap FlagValue

/-- The map literal that initialises `WarpEnabledChainConfig`. -/
def warpEnabledLiteral : FlagsMap :=
  (((GoMap.empty.set "log-level" (.str "debug")).set "warp-api-enabled" (.bool true)).set
    "local-txs-enabled" (.bool true)).set "eth-apis"
    (.strings ["eth", "eth-filter", "net", "admin", "web3", "internal-eth",
      "internal-blockchain", "internal-transaction", "internal-debug", "internal-account",
      "internal-personal", "debug", "debug-tracer", "debug-file-tracer", "debug-handler"])

/-- The map objects of the package and its variable `WarpEnabledChainConfig`,
which holds a reference to one of them. -/
structure PackageState where
  maps : Nat → FlagsMap
  WarpEnabledChainConfig : Nat

/-- The package after initialisation: the variable refers to the literal. -/
def PackageState.initial : PackageState :=
  ⟨fun ref => if ref = 0 then warpEnabledLiteral else GoMap.empty, 0⟩

/-- `chainConfig[key] = value` for a map variable `chainConfig` holding `ref`. -/
def PackageState.assign (pkg : PackageState) (ref : Nat) (key : String) (value : FlagValue) :
    PackageState :=
  ⟨fun r => if r = ref then (pkg.maps r).set key value else pkg.maps r,
    pkg.WarpEnabledChainConfig⟩

/-- A lower-case hexadecimal digit. -/
def hexDigit (n : Nat) : Char :=
  if n < 10 then Char.ofNat (48 + n) else Char.ofNat (87 + n)

/-- The two digits of each byte, as `hex.EncodeToString` writes them. -/
def hexDigits : List Byte → List Char
  | [] => []
  | b :: rest => hexDigit (b.val / 16) :: hexDigit (b.val % 16) :: hexDigits rest

/-- `hexutil.Encode` -/
def hexEncode (b : List Byte) : String := String.mk ('0' :: 'x' :: hexDigits b)

/-- The loop of `GetChainConfigWithOffChainMessages`: each message's bytes are
encoded and appended. -/
def appendHexMessages : List String → List (List Byte) → List String
  | acc, [] => acc
  | acc, message :: rest => appendHexMessages (acc ++ [hexEncode message]) rest

/-- `GetChainConfigWithOffChainMessages`, a message being given by its bytes and
`tmpnet.DefaultJSONMarshal` by `marshal`: the returned string, unless the
assertion on the marshalling fails, and the package after the call. The local
`chainConfig` is assigned the variable `WarpEnabledChainConfig`, a reference. -/
def GetChainConfigWithOffChainMessages (marshal : FlagsMap → Response String)
    (offChainMessages : List (List Byte)) (pkg : PackageState) : Exec String × PackageState :=
  let hexOffChainMessages := appendHexMessages [] offChainMessages
  let chainConfig := pkg.WarpEnabledChainConfig
  let pkg1 := pkg.assign chainConfig "warp-off-chain-messages" (.strings hexOffChainMessages)
  match marshal (pkg1.maps chainConfig) with
  | .failure _ => (.abort "Expected err to be nil", pkg1)
  | .value offChainMessageJson => (.ret offChainMessageJson, pkg1)

/-! ## The genesis template -/

/-- The scan of `strings.ReplaceAll` for a non-empty `old`, left to right: at
an occurrence of `old` it writes `new` and continues behind the occurrence,
elsewhere it copies a character. The fuel bounds the number of steps. -/
def replaceLoop (old new : List Char) : Nat → List Char → List Char
  | 0, s => s
  | _ + 1, [] => []
  | fuel + 1, c :: cs =>
    if old.isPrefixOf (c :: cs) then
      new ++ replaceLoop old new fuel ((c :: cs).drop old.length)
    else c :: replaceLoop old new fuel cs

/-- `strings.ReplaceAll(s, old, new)`; for an empty `old` it writes `new` in
front of the string and behind each character. -/
def ReplaceAll (s old new : List Char) : List Char :=
  if old = [] then new ++ s.flatMap (fun c => c :: new)
  else replaceLoop old new s.length s

/-- The four placeholders of the genesis template. -/
def chainIDTarget : List Char := "<EVM_CHAIN_ID>".toList

/-- The placeholder of the contract address. -/
def contractAddressTarget : List Char := "<TELEPORTER_MESSENGER_CONTRACT_ADDRESS>".toList

/-- The placeholder of the deployed bytecode. -/
def deployedBytecodeTarget : List Char := "<TELEPORTER_MESSENGER_DEPLOYED_BYTECODE>".toList

/-- The placeholder of the deployer address. -/
def deployerAddressTarget : List Char := "<TELEPORTER_MESSENGER_DEPLOYER_ADDRESS>".toList

/-- The `substitutions` of `InstantiateGenesisTemplate`, target and value, in
the order of the source; `Hex` is the `Hex` method of an address. -/
def substitutions (Hex : Nat → List Char) (chainID : Nat) (teleporterContractAddress : Nat)
    (teleporterDeployedBytecode : List Char) (teleporterDeployerAddress : Nat) :
    List (List Char × List Char) :=
  [(chainIDTarget, FormatUint chainID),
   (contractAddressTarget, Hex teleporterContractAddress),
   (deployedBytecodeTarget, teleporterDeployedBytecode),
   (deployerAddressTarget, Hex teleporterDeployerAddress)]

/-- The loop over the substitutions. -/
def applySubstitutions : List Char → List (List Char × List Char) → List Char
  | replaced, [] => replaced
  | replaced, (target, value) :: rest =>
    applySubstitutions (ReplaceAll replaced target value) rest

/-- `InstantiateGenesisTemplate`: the template is read, the temporary file
created, each followed by the assertion that it did not fail, the
substitutions made in order and the text written. The result is the name of
the file and the text written to it. -/
def InstantiateGenesisTemplate (Hex : Nat → List Char)
    (readFile : String → Response (List Char)) (createTemp : Response String)
    (templateFileName : String) (chainID : Nat) (teleporterContractAddress : Nat)
    (teleporterDeployedBytecode : List Char) (teleporterDeployerAddress : Nat) :
    Exec (String × List Char) :=
  match readFile templateFileName with
  | .failure _ => .abort "Expected err to be nil"
  | .value templateFileBytes =>
    match createTemp with
    | .failure _ => .abort "Expected err to be nil"
    | .value name =>
      .ret (name, applySubstitutions templateFileBytes
        (substitutions Hex chainID teleporterContractAddress teleporterDeployedBytecode
          teleporterDeployerAddress))

/-- A hexadecimal digit in either letter case. -/
def isHexDigit (c : Char) : Bool :=
  c.isDigit || (97 ≤ c.toNat && c.toNat ≤ 102) || (65 ≤ c.toNat && c.toNat ≤ 70)

/-- A `0x`-prefixed hex string. -/
def is0xHex (s : List Char) : Prop :=
  s.take 2 = ['0', 'x'] ∧ ∀ c ∈ s.drop 2, isHexDigit c = true

instance (s : List Char) : Decidable (is0xHex s) := by
  unfold is0xHex
  infer_instance

/-- A text contains a placeholder when the placeholder is a run of it. -/
def containsText (s target : List Char) : Prop := target <:+: s

/-- A placeholder: `<` followed by characters that are not digits. -/
def isTarget (target : List Char) : Prop :=
  ∃ q, target = '<' :: q ∧ ∀ c ∈ q, c.isDigit = false

/-- A value that starts with a digit and holds no `<`. -/
def isPlainValue (value : List Char) : Prop :=
  ∃ v rest, value = v :: rest ∧ v.isDigit = true ∧ '<' ∉ value

/-! ## The log iterator -/

/-- `PoAValidatorManagerInitialized` -/
structure PoAValidatorManagerInitialized where
  Version : Nat
  Raw : Log
  deriving DecidableEq

/-- The zero value of `types.Log`, the `Raw` of a fresh event. -/
def zeroLog : Log := ⟨0, [], []⟩

/-- `PoAValidatorManagerInitializedIterator` with what its two channels hold:
`logs` the logs buffered in the log channel, in order, and `subErr` what the
error channel of the subscription is ready to deliver, `none` being the `nil`
of a completed filter. -/
structure PoAValidatorManagerInitializedIterator where
  Event : Option PoAValidatorManagerInitialized
  logs : List Log
  subErr : List (Option GoError)
  done : Bool
  fail : Option GoError
  deriving DecidableEq

/-- The case a `select` takes when both channels are ready. -/
inductive SelectCase where
  | log
  | err
  deriving DecidableEq

/-- The body of `case log := <-it.logs`: a fresh event is unpacked from the log;
on an error the iterator fails, else `Raw` is set. `UnpackLog` gives the version
it writes into the event and its error. -/
def receiveLog (UnpackLog : Log → Nat × Option GoError)
    (it : PoAValidatorManagerInitializedIterator) (log : Log) (rest : List Log) :
    Bool × PoAValidatorManagerInitializedIterator :=
  match UnpackLog log with
  | (version, some err) =>
    (false, { it with Event := some ⟨version, zeroLog⟩, logs := rest, fail := some err })
  | (version, none) => (true, { it with Event := some ⟨version, log⟩, logs := rest })

/-- The `select` with a `default` of a completed iterator: a buffered log is
received, or the call returns false. -/
def pollBuffered (UnpackLog : Log → Nat × Option GoError)
    (it : PoAValidatorManagerInitializedIterator) :
    Bool × PoAValidatorManagerInitializedIterator :=
  match it.logs with
  | log :: rest => receiveLog UnpackLog it log rest
  | [] => (false, it)

/-- The body of `case err := <-it.sub.Err()`: the iterator is marked done, the
delivered value stored, and `Next` called again, which on an iterator that is
done takes one of its first two branches. -/
def receiveErr (UnpackLog : Log → Nat × Option GoError)
    (it : PoAValidatorManagerInitializedIterator) (err : Option GoError)
    (errs : List (Option GoError)) : Bool × PoAValidatorManagerInitializedIterator :=
  let it1 := { it with done := true, fail := err, subErr := errs }
  if it1.fail ≠ none then (false, it1) else pollBuffered UnpackLog it1

/-- `Next`: the result and the iterator after the call; `pick` is the case the
blocking `select` takes when both channels are ready, and with neither ready the
call waits. -/
def PoAValidatorManagerInitializedIterator.Next (UnpackLog : Log → Nat × Option GoError)
    (pick : SelectCase) (it : PoAValidatorManagerInitializedIterator) :
    Exec (Bool × PoAValidatorManagerInitializedIterator) :=
  if it.fail ≠ none then .ret (false, it)
  else if it.done = true then .ret (pollBuffered UnpackLog it)
  else
    match it.logs, it.subErr with
    | [], [] => .pending
    | log :: rest, [] => .ret (receiveLog UnpackLog it log rest)
    | [], err :: errs => .ret (receiveErr UnpackLog it err errs)
    | log :: rest, err :: errs =>
      match pick with
      | .log => .ret (receiveLog UnpackLog it log rest)
      | .err => .ret (receiveErr UnpackLog it err errs)

/-- `Error` -/
def PoAValidatorManagerInitializedIterator.Error (it : PoAValidatorManagerInitializedIterator) :
    Option GoError :=
  it.fail

/-- A sequence of calls of `Next`, one per pick: what each call delivered, the
event for true and `none` for false, and the iterator after the last. -/
def runNext (UnpackLog : Log → Nat × Option GoError) :
    List SelectCase → PoAValidatorManagerInitializedIterator →
      Exec (List (Option PoAValidatorManagerInitialized) × PoAValidatorManagerInitializedIterator)
  | [], it => .ret ([], it)
  | pick :: picks, it =>
    match it.Next UnpackLog pick with
    | .ret (more, it1) =>
      match runNext UnpackLog picks it1 with
      | .ret (delivered, it2) => .ret ((if more then it1.Event else none) :: delivered, it2)
      | .abort why => .abort why
      | .pending => .pending
    | .abort why => .abort why
    | .pending => .pending

/-! ## Concrete inputs -/

/-- The parser that accepts exactly the logs of address 7 and returns their data. -/
def dataOfSeven : LogParser (List Nat) :=
  fun log => if log.Address = 7 then (log.Data, none) else ([], some (.other "signature mismatch"))

/-- An environment where the receipt (status 1, block 5) shows up at the third
query, the height endpoint answers 3 and then 5, the context is never done and
the tracer answers `null`. -/
def minedEnv : Env where
  receipts _ n := if n < 2 then .failure .notFound else .value ⟨1, 9, 5, []⟩
  heights n := if n = 0 then .value 3 else .value 5
  waits _ := none
  traceCall _ := .value ⟨"null"⟩
  marshal _ := .value "null"

/-- An environment where the receipt of block 5 is there at once, the height
endpoint stays at 3 and the context has expired by the first wait. -/
def expiringEnv : Env where
  receipts _ _ := .value ⟨1, 9, 5, []⟩
  heights _ := .value 3
  waits _ := some .deadlineExceeded
  traceCall _ := .value ⟨"null"⟩
  marshal _ := .value "null"

/-- An environment where the height endpoint answers 3 and then refuses the
connection, while the context is never done. -/
def refusingEnv : Env where
  receipts _ _ := .value ⟨1, 9, 5, []⟩
  heights n := if n = 0 then .value 3 else .failure (.other "connection refused")
  waits _ := none
  traceCall _ := .value ⟨"null"⟩
  marshal _ := .value "null"

/-- An environment where the receipt carries the block number `2^64 + 3`, which
a `big.Int` can hold, the height endpoint stays at 3 and the context is never
done. -/
def wrappingEnv : Env where
  receipts _ _ := .value ⟨1, 9, 18446744073709551619, []⟩
  heights _ := .value 3
  waits _ := none
  traceCall _ := .value ⟨"null"⟩
  marshal _ := .value "null"

/-- Where `WaitMined` ends in `minedEnv`. -/
def minedProgress : Progress :=
  ⟨3, 2, 3, [.receiptQuery (.failure .notFound), .wait none,
    .receiptQuery (.failure .notFound), .wait none,
    .receiptQuery (.value ⟨1, 9, 5, []⟩),
    .heightQuery (.value 3), .wait none, .heightQuery (.value 5)]⟩

/-- The admission check that lets every call through. -/
def admitAll : Messenger → MessengerCall → Bool := fun _ _ => true

/-- A fresh receiving messenger at address 100. -/
def messengerB : Messenger := ⟨100, [], []⟩

/-- Collaborators with 48-byte keys, a payload that lists the fields, stand-in
identifiers, and an acknowledgment and a churn policy that always pass. -/
def plainCollaborators : Collaborators where
  blsPublicKeyLength := 48
  encodeRegistration weight nodeID expiry blsKey := weight :: nodeID :: expiry :: blsKey
  deriveValidationID message := message.sum
  deriveMessageID message := message.length
  acknowledged _ _ := true
  churnAdmits _ _ := true

/-- An environment where the receipt query answers `NotFound` once and then
fails with another error, while the context is never done. -/
def brokenEnv : Env where
  receipts _ n := if n = 0 then .failure .notFound else .failure (.other "connection reset")
  heights _ := .value 0
  waits _ := none
  traceCall _ := .value ⟨"null"⟩
  marshal _ := .value "null"

/-- A layout with the tags 1 and 2, keys of 48 bytes and a nonce of 8 bytes. -/
def plainLayout : CodecLayout := ⟨1, 2, 48, 8⟩

/-- A registration of weight 10 with an expiry of 100. -/
def plainRegistration : Message :=
  .Registration 10 (List.replicate 32 5) 100 (List.replicate 48 7)

/-- A set-weight message with nonce 3 and weight 0. -/
def plainSetWeight : Message :=
  .SetWeight (List.replicate 32 9) 3 0

/-- Settings with a maximum hourly churn of 20 percent. -/
def churn20 : ValidatorManagerSettings := ⟨0, 0, 20⟩

/-- A client that answers the three queries with the given values. -/
def answeringClient (baseFee tip : Int) (nonce : Nat) : FeeClient :=
  ⟨.value baseFee, .value tip, fun _ => .value nonce⟩

/-- An identifier's `String` for the examples: its decimal digits. -/
def idDecimal (id : Nat) : String := String.mk (FormatUint id)

/-- A marshaller for the examples: it answers with the number of messages held
under `warp-off-chain-messages`. -/
def countingMarshal (m : FlagsMap) : Response String :=
  match m "warp-off-chain-messages" with
  | some (.strings l) => .value (String.mk (FormatUint l.length))
  | _ => .failure (.other "no messages")

/-- An address `Hex` for the examples: `0x` and the decimal digits. -/
def plainHex (a : Nat) : List Char := '0' :: 'x' :: FormatUint a

/-- A file system for the examples: every file holds the same template. -/
def templateFile (_ : String) : Response (List Char) :=
  .value "id=<EVM_CHAIN_ID>,at=<TELEPORTER_MESSENGER_CONTRACT_ADDRESS>,<EVM_<EVM_CHAIN_ID>".toList

/-- An `UnpackLog` for the examples: the version is the first word of the data,
and a log without data does not unpack. -/
def unpackVersion (log : Log) : Nat × Option GoError :=
  match log.Data with
  | [] => (0, some (.other "abi: attempting to unmarshall an empty string"))
  | version :: _ => (version, none)

/-- An iterator in progress with the given buffered logs and error channel. -/
def iteratorWith (logs : List Log) (subErr : List (Option GoError)) :
    PoAValidatorManagerInitializedIterator :=
  ⟨none, logs, subErr, false, none⟩

/-! # Properties -/

/-! ## `GetEventFromLogs` -/

/-- A log the parser rejects at the head of the list is skipped. -/
theorem GetEventFromLogs_cons_rejected {T : Type} (zero : T) (typeName : String)
    (parser : LogParser T) (log : Log) (rest : List Log) (h : ¬ accepts parser log) :
    GetEventFromLogs zero typeName (log :: rest) parser
      = GetEventFromLogs zero typeName rest parser := by
  unfold accepts at h
  rw [GetEventFromLogs]
  rcases hp : parser log with ⟨event, _ | err⟩
  · rw [hp] at h; exact absurd rfl h
  · rfl

/-- A log the parser accepts at the head of the list decides the result. -/
theorem GetEventFromLogs_cons_accepted {T : Type} (zero : T) (typeName : String)
    (parser : LogParser T) (log : Log) (rest : List Log) (h : accepts parser log) :
    GetEventFromLogs zero typeName (log :: rest) parser = ((parser log).1, none) := by
  unfold accepts at h
  rw [GetEventFromLogs]
  rcases hp : parser log with ⟨event, _ | err⟩
  · rfl
  · rw [hp] at h; cases h

/-- C1: when the parser accepts some log of the list, there is a smallest
index `i` holding an accepted log; `GetEventFromLogs` returns the event parsed
from that log with a `nil` error, and so does every list that agrees with
`logs` up to and including index `i`, whatever follows. -/
theorem GetEventFromLogs_first_match {T : Type} (zero : T) (typeName : String)
    (parser : LogParser T) (logs : List Log) (h : ∃ log ∈ logs, accepts parser log) :
    ∃ i log, logs[i]? = some log ∧ accepts parser log ∧
      (∀ j other, j < i → logs[j]? = some other → ¬ accepts parser other) ∧
      GetEventFromLogs zero typeName logs parser = ((parser log).1, none) ∧
      ∀ later : List Log,
        GetEventFromLogs zero typeName (logs.take (i + 1) ++ later) parser
          = ((parser log).1, none) := by
  induction logs with
  | nil => obtain ⟨log, hmem, _⟩ := h; cases hmem
  | cons head rest ih =>
    by_cases hh : accepts parser head
    · refine ⟨0, head, by simp, hh, ?_, GetEventFromLogs_cons_accepted zero typeName parser head rest hh, ?_⟩
      · intro j other hj; omega
      · intro later
        exact GetEventFromLogs_cons_accepted zero typeName parser head _ hh
    · have hrest : ∃ log ∈ rest, accepts parser log := by
        obtain ⟨log, hmem, hacc⟩ := h
        rcases List.mem_cons.mp hmem with rfl | hmem
        · exact absurd hacc hh
        · exact ⟨log, hmem, hacc⟩
      obtain ⟨i, log, hget, hacc, hmin, hres, hlater⟩ := ih hrest
      refine ⟨i + 1, log, by simpa using hget, hacc, ?_, ?_, ?_⟩
      · intro j other hj hjget
        cases j with
        | zero =>
          have : head = other := by simpa using hjget
          exact this ▸ hh
        | succ j => exact hmin j other (by omega) (by simpa using hjget)
      · rw [GetEventFromLogs_cons_rejected zero typeName parser head rest hh]; exact hres
      · intro later
        have : (head :: rest).take (i + 1 + 1) ++ later = head :: (rest.take (i + 1) ++ later) := by
          simp
        rw [this, GetEventFromLogs_cons_rejected zero typeName parser head _ hh]
        exact hlater later

/-- C1 at a concrete list: the second and the third log are accepted. -/
theorem GetEventFromLogs_first_match_witness :
    ∃ i log, [(⟨1, [], [10]⟩ : Log), ⟨7, [], [20]⟩, ⟨7, [], [30]⟩][i]? = some log ∧
      accepts dataOfSeven log ∧
      (∀ j other, j < i →
        [(⟨1, [], [10]⟩ : Log), ⟨7, [], [20]⟩, ⟨7, [], [30]⟩][j]? = some other →
        ¬ accepts dataOfSeven other) ∧
      GetEventFromLogs [] "event" [(⟨1, [], [10]⟩ : Log), ⟨7, [], [20]⟩, ⟨7, [], [30]⟩] dataOfSeven
        = ((dataOfSeven log).1, none) ∧
      ∀ later : List Log,
        GetEventFromLogs [] "event"
          ([(⟨1, [], [10]⟩ : Log), ⟨7, [], [20]⟩, ⟨7, [], [30]⟩].take (i + 1) ++ later) dataOfSeven
          = ((dataOfSeven log).1, none) :=
  GetEventFromLogs_first_match [] "event" dataOfSeven _
    ⟨⟨7, [], [20]⟩, by simp, by decide⟩

/-- C2: the error of `GetEventFromLogs` is non-nil exactly when the parser
rejects every log of the list (so always for the empty list), and the event
returned with a non-nil error is the zero value. -/
theorem GetEventFromLogs_error_iff_all_rejected {T : Type} (zero : T) (typeName : String)
    (parser : LogParser T) (logs : List Log) :
    ((GetEventFromLogs zero typeName logs parser).2 ≠ none ↔
        ∀ log ∈ logs, ¬ accepts parser log) ∧
      ((GetEventFromLogs zero typeName logs parser).2 ≠ none →
        (GetEventFromLogs zero typeName logs parser).1 = zero) ∧
      (GetEventFromLogs zero typeName ([] : List Log) parser).2 ≠ none := by
  refine ⟨?_, ?_, by simp [GetEventFromLogs]⟩
  · induction logs with
    | nil => simp [GetEventFromLogs]
    | cons head rest ih =>
      by_cases hh : accepts parser head
      · rw [GetEventFromLogs_cons_accepted zero typeName parser head rest hh]
        constructor
        · intro hne; exact absurd rfl hne
        · intro hall; exact absurd hh (hall head (List.mem_cons_self _ _))
      · rw [GetEventFromLogs_cons_rejected zero typeName parser head rest hh, ih]
        constructor
        · intro hall log hmem
          rcases List.mem_cons.mp hmem with rfl | hmem
          · exact hh
          · exact hall log hmem
        · intro hall log hmem
          exact hall log (List.mem_cons_of_mem _ hmem)
  · induction logs with
    | nil => intro _; rfl
    | cons head rest ih =>
      by_cases hh : accepts parser head
      · rw [GetEventFromLogs_cons_accepted zero typeName parser head rest hh]
        intro hne; exact absurd rfl hne
      · rw [GetEventFromLogs_cons_rejected zero typeName parser head rest hh]; exact ih

/-! ## The polling helpers -/

/-- A height wait given no round is still polling. -/
theorem waitForBlockHeight_zero (env : Env) (expected : Nat) (p : Progress) :
    waitForBlockHeight env expected 0 p = .pending := rfl

/-- One round of the height wait. -/
theorem waitForBlockHeight_succ (env : Env) (expected rounds : Nat) (p : Progress) :
    waitForBlockHeight env expected (rounds + 1) p =
      match env.heights p.heightQueries with
      | .failure err => .ret (some err, p.afterHeightQuery (env.heights p.heightQueries))
      | .value currentBlockNumber =>
        if currentBlockNumber ≥ expected then
          .ret (none, p.afterHeightQuery (env.heights p.heightQueries))
        else
          match env.waits p.waited with
          | some ctxErr =>
            .ret (some ctxErr,
              (p.afterHeightQuery (env.heights p.heightQueries)).afterWait (env.waits p.waited))
          | none =>
            waitForBlockHeight env expected rounds
              ((p.afterHeightQuery (env.heights p.heightQueries)).afterWait (env.waits p.waited)) := by
  rw [waitForBlockHeight]
  rfl

/-- How a returning height wait went, read off the environment. -/
theorem waitForBlockHeight_ret_inv (env : Env) (expected : Nat) :
    ∀ (rounds : Nat) (p : Progress) (err : Option GoError) (p' : Progress),
      waitForBlockHeight env expected rounds p = .ret (err, p') →
      ∃ n, n < rounds ∧
        (∀ i, i < n → ∃ h, env.heights (p.heightQueries + i) = .value h ∧ h < expected ∧
          env.waits (p.waited + i) = none) ∧
        p'.heightQueries = p.heightQueries + n + 1 ∧
        p'.receiptQueries = p.receiptQueries ∧
        ((∃ h, env.heights (p.heightQueries + n) = .value h ∧ expected ≤ h ∧ err = none ∧
            p'.waited = p.waited + n ∧
            ∃ between, p'.trace = p.trace ++ between ++ [.heightQuery (.value h)] ∧
              ∀ ev ∈ between, ∀ resp, ev ≠ .receiptQuery resp) ∨
         (∃ e, env.heights (p.heightQueries + n) = .failure e ∧ err = some e ∧
            p'.waited = p.waited + n) ∨
         (∃ h e, env.heights (p.heightQueries + n) = .value h ∧ h < expected ∧
            env.waits (p.waited + n) = some e ∧ err = some e ∧
            p'.waited = p.waited + n + 1)) := by
  intro rounds
  induction rounds with
  | zero => intro p err p' h; simp [waitForBlockHeight] at h
  | succ rounds ih =>
    intro p err p' h
    rw [waitForBlockHeight_succ] at h
    rcases hq : env.heights p.heightQueries with height | e
    · rw [hq] at h
      by_cases hge : height ≥ expected
      · simp only [hge, if_true] at h
        injection h with h
        injection h with h1 h2
        subst h1; subst h2
        refine ⟨0, by omega, by intro i hi; omega, rfl, rfl, Or.inl ⟨height, by simpa using hq, hge, rfl, rfl, [], by simp [Progress.afterHeightQuery], by simp⟩⟩
      · simp only [hge, if_false] at h
        rcases hw : env.waits p.waited with _ | ctxErr
        · rw [hw] at h
          obtain ⟨n, hn, hcont, hhq, hrq, hlast⟩ := ih _ _ _ h
          simp only [Progress.afterHeightQuery, Progress.afterWait] at hcont hhq hrq hlast
          refine ⟨n + 1, by omega, ?_, by omega, hrq, ?_⟩
          · intro i hi
            cases i with
            | zero => exact ⟨height, by simpa using hq, by omega, by simpa using hw⟩
            | succ i =>
              obtain ⟨h', a, b, c⟩ := hcont i (by omega)
              refine ⟨h', ?_, b, ?_⟩
              · rw [← a]; congr 1; omega
              · rw [← c]; congr 1; omega
          · rcases hlast with ⟨h', a, b, c, d, between, ht, hb⟩ | ⟨e, a, c, d⟩ | ⟨h', e, a, b, w, c, d⟩
            · refine Or.inl ⟨h', ?_, b, c, by omega, [.heightQuery (.value height), .wait none] ++ between, ?_, ?_⟩
              · rw [← a]; congr 1; omega
              · rw [ht]; simp
              · intro ev hev resp
                rcases List.mem_append.mp hev with hev | hev
                · simp at hev; rcases hev with rfl | rfl <;> simp
                · exact hb ev hev resp
            · refine Or.inr (Or.inl ⟨e, ?_, c, by omega⟩)
              rw [← a]; congr 1; omega
            · refine Or.inr (Or.inr ⟨h', e, ?_, b, ?_, c, by omega⟩)
              · rw [← a]; congr 1; omega
              · rw [← w]; congr 1; omega
        · rw [hw] at h
          injection h with h
          injection h with h1 h2
          subst h1; subst h2
          refine ⟨0, by omega, by intro i hi; omega, rfl, rfl, Or.inr (Or.inr ⟨height, ctxErr, by simpa using hq, by omega, by simpa using hw, rfl, rfl⟩)⟩
    · rw [hq] at h
      injection h with h
      injection h with h1 h2
      subst h1; subst h2
      exact ⟨0, by omega, by intro i hi; omega, rfl, rfl, Or.inr (Or.inl ⟨e, by simpa using hq, rfl, rfl⟩)⟩

/-- One round of the receipt wait. -/
theorem waitForTransactionReceipt_succ (env : Env) (txHash rounds : Nat) (p : Progress) :
    waitForTransactionReceipt env txHash (rounds + 1) p =
      match env.receipts txHash p.receiptQueries with
      | .value receipt =>
        .ret ((some receipt, none), p.afterReceiptQuery (env.receipts txHash p.receiptQueries))
      | .failure err =>
        if err.isNotFound then
          match env.waits p.waited with
          | some ctxErr =>
            .ret ((none, some ctxErr),
              (p.afterReceiptQuery (env.receipts txHash p.receiptQueries)).afterWait
                (env.waits p.waited))
          | none =>
            waitForTransactionReceipt env txHash rounds
              ((p.afterReceiptQuery (env.receipts txHash p.receiptQueries)).afterWait
                (env.waits p.waited))
        else
          .ret ((none, some err), p.afterReceiptQuery (env.receipts txHash p.receiptQueries)) := by
  rw [waitForTransactionReceipt]
  rfl

/-- How a returning receipt wait went, read off the environment. -/
theorem waitForTransactionReceipt_ret_inv (env : Env) (txHash : Nat) :
    ∀ (rounds : Nat) (p : Progress) (rc : Option Receipt) (er : Option GoError) (p' : Progress),
      waitForTransactionReceipt env txHash rounds p = .ret ((rc, er), p') →
      ∃ n, n < rounds ∧
        (∀ i, i < n → ∃ e, env.receipts txHash (p.receiptQueries + i) = .failure e ∧
          e.isNotFound = true ∧ env.waits (p.waited + i) = none) ∧
        p'.receiptQueries = p.receiptQueries + n + 1 ∧
        p'.heightQueries = p.heightQueries ∧
        ((∃ r, env.receipts txHash (p.receiptQueries + n) = .value r ∧ rc = some r ∧ er = none ∧
            p'.waited = p.waited + n ∧
            ∃ before, p'.trace = p.trace ++ before ++ [.receiptQuery (.value r)]) ∨
         (∃ e, env.receipts txHash (p.receiptQueries + n) = .failure e ∧ e.isNotFound = false ∧
            rc = none ∧ er = some e ∧ p'.waited = p.waited + n) ∨
         (∃ e ctxErr, env.receipts txHash (p.receiptQueries + n) = .failure e ∧
            e.isNotFound = true ∧ env.waits (p.waited + n) = some ctxErr ∧
            rc = none ∧ er = some ctxErr ∧ p'.waited = p.waited + n + 1)) := by
  intro rounds
  induction rounds with
  | zero => intro p rc er p' h; simp [waitForTransactionReceipt] at h
  | succ rounds ih =>
    intro p rc er p' h
    rw [waitForTransactionReceipt_succ] at h
    rcases hq : env.receipts txHash p.receiptQueries with receipt | e
    · rw [hq] at h
      injection h with h
      injection h with h0 h2
      injection h0 with h1 h3
      subst h1; subst h2; subst h3
      exact ⟨0, by omega, by intro i hi; omega, rfl, rfl,
        Or.inl ⟨receipt, by simpa using hq, rfl, rfl, rfl, [], by simp [Progress.afterReceiptQuery]⟩⟩
    · rw [hq] at h
      by_cases hnf : e.isNotFound = true
      · simp only [hnf, if_true] at h
        rcases hw : env.waits p.waited with _ | ctxErr
        · rw [hw] at h
          obtain ⟨n, hn, hcont, hrq, hhq, hlast⟩ := ih _ _ _ _ h
          simp only [Progress.afterReceiptQuery, Progress.afterWait] at hcont hhq hrq hlast
          refine ⟨n + 1, by omega, ?_, by omega, hhq, ?_⟩
          · intro i hi
            cases i with
            | zero => exact ⟨e, by simpa using hq, hnf, by simpa using hw⟩
            | succ i =>
              obtain ⟨e', a, b, c⟩ := hcont i (by omega)
              refine ⟨e', ?_, b, ?_⟩
              · rw [← a]; congr 1; omega
              · rw [← c]; congr 1; omega
          · rcases hlast with ⟨r, a, b, c, d, before, ht⟩ | ⟨e', a, b, c, d, f⟩ |
              ⟨e', ce, a, b, w, c, d, f⟩
            · refine Or.inl ⟨r, ?_, b, c, by omega,
                [.receiptQuery (.failure e), .wait none] ++ before, ?_⟩
              · rw [← a]; congr 1; omega
              · rw [ht]; simp
            · refine Or.inr (Or.inl ⟨e', ?_, b, c, d, by omega⟩)
              rw [← a]; congr 1; omega
            · refine Or.inr (Or.inr ⟨e', ce, ?_, b, ?_, c, d, by omega⟩)
              · rw [← a]; congr 1; omega
              · rw [← w]; congr 1; omega
        · rw [hw] at h
          injection h with h
          injection h with h0 h2
          injection h0 with h1 h3
          subst h1; subst h2; subst h3
          exact ⟨0, by omega, by intro i hi; omega, rfl, rfl,
            Or.inr (Or.inr ⟨e, ctxErr, by simpa using hq, hnf, by simpa using hw, rfl, rfl, rfl⟩)⟩
      · simp only [hnf] at h
        injection h with h
        injection h with h0 h2
        injection h0 with h1 h3
        subst h1; subst h2; subst h3
        exact ⟨0, by omega, by intro i hi; omega, rfl, rfl,
          Or.inr (Or.inl ⟨e, by simpa using hq, by simpa using hnf, rfl, rfl, rfl⟩)⟩

/-- A height wait returns once a round ends it, given rounds enough to reach it. -/
theorem waitForBlockHeight_returns (env : Env) (expected : Nat) :
    ∀ (n rounds : Nat) (p : Progress) (err : Option GoError), n < rounds →
      (∀ i, i < n → ∃ h, env.heights (p.heightQueries + i) = .value h ∧ h < expected ∧
        env.waits (p.waited + i) = none) →
      ((∃ h, env.heights (p.heightQueries + n) = .value h ∧ expected ≤ h ∧ err = none) ∨
       (∃ e, env.heights (p.heightQueries + n) = .failure e ∧ err = some e) ∨
       (∃ h e, env.heights (p.heightQueries + n) = .value h ∧ h < expected ∧
          env.waits (p.waited + n) = some e ∧ err = some e)) →
      ∃ p', waitForBlockHeight env expected rounds p = .ret (err, p') ∧
        p'.heightQueries = p.heightQueries + n + 1 := by
  intro n
  induction n with
  | zero =>
    intro rounds p err hr _ hend
    obtain ⟨rounds, rfl⟩ : ∃ m, rounds = m + 1 := ⟨rounds - 1, by omega⟩
    rw [waitForBlockHeight_succ]
    simp only [Nat.add_zero] at hend
    rcases hend with ⟨h, a, b, c⟩ | ⟨e, a, c⟩ | ⟨h, e, a, b, w, c⟩
    · subst c; rw [a]; simp only [ge_iff_le, b, if_true]
      exact ⟨_, rfl, rfl⟩
    · subst c; rw [a]
      exact ⟨_, rfl, rfl⟩
    · subst c; rw [a]
      have hb : ¬ h ≥ expected := by omega
      simp only [hb, if_false, w]
      exact ⟨_, rfl, rfl⟩
  | succ n ih =>
    intro rounds p err hr hgo hend
    obtain ⟨rounds, rfl⟩ : ∃ m, rounds = m + 1 := ⟨rounds - 1, by omega⟩
    rw [waitForBlockHeight_succ]
    obtain ⟨h, a, b, w⟩ := hgo 0 (by omega)
    simp only [Nat.add_zero] at a w
    rw [a]
    have hb : ¬ h ≥ expected := by omega
    simp only [hb, if_false, w]
    have := ih rounds ((p.afterHeightQuery (.value h)).afterWait none) err (by omega)
      (by
        intro i hi
        obtain ⟨h', a', b', w'⟩ := hgo (i + 1) (by omega)
        refine ⟨h', ?_, b', ?_⟩
        · rw [← a']; simp only [Progress.afterHeightQuery, Progress.afterWait]; congr 1; omega
        · rw [← w']; simp only [Progress.afterHeightQuery, Progress.afterWait]; congr 1; omega)
      (by
        have e1 : ((p.afterHeightQuery (.value h)).afterWait none).heightQueries + n
            = p.heightQueries + (n + 1) := by
          simp only [Progress.afterHeightQuery, Progress.afterWait]; omega
        have e2 : ((p.afterHeightQuery (.value h)).afterWait none).waited + n
            = p.waited + (n + 1) := by
          simp only [Progress.afterHeightQuery, Progress.afterWait]; omega
        rw [e1, e2]; exact hend)
    obtain ⟨p', hp', hq'⟩ := this
    refine ⟨p', hp', ?_⟩
    rw [hq']; simp only [Progress.afterHeightQuery, Progress.afterWait]; omega

/-- C5: with the context not done, if the next `k` answers to
`TransactionReceipt` are `NotFound` errors and the one after them is the
receipt `r`, then `waitForTransactionReceipt`, given more than `k` rounds,
returns `(r, nil)` after exactly `k + 1` queries (and `k` waits, and no height
query). -/
theorem waitForTransactionReceipt_after_notFound (env : Env) (txHash : Nat) :
    ∀ (k rounds : Nat) (p : Progress) (r : Receipt), k < rounds →
      (∀ i, i < k → ∃ e, env.receipts txHash (p.receiptQueries + i) = .failure e ∧
        e.isNotFound = true) →
      (∀ i, i < k → env.waits (p.waited + i) = none) →
      env.receipts txHash (p.receiptQueries + k) = .value r →
      ∃ p', waitForTransactionReceipt env txHash rounds p = .ret ((some r, none), p') ∧
        p'.receiptQueries = p.receiptQueries + (k + 1) ∧
        p'.heightQueries = p.heightQueries ∧
        p'.waited = p.waited + k ∧
        p'.trace.length = p.trace.length + (2 * k + 1) := by
  intro k
  induction k with
  | zero =>
    intro rounds p r hr _ _ hok
    obtain ⟨rounds, rfl⟩ : ∃ m, rounds = m + 1 := ⟨rounds - 1, by omega⟩
    rw [waitForTransactionReceipt_succ]
    simp only [Nat.add_zero] at hok
    rw [hok]
    exact ⟨_, rfl, rfl, rfl, rfl, by simp [Progress.afterReceiptQuery]⟩
  | succ k ih =>
    intro rounds p r hr hnf hw hok
    obtain ⟨rounds, rfl⟩ : ∃ m, rounds = m + 1 := ⟨rounds - 1, by omega⟩
    rw [waitForTransactionReceipt_succ]
    obtain ⟨e, a, b⟩ := hnf 0 (by omega)
    have w := hw 0 (by omega)
    simp only [Nat.add_zero] at a w
    rw [a]
    simp only [b, if_true, w]
    have := ih rounds ((p.afterReceiptQuery (.failure e)).afterWait none) r (by omega)
      (by
        intro i hi
        obtain ⟨e', a', b'⟩ := hnf (i + 1) (by omega)
        refine ⟨e', ?_, b'⟩
        rw [← a']; simp only [Progress.afterReceiptQuery, Progress.afterWait]; congr 1; omega)
      (by
        intro i hi
        rw [← hw (i + 1) (by omega)]
        simp only [Progress.afterReceiptQuery, Progress.afterWait]; congr 1; omega)
      (by
        rw [← hok]; simp only [Progress.afterReceiptQuery, Progress.afterWait]; congr 1; omega)
    obtain ⟨p', hp', h1, h2, h3, h4⟩ := this
    refine ⟨p', hp', ?_, ?_, ?_, ?_⟩
    · rw [h1]; simp only [Progress.afterReceiptQuery, Progress.afterWait]; omega
    · rw [h2]; simp only [Progress.afterReceiptQuery, Progress.afterWait]
    · rw [h3]; simp only [Progress.afterReceiptQuery, Progress.afterWait]; omega
    · rw [h4]; simp [Progress.afterReceiptQuery, Progress.afterWait]; omega

/-- C3: `WaitMined` returns no partial result. When the receipt wait returns an
error, `WaitMined` returns `(nil, err)` with that error; when a receipt was
obtained and the height wait returns an error (a failed query, or the context
expiring or being cancelled), it returns `(nil, err)` with that error and drops
the receipt; and whatever it returns, a non-nil receipt comes with a `nil`
error and a `nil` receipt with a non-nil error. -/
theorem WaitMined_no_partial_result (env : Env) (txHash rounds : Nat) (p : Progress) :
    (∀ rc err p1, waitForTransactionReceipt env txHash rounds p = .ret ((rc, some err), p1) →
        WaitMined env txHash rounds p = .ret ((none, some err), p1)) ∧
      (∀ receipt p1 err p2,
        waitForTransactionReceipt env txHash rounds p = .ret ((some receipt, none), p1) →
        waitForBlockHeight env (Uint64 receipt.BlockNumber) rounds p1 = .ret (some err, p2) →
        WaitMined env txHash rounds p = .ret ((none, some err), p2)) ∧
      (∀ rc er p', WaitMined env txHash rounds p = .ret ((rc, er), p') →
        (rc ≠ none → er = none) ∧ (rc = none → er ≠ none)) := by
  refine ⟨?_, ?_, ?_⟩
  · intro rc err p1 h
    simp only [WaitMined, h]
  · intro receipt p1 err p2 h1 h2
    simp only [WaitMined, h1, h2]
  · intro rc er p' h
    unfold WaitMined at h
    split at h
    · cases h
    · cases h
    · injection h with h; injection h with h0 h2; injection h0 with h1 h3
      subst h1; subst h3
      exact ⟨fun hne => absurd rfl hne, fun _ => by simp⟩
    · cases h
    · split at h
      · cases h
      · cases h
      · injection h with h; injection h with h0 h2; injection h0 with h1 h3
        subst h1; subst h3
        exact ⟨fun hne => absurd rfl hne, fun _ => by simp⟩
      · injection h with h; injection h with h0 h2; injection h0 with h1 h3
        subst h1; subst h3
        exact ⟨fun _ => rfl, fun hn => by cases hn⟩

/-- Counterexample to C4 as stated: the receipt carries the block number
`2^64 + 3`, whose `Uint64()` is 3; the height endpoint answers 3 and never more,
and `WaitMined` returns `(receipt, nil)` after that one `BlockNumber` query,
whose height is below `receipt.BlockNumber`. -/
theorem WaitMined_height_below_block :
    WaitMined wrappingEnv 9 1 .start
        = .ret ((some ⟨1, 9, 18446744073709551619, []⟩, none),
            ⟨1, 1, 0, [.receiptQuery (.value ⟨1, 9, 18446744073709551619, []⟩),
              .heightQuery (.value 3)]⟩) ∧
      (18446744073709551619 : Nat) = 2 ^ 64 + 3 ∧
      Uint64 18446744073709551619 = 3 ∧
      (∀ n height, wrappingEnv.heights n = .value height →
        height < (⟨1, 9, 18446744073709551619, []⟩ : Receipt).BlockNumber) := by
  refine ⟨rfl, by norm_num, by norm_num [Uint64], ?_⟩
  intro n height h
  simp only [wrappingEnv] at h
  injection h with h
  subst h
  norm_num

/-- C4, amended: when `WaitMined` returns `(receipt, nil)`, its interactions end
with a `BlockNumber` query that comes after the query that returned the receipt,
with no receipt query in between, and that last query returned a height at least
`receipt.BlockNumber.Uint64()`, the value the code waits for; this is
`receipt.BlockNumber` itself for every block number below `2^64`; equality
suffices. -/
theorem WaitMined_height_reached (env : Env) (txHash rounds : Nat) (p p' : Progress)
    (receipt : Receipt)
    (h : WaitMined env txHash rounds p = .ret ((some receipt, none), p')) :
    ∃ before between height,
      p'.trace = p.trace ++ before ++ [.receiptQuery (.value receipt)] ++ between
        ++ [.heightQuery (.value height)] ∧
      (∀ ev ∈ between, ∀ resp, ev ≠ .receiptQuery resp) ∧
      p.heightQueries < p'.heightQueries ∧
      env.heights (p'.heightQueries - 1) = .value height ∧
      Uint64 receipt.BlockNumber ≤ height ∧
      (receipt.BlockNumber < 2 ^ 64 → receipt.BlockNumber ≤ height) := by
  unfold WaitMined at h
  split at h
  · cases h
  · cases h
  · cases h
  · cases h
  · rename_i r p1 hrec
    split at h
    · cases h
    · cases h
    · cases h
    · rename_i p2 hht
      injection h with h; injection h with h0 h2; injection h0 with h1 h3
      injection h1 with h1
      subst h1; subst h2
      obtain ⟨n, _, _, _, hhq1, hcase⟩ :=
        waitForTransactionReceipt_ret_inv env txHash rounds p _ _ _ hrec
      obtain ⟨m, _, _, hhq2, _, hcase2⟩ :=
        waitForBlockHeight_ret_inv env _ rounds p1 _ _ hht
      rcases hcase with ⟨r', _, hr', _, _, before, htr⟩ | ⟨_, _, _, hc, _⟩ | ⟨_, _, _, _, _, hc, _⟩
      · injection hr' with hr'; subst hr'
        rcases hcase2 with ⟨height, hv, hge, _, _, between, htr2, hbt⟩ | ⟨_, _, hc, _⟩ |
          ⟨_, _, _, _, _, hc, _⟩
        · refine ⟨before, between, height, ?_, hbt, by omega, ?_, hge, ?_⟩
          · rw [htr2, htr]
          · rw [← hv]; congr 1; omega
          · intro hlt
            have : Uint64 r.BlockNumber = r.BlockNumber := Nat.mod_eq_of_lt hlt
            omega
        · cases hc
        · cases hc
      · cases hc
      · cases hc

/-- Witness of C3: the receipt is obtained, the height stays behind and the
context expires; the receipt is dropped. -/
theorem WaitMined_no_partial_result_witness :
    waitForTransactionReceipt expiringEnv 9 3 .start
        = .ret ((some ⟨1, 9, 5, []⟩, none), ⟨1, 0, 0, [.receiptQuery (.value ⟨1, 9, 5, []⟩)]⟩) ∧
      WaitMined expiringEnv 9 3 .start
        = .ret ((none, some .deadlineExceeded),
            ⟨1, 1, 1, [.receiptQuery (.value ⟨1, 9, 5, []⟩), .heightQuery (.value 3),
              .wait (some .deadlineExceeded)]⟩) :=
  ⟨rfl, (WaitMined_no_partial_result expiringEnv 9 3 .start).2.1 ⟨1, 9, 5, []⟩ _ _ _ rfl rfl⟩

/-- Witness of C4, amended: two `NotFound` answers, the receipt of block 5, a
height of 3 and then the height 5. -/
theorem WaitMined_height_reached_witness :
    WaitMined minedEnv 9 4 .start = .ret ((some ⟨1, 9, 5, []⟩, none), minedProgress) ∧
      ∃ before between height,
        minedProgress.trace = Progress.start.trace ++ before
          ++ [.receiptQuery (.value ⟨1, 9, 5, []⟩)] ++ between
          ++ [.heightQuery (.value height)] ∧
        (∀ ev ∈ between, ∀ resp, ev ≠ .receiptQuery resp) ∧
        Progress.start.heightQueries < minedProgress.heightQueries ∧
        minedEnv.heights (minedProgress.heightQueries - 1) = .value height ∧
        Uint64 (5 : Nat) ≤ height ∧
        ((5 : Nat) < 2 ^ 64 → 5 ≤ height) :=
  ⟨rfl, WaitMined_height_reached minedEnv 9 4 .start minedProgress ⟨1, 9, 5, []⟩ rfl⟩

/-- Witness of C5: `k = 2` in `minedEnv`. -/
theorem waitForTransactionReceipt_after_notFound_witness :
    ∃ p', waitForTransactionReceipt minedEnv 9 3 .start = .ret ((some ⟨1, 9, 5, []⟩, none), p') ∧
      p'.receiptQueries = Progress.start.receiptQueries + (2 + 1) ∧
      p'.heightQueries = Progress.start.heightQueries ∧
      p'.waited = Progress.start.waited + 2 ∧
      p'.trace.length = Progress.start.trace.length + (2 * 2 + 1) :=
  waitForTransactionReceipt_after_notFound minedEnv 9 2 3 .start ⟨1, 9, 5, []⟩ (by decide)
    (fun i hi => ⟨.notFound, by
      have : i = 0 ∨ i = 1 := by omega
      rcases this with rfl | rfl <;> exact ⟨rfl, rfl⟩⟩)
    (fun _ _ => rfl) rfl

/-- Counterexample to C6 as stated: in `refusingEnv` the height wait for block 5
sees the height 3, waits, and returns the error of the second `BlockNumber`
query, although no returned height reached 5 and the context is never done. -/
theorem waitForBlockHeight_stops_on_query_error :
    waitForBlockHeight refusingEnv 5 2 .start
        = .ret (some (.other "connection refused"),
            ⟨0, 2, 1, [.heightQuery (.value 3), .wait none,
              .heightQuery (.failure (.other "connection refused"))]⟩) ∧
      (∀ n h, refusingEnv.heights n = .value h → h < 5) ∧
      (∀ n, refusingEnv.waits n = none) := by
  refine ⟨rfl, ?_, fun _ => rfl⟩
  intro n h hv
  simp only [refusingEnv] at hv
  split at hv
  · injection hv with hv; omega
  · cases hv

/-- C6, amended: `waitForBlockHeight` stops polling and returns under exactly
three conditions. If it returns, then some round `n` ended it after `n` rounds
that each saw a height below `expectedBlockNumber` and a ticker tick, and round
`n` either saw a height `>= expectedBlockNumber` (it returns `nil`), or its
`BlockNumber` query failed (it returns that error), or the context was done at
its wait (it returns `cctx.Err()`). Conversely, given rounds enough to reach
such a round, it returns there. -/
theorem waitForBlockHeight_stops_exactly_when (env : Env) (expected rounds : Nat)
    (p : Progress) :
    (∀ err p', waitForBlockHeight env expected rounds p = .ret (err, p') →
      ∃ n, n < rounds ∧
        (∀ i, i < n → ∃ h, env.heights (p.heightQueries + i) = .value h ∧ h < expected ∧
          env.waits (p.waited + i) = none) ∧
        p'.heightQueries = p.heightQueries + n + 1 ∧
        ((∃ h, env.heights (p.heightQueries + n) = .value h ∧ expected ≤ h ∧ err = none) ∨
         (∃ e, env.heights (p.heightQueries + n) = .failure e ∧ err = some e) ∨
         (∃ h e, env.heights (p.heightQueries + n) = .value h ∧ h < expected ∧
            env.waits (p.waited + n) = some e ∧ err = some e))) ∧
      (∀ n err, n < rounds →
        (∀ i, i < n → ∃ h, env.heights (p.heightQueries + i) = .value h ∧ h < expected ∧
          env.waits (p.waited + i) = none) →
        ((∃ h, env.heights (p.heightQueries + n) = .value h ∧ expected ≤ h ∧ err = none) ∨
         (∃ e, env.heights (p.heightQueries + n) = .failure e ∧ err = some e) ∨
         (∃ h e, env.heights (p.heightQueries + n) = .value h ∧ h < expected ∧
            env.waits (p.waited + n) = some e ∧ err = some e)) →
        ∃ p', waitForBlockHeight env expected rounds p = .ret (err, p') ∧
          p'.heightQueries = p.heightQueries + n + 1) := by
  refine ⟨?_, ?_⟩
  · intro err p' h
    obtain ⟨n, hn, hgo, hq, _, hlast⟩ := waitForBlockHeight_ret_inv env expected rounds p err p' h
    refine ⟨n, hn, hgo, hq, ?_⟩
    rcases hlast with ⟨h', a, b, c, _⟩ | ⟨e, a, c, _⟩ | ⟨h', e, a, b, w, c, _⟩
    · exact Or.inl ⟨h', a, b, c⟩
    · exact Or.inr (Or.inl ⟨e, a, c⟩)
    · exact Or.inr (Or.inr ⟨h', e, a, b, w, c⟩)
  · intro n err hn hgo hend
    exact waitForBlockHeight_returns env expected n rounds p err hn hgo hend

/-- Witness of C6, amended: the return in `refusingEnv` is the second of the
three conditions, at round 1. -/
theorem waitForBlockHeight_stops_exactly_when_witness :
    waitForBlockHeight refusingEnv 5 2 .start
        = .ret (some (.other "connection refused"),
            ⟨0, 2, 1, [.heightQuery (.value 3), .wait none,
              .heightQuery (.failure (.other "connection refused"))]⟩) ∧
      ∃ n, n < 2 ∧
        (∀ i, i < n → ∃ h, refusingEnv.heights (Progress.start.heightQueries + i) = .value h ∧
          h < 5 ∧ refusingEnv.waits (Progress.start.waited + i) = none) ∧
        (2 : Nat) = Progress.start.heightQueries + n + 1 ∧
        ((∃ h, refusingEnv.heights (Progress.start.heightQueries + n) = .value h ∧ 5 ≤ h ∧
            some (GoError.other "connection refused") = none) ∨
         (∃ e, refusingEnv.heights (Progress.start.heightQueries + n) = .failure e ∧
            some (GoError.other "connection refused") = some e) ∨
         (∃ h e, refusingEnv.heights (Progress.start.heightQueries + n) = .value h ∧ h < 5 ∧
            refusingEnv.waits (Progress.start.waited + n) = some e ∧
            some (GoError.other "connection refused") = some e)) :=
  ⟨rfl, (waitForBlockHeight_stops_exactly_when refusingEnv 5 2 .start).1 _
    ⟨0, 2, 1, [.heightQuery (.value 3), .wait none,
      .heightQuery (.failure (.other "connection refused"))]⟩ rfl⟩

/-- `TraceTransactionAndExit` does not return when `json.Marshal` never yields
the empty string. -/
theorem TraceTransactionAndExit_never_returns (env : Env)
    (hjson : ∀ v s, env.marshal v = .value s → s ≠ "") (txHash : Nat) (u : Unit) :
    TraceTransactionAndExit env txHash ≠ .ret u := by
  unfold TraceTransactionAndExit TraceTransaction
  rcases hc : env.traceCall txHash with v | e
  · rcases hm : env.marshal v with s | e
    · have hs : s ≠ "" := hjson v s hm
      simp [hc, hm, hs]
    · simp [hc, hm]
  · simp [hc]

/-- C7: `waitForTransaction` returns a receipt only when the receipt status
agrees with the `success` flag: with `success = false` only a receipt whose
status is `ReceiptStatusFailed`, with `success = true` only one whose status is
not `ReceiptStatusFailed`; for a failed receipt and `success = true` the call
reaches `TraceTransactionAndExit`, which never returns, `json.Marshal` never
yielding the empty string. -/
theorem waitForTransaction_status_agrees (env : Env)
    (hjson : ∀ v s, env.marshal v = .value s → s ≠ "")
    (txHash : Nat) (success : Bool) (rounds : Nat) (p p' : Progress) (receipt : Receipt)
    (h : waitForTransaction env txHash success rounds p = .ret (receipt, p')) :
    (success = false → receipt.Status = ReceiptStatusFailed) ∧
      (success = true → receipt.Status ≠ ReceiptStatusFailed) ∧
      (∀ hash u, TraceTransactionAndExit env hash ≠ .ret u) := by
  refine ⟨?_, ?_, fun hash u => TraceTransactionAndExit_never_returns env hjson hash u⟩
  · intro hs
    subst hs
    unfold waitForTransaction at h
    split at h
    · cases h
    · cases h
    · cases h
    · cases h
    · rename_i r p1 _
      by_cases hst : r.Status = ReceiptStatusFailed
      · simp [hst] at h
        rw [← h.1]; exact hst
      · simp [hst] at h
  · intro hs
    subst hs
    unfold waitForTransaction at h
    split at h
    · cases h
    · cases h
    · cases h
    · cases h
    · rename_i r p1 _
      by_cases hst : r.Status = ReceiptStatusFailed
      · simp only [hst, if_true] at h
        split at h
        · cases h
        · cases h
        · rename_i u htr
          exact absurd htr (TraceTransactionAndExit_never_returns env hjson _ u)
      · simp [hst] at h
        rw [← h.1]; exact hst

/-- Witness of C7: in `minedEnv` the receipt has status 1 and the wait for a
successful transaction returns it. -/
theorem waitForTransaction_status_agrees_witness :
    (∀ v s, minedEnv.marshal v = .value s → s ≠ "") ∧
      waitForTransaction minedEnv 9 true 4 .start = .ret (⟨1, 9, 5, []⟩, minedProgress) ∧
      ((true = false → (1 : Nat) = ReceiptStatusFailed) ∧
        (true = true → (1 : Nat) ≠ ReceiptStatusFailed) ∧
        (∀ hash u, TraceTransactionAndExit minedEnv hash ≠ .ret u)) :=
  have hjson : ∀ v s, minedEnv.marshal v = .value s → s ≠ "" := by
    intro v s hv
    simp only [minedEnv] at hv
    injection hv with hv
    subst hv
    decide
  ⟨hjson, rfl,
    waitForTransaction_status_agrees minedEnv hjson 9 true 4 .start minedProgress
      ⟨1, 9, 5, []⟩ rfl⟩

/-! ## The token-remote binding -/

/-- Counterexample to C8 as stated: with a backend that takes every
transaction, `Send` with a zero destination address and a zero recipient, and
`SendAndCall` with zero addresses and `RequiredGasLimit` above
`RecipientGasLimit`, return a `nil` error and have submitted the transaction. -/
theorem Send_submits_invalid_input :
    zeroSendTokensInput.DestinationTokenTransferrerAddress = 0 ∧
      zeroSendTokensInput.Recipient = 0 ∧
      NativeTokenRemoteTransactor.Send ⟨submittingContract⟩ ⟨1, 0⟩ zeroSendTokensInput []
        = ((some ⟨1, 0, "send", [.sendTokensInput zeroSendTokensInput]⟩, none),
            [⟨1, 0, "send", [.sendTokensInput zeroSendTokensInput]⟩]) ∧
      badSendAndCallInput.DestinationTokenTransferrerAddress = 0 ∧
      badSendAndCallInput.RecipientContract = 0 ∧
      ¬ badSendAndCallInput.RequiredGasLimit < badSendAndCallInput.RecipientGasLimit ∧
      NativeTokenRemoteTransactor.SendAndCall ⟨submittingContract⟩ ⟨1, 0⟩ badSendAndCallInput []
        = ((some ⟨1, 0, "sendAndCall", [.sendAndCallInput badSendAndCallInput]⟩, none),
            [⟨1, 0, "sendAndCall", [.sendAndCallInput badSendAndCallInput]⟩]) :=
  ⟨rfl, rfl, rfl, rfl, rfl, by decide, rfl⟩

/-- C8, amended: `Send` and `SendAndCall` validate nothing locally. For every
input, on the transactor and on both sessions, the call is the bound contract's
`Transact` with the method name `send` or `sendAndCall` and the input unchanged
as its only argument: its result is returned and its effect on the submitted
transactions is the effect of the call. -/
theorem Send_forwards_input_unchecked (t : NativeTokenRemoteTransactor) (opts : TransactOpts)
    (submitted : List Transaction) :
    (∀ input : SendTokensInput,
        t.Send opts input submitted
          = t.contract.Transact opts "send" [.sendTokensInput input] submitted ∧
        NativeTokenRemoteSession.Send ⟨t, opts⟩ input submitted
          = t.contract.Transact opts "send" [.sendTokensInput input] submitted ∧
        NativeTokenRemoteTransactorSession.Send ⟨t, opts⟩ input submitted
          = t.contract.Transact opts "send" [.sendTokensInput input] submitted) ∧
      (∀ input : SendAndCallInput,
        t.SendAndCall opts input submitted
          = t.contract.Transact opts "sendAndCall" [.sendAndCallInput input] submitted ∧
        NativeTokenRemoteSession.SendAndCall ⟨t, opts⟩ input submitted
          = t.contract.Transact opts "sendAndCall" [.sendAndCallInput input] submitted ∧
        NativeTokenRemoteTransactorSession.SendAndCall ⟨t, opts⟩ input submitted
          = t.contract.Transact opts "sendAndCall" [.sendAndCallInput input] submitted) :=
  ⟨fun _ => ⟨rfl, rfl, rfl⟩, fun _ => ⟨rfl, rfl, rfl⟩⟩

/-! ## The pause flow -/

/-- The paused flag of an address after a pause: set for the paused address,
unchanged for every other. -/
theorem IsTeleporterAddressPaused_after_pause (m : Messenger) (a b : Nat) :
    Messenger.IsTeleporterAddressPaused { m with paused := a :: m.paused } b
      = (decide (b = a) || m.IsTeleporterAddressPaused b) := by
  simp [Messenger.IsTeleporterAddressPaused]

/-- The paused flag of an address after an unpause: cleared for the unpaused
address, unchanged for every other. -/
theorem IsTeleporterAddressPaused_after_unpause (m : Messenger) (a b : Nat) :
    Messenger.IsTeleporterAddressPaused
        { m with paused := m.paused.filter (fun c => c ≠ a) } b
      = (!decide (b = a) && m.IsTeleporterAddressPaused b) := by
  simp only [Messenger.IsTeleporterAddressPaused, List.mem_filter]
  by_cases h : b = a <;> by_cases hm : b ∈ m.paused <;> simp [h, hm]

/-- C9: on the modelled receiving messenger, for every admission check. After
a pause of `a` that succeeds, `IsTeleporterAddressPaused a` is true and every
message arriving through `a` is rejected; after an unpause of `a` that
succeeds, it is false and a message arriving through `a` is received; a call
that changes the paused flag of an address is the pause or the unpause of that
address; and the flow `PauseTeleporter`, when its pause and unpause are
admitted, passes all its assertions and ends unpaused, having received
`message_2` and not `message_1`. -/
theorem pause_flow_paused_flag (admits : Messenger → MessengerCall → Bool) (m : Messenger)
    (a : Nat) :
    (∀ m1 logs, m.transact admits (.PauseTeleporterAddress a) = some (m1, logs) →
        m1.IsTeleporterAddressPaused a = true ∧
        ∀ message, m1.transact admits (.receiveTeleporterMessage a message) = none) ∧
      (∀ m1 logs, m.transact admits (.UnpauseTeleporterAddress a) = some (m1, logs) →
        m1.IsTeleporterAddressPaused a = false ∧
        ∀ message, m1.transact admits (.receiveTeleporterMessage a message)
          = some ({ m1 with received := m1.received ++ [message] },
              [⟨m1.address, [], message.toList.map Char.toNat⟩])) ∧
      (∀ call m1 logs b, m.transact admits call = some (m1, logs) →
        m1.IsTeleporterAddressPaused b ≠ m.IsTeleporterAddressPaused b →
        call = .PauseTeleporterAddress b ∨ call = .UnpauseTeleporterAddress b) ∧
      (admits m (.PauseTeleporterAddress a) = true →
        admits { m with paused := a :: m.paused } (.UnpauseTeleporterAddress a) = true →
        PauseTeleporter admits a m
          = .ret { m with paused := (a :: m.paused).filter (fun c => c ≠ a),
                          received := m.received ++ ["message_2"] }) := by
  refine ⟨?_, ?_, ?_, ?_⟩
  · intro m1 logs h
    simp only [Messenger.transact] at h
    split at h
    · injection h with h; injection h with h1 _
      subst h1
      have hp : Messenger.IsTeleporterAddressPaused { m with paused := a :: m.paused } a = true := by
        rw [IsTeleporterAddressPaused_after_pause]; simp
      refine ⟨hp, ?_⟩
      intro message
      simp only [Messenger.transact, hp, if_true]
    · cases h
  · intro m1 logs h
    simp only [Messenger.transact] at h
    split at h
    · injection h with h; injection h with h1 _
      subst h1
      have hp : Messenger.IsTeleporterAddressPaused
          { m with paused := m.paused.filter (fun c => c ≠ a) } a = false := by
        rw [IsTeleporterAddressPaused_after_unpause]; simp
      refine ⟨hp, ?_⟩
      intro message
      simp only [Messenger.transact, hp]
      rfl
    · cases h
  · intro call m1 logs b h hne
    cases call with
    | PauseTeleporterAddress c =>
      simp only [Messenger.transact] at h
      split at h
      · injection h with h; injection h with h1 _
        subst h1
        rw [IsTeleporterAddressPaused_after_pause] at hne
        by_cases hbc : b = c
        · subst hbc; exact Or.inl rfl
        · simp [hbc] at hne
      · cases h
    | UnpauseTeleporterAddress c =>
      simp only [Messenger.transact] at h
      split at h
      · injection h with h; injection h with h1 _
        subst h1
        rw [IsTeleporterAddressPaused_after_unpause] at hne
        by_cases hbc : b = c
        · subst hbc; exact Or.inr rfl
        · simp [hbc] at hne
      · cases h
    | receiveTeleporterMessage via message =>
      simp only [Messenger.transact] at h
      split at h
      · cases h
      · injection h with h; injection h with h1 _
        subst h1
        exact absurd rfl hne
  · intro hpause hunpause
    have hp1 : Messenger.IsTeleporterAddressPaused { m with paused := a :: m.paused } a = true := by
      rw [IsTeleporterAddressPaused_after_pause]; simp
    have hs1 : pauseStep admits (.PauseTeleporterAddress a) ParseTeleporterAddressPaused a true m
        = .ret { m with paused := a :: m.paused } := by
      simp [pauseStep, Messenger.transact, hpause, GetEventFromLogs, ParseTeleporterAddressPaused,
        ParseTeleporterAddressEvent, hp1]
    have hs2 : SendExampleCrossChainMessageAndVerify admits a { m with paused := a :: m.paused }
        "message_1" false = .ret { m with paused := a :: m.paused } := by
      simp [SendExampleCrossChainMessageAndVerify, Messenger.transact, hp1]
    have hs3 : pauseStep admits (.UnpauseTeleporterAddress a) ParseTeleporterAddressUnpaused a false
        { m with paused := a :: m.paused }
        = .ret { m with paused := (a :: m.paused).filter (fun c => c ≠ a) } := by
      simp only [pauseStep, Messenger.transact, hunpause, if_true, GetEventFromLogs,
        ParseTeleporterAddressUnpaused, ParseTeleporterAddressEvent]
      simp [Messenger.IsTeleporterAddressPaused]
    have hs4 : SendExampleCrossChainMessageAndVerify admits a
        { m with paused := (a :: m.paused).filter (fun c => c ≠ a) } "message_2" true
        = .ret { m with paused := (a :: m.paused).filter (fun c => c ≠ a),
                        received := m.received ++ ["message_2"] } := by
      simp [SendExampleCrossChainMessageAndVerify, Messenger.transact,
        Messenger.IsTeleporterAddressPaused]
    simp only [PauseTeleporter, hs1, hs2, hs3, hs4]

/-- Witness of C9: the flow on a fresh messenger, with every call admitted. -/
theorem pause_flow_paused_flag_witness :
    admitAll messengerB (.PauseTeleporterAddress 7) = true ∧
      admitAll { messengerB with paused := 7 :: messengerB.paused }
        (.UnpauseTeleporterAddress 7) = true ∧
      PauseTeleporter admitAll 7 messengerB
        = .ret { messengerB with
            paused := (7 :: messengerB.paused).filter (fun c => c ≠ 7),
            received := messengerB.received ++ ["message_2"] } :=
  ⟨rfl, rfl, (pause_flow_paused_flag admitAll messengerB 7).2.2.2 rfl rfl⟩

/-! ## The validator lifecycle -/

/-- C10: on the modelled lifecycle. Whenever `initializeRegistration` succeeds,
the record of the returned ID is `PendingAdded`, and whenever
`completeRegistration` of that ID then succeeds, the record is `Active`; the two
calls append exactly `PendingAdded` and then `Active` to the audit trail, and
`Active` is the status right after `PendingAdded` in the forward order. Both
calls do succeed for every registration that is valid (a key of the expected
size, a weight the churn policy admits) and whose node ID has no active record,
completed not later than its expiry with a verified acknowledgment. -/
theorem registration_pendingAdded_then_active (c : Collaborators) (s : Lifecycle)
    (weight nodeID expiry : Nat) (blsKey : List Nat) :
    (∀ id s1, initializeRegistration c weight nodeID expiry blsKey s = .ok (id, s1) →
        s1.statusOf id = .PendingAdded ∧
        s1.trail = s.trail ++ [(id, .PendingAdded)] ∧
        ∀ now warpMessageIndex s2, completeRegistration c now id warpMessageIndex s1 = .ok s2 →
          s2.statusOf id = .Active ∧
          s2.trail = s.trail ++ [(id, .PendingAdded), (id, .Active)]) ∧
      (∀ now warpMessageIndex,
        blsKey.length = c.blsPublicKeyLength →
        s.nodeActive nodeID = false →
        c.churnAdmits s.records weight = true →
        now ≤ expiry →
        c.acknowledged warpMessageIndex
          (c.deriveValidationID (c.encodeRegistration weight nodeID expiry blsKey)) = true →
        ∃ id s1 s2,
          initializeRegistration c weight nodeID expiry blsKey s = .ok (id, s1) ∧
          completeRegistration c now id warpMessageIndex s1 = .ok s2) ∧
      ValidatorStatus.Active.rank = ValidatorStatus.PendingAdded.rank + 1 := by
  let id := c.deriveValidationID (c.encodeRegistration weight nodeID expiry blsKey)
  let record : ValidationRecord :=
    ⟨id, nodeID, weight, .PendingAdded, expiry,
      c.deriveMessageID (c.encodeRegistration weight nodeID expiry blsKey)⟩
  let s1 : Lifecycle :=
    { records := record :: s.records.filter (fun r => r.validationID ≠ id),
      trail := s.trail ++ [(id, .PendingAdded)] }
  let s2 : Lifecycle :=
    { records := s1.records.map (fun q =>
        if q.validationID = id then { q with status := .Active } else q),
      trail := s1.trail ++ [(id, .Active)] }
  have hfind : s1.find id = some record := by
    simp [s1, record, Lifecycle.find]
  refine ⟨?_, ?_, rfl⟩
  · intro id' s1' hinit
    have hids : id' = id ∧ s1' = s1 := by
      unfold initializeRegistration at hinit
      split at hinit
      · cases hinit
      · split at hinit
        · cases hinit
        · split at hinit
          · cases hinit
          · injection hinit with hinit
            injection hinit with h1 h2
            exact ⟨h1.symm, h2.symm⟩
    obtain ⟨rfl, rfl⟩ := hids
    refine ⟨by simp [Lifecycle.statusOf, hfind, record], rfl, ?_⟩
    intro now warpMessageIndex s2' hcomplete
    have hs2 : s2' = s2 := by
      unfold completeRegistration at hcomplete
      rw [hfind] at hcomplete
      simp only [] at hcomplete
      split at hcomplete
      · cases hcomplete
      · split at hcomplete
        · cases hcomplete
        · split at hcomplete
          · cases hcomplete
          · injection hcomplete with hcomplete
            exact hcomplete.symm
    subst hs2
    exact ⟨by simp [Lifecycle.statusOf, Lifecycle.find, s2, s1, record], by simp [s2, s1]⟩
  · intro now warpMessageIndex hkey hnode hchurn htime hack
    refine ⟨id, s1, s2, ?_, ?_⟩
    · simp [initializeRegistration, hkey, hnode, hchurn, id, s1, record]
    · have ht : ¬ now > expiry := by omega
      simp only [completeRegistration, hfind]
      simp [record, ht, id, hack, s2]

/-- Witness of C10: a registration of weight 10 for node 5 on the empty
lifecycle, completed at time 50 before the expiry 100. -/
theorem registration_pendingAdded_then_active_witness :
    ∃ id s1 s2,
      initializeRegistration plainCollaborators 10 5 100 (List.replicate 48 1) ⟨[], []⟩
        = .ok (id, s1) ∧
      completeRegistration plainCollaborators 50 id 0 s1 = .ok s2 :=
  (registration_pendingAdded_then_active plainCollaborators ⟨[], []⟩ 10 5 100
    (List.replicate 48 1)).2.1 50 0 (by decide) (by decide) rfl (by decide) rfl

/-! ## Go strings -/

/-- A decimal digit is one of the ten digit characters. -/
theorem isDigit_mem_digits (c : Char) (h : c.isDigit = true) : c ∈ "0123456789".toList := by
  have h1 : 48 ≤ c.toNat ∧ c.toNat ≤ 57 := by
    simp only [Char.isDigit, Bool.and_eq_true, decide_eq_true_eq] at h
    exact ⟨h.1, h.2⟩
  have h2 : c = Char.ofNat c.toNat := (Char.ofNat_toNat c).symm
  obtain ⟨hlo, hhi⟩ := h1
  rw [h2]
  interval_cases c.toNat <;> decide

/-- The value of a digit character is below ten. -/
theorem isDigit_value_lt (c : Char) (h : c.isDigit = true) : c.toNat - 48 < 10 := by
  have := isDigit_mem_digits c h
  simp at this
  rcases this with rfl | rfl | rfl | rfl | rfl | rfl | rfl | rfl | rfl | rfl <;> decide

/-- Each digit character is a digit. -/
theorem digitChar_isDigit (d : Nat) : (digitChar d).isDigit = true := by
  unfold digitChar
  split <;> rfl

/-- The value of the character of a digit is the digit. -/
theorem digitChar_value (d : Nat) (h : d < 10) : (digitChar d).toNat - 48 = d := by
  interval_cases d <;> rfl

/-- A digit is the character of its value. -/
theorem digitChar_of_isDigit (c : Char) (h : c.isDigit = true) : digitChar (c.toNat - 48) = c := by
  have := isDigit_mem_digits c h
  simp at this
  rcases this with rfl | rfl | rfl | rfl | rfl | rfl | rfl | rfl | rfl | rfl <;> rfl

/-- A split has at least one piece. -/
theorem Split_ne_nil (s : List Char) (sep : Char) : Split s sep ≠ [] := by
  cases s with
  | nil => simp [Split]
  | cons c cs =>
    rw [Split]
    split
    · simp
    · split <;> simp

/-- A string without the separator is its own single piece. -/
theorem Split_of_not_mem (s : List Char) (sep : Char) (h : sep ∉ s) : Split s sep = [s] := by
  induction s with
  | nil => rfl
  | cons c cs ih =>
    have hc : c ≠ sep := fun e => h (e ▸ List.mem_cons_self _ _)
    have hcs : sep ∉ cs := fun e => h (List.mem_cons_of_mem _ e)
    rw [Split, if_neg hc, ih hcs]

/-- The first separator ends the first piece. -/
theorem Split_append_sep (a b : List Char) (sep : Char) (h : sep ∉ a) :
    Split (a ++ sep :: b) sep = a :: Split b sep := by
  induction a with
  | nil => simp [Split]
  | cons c cs ih =>
    have hc : c ≠ sep := fun e => h (e ▸ List.mem_cons_self _ _)
    have hcs : sep ∉ cs := fun e => h (List.mem_cons_of_mem _ e)
    rw [List.cons_append, Split, if_neg hc, ih hcs]

/-- Splitting a join of pieces that do not hold the separator gives the pieces back. -/
theorem Split_Join (sep : Char) :
    ∀ parts : List (List Char), parts ≠ [] → (∀ p ∈ parts, sep ∉ p) →
      Split (Join parts [sep]) sep = parts := by
  intro parts
  induction parts with
  | nil => intro h; exact absurd rfl h
  | cons p rest ih =>
    intro _ hall
    cases rest with
    | nil =>
      simp only [Join]
      exact Split_of_not_mem p sep (hall p (List.mem_cons_self _ _))
    | cons q rest' =>
      have hp : sep ∉ p := hall p (List.mem_cons_self _ _)
      have : Join (p :: q :: rest') [sep] = p ++ sep :: Join (q :: rest') [sep] := by
        simp [Join]
      rw [this, Split_append_sep p _ sep hp,
        ih (by simp) (fun x hx => hall x (List.mem_cons_of_mem _ hx))]

/-- A character of a join comes from the separator or from one of the pieces. -/
theorem mem_Join (c : Char) (sep : List Char) :
    ∀ parts : List (List Char), c ∈ Join parts sep → c ∈ sep ∨ ∃ p ∈ parts, c ∈ p := by
  intro parts
  induction parts with
  | nil => intro h; simp [Join] at h
  | cons p rest ih =>
    intro h
    cases rest with
    | nil =>
      simp only [Join] at h
      exact Or.inr ⟨p, List.mem_cons_self _ _, h⟩
    | cons q rest' =>
      simp only [Join, List.mem_append] at h
      rcases h with (h | h) | h
      · exact Or.inr ⟨p, List.mem_cons_self _ _, h⟩
      · exact Or.inl h
      · rcases ih h with h | ⟨x, hx, hcx⟩
        · exact Or.inl h
        · exact Or.inr ⟨x, List.mem_cons_of_mem _ hx, hcx⟩

/-- The digit fold only grows its start value. -/
theorem le_digitFold (s : List Char) :
    ∀ n : Nat, n ≤ s.foldl (fun n c => n * 10 + (c.toNat - 48)) n := by
  induction s with
  | nil => intro n; exact Nat.le_refl n
  | cons c cs ih =>
    intro n
    simp only [List.foldl_cons]
    exact Nat.le_trans (by omega) (ih _)

/-- The loop of `ParseUint` succeeds exactly on digits whose value stays within
`maxVal`, and then returns the value. -/
theorem parseUintLoop_ok_iff (maxVal : Nat) :
    ∀ (s : List Char) (n v : Nat),
      parseUintLoop maxVal s n = .ok v ↔
        (∀ c ∈ s, c.isDigit = true) ∧ s.foldl (fun n c => n * 10 + (c.toNat - 48)) n = v ∧
          (s = [] ∨ v ≤ maxVal) := by
  intro s
  induction s with
  | nil =>
    intro n v
    simp [parseUintLoop]
  | cons c cs ih =>
    intro n v
    rw [parseUintLoop]
    by_cases hd : c.isDigit = true
    · simp only [hd, if_true]
      by_cases hgt : n * 10 + (c.toNat - 48) > maxVal
      · simp only [hgt, if_true]
        constructor
        · intro h; cases h
        · rintro ⟨_, hv, hle⟩
          simp only [List.foldl_cons] at hv
          have := le_digitFold cs (n * 10 + (c.toNat - 48))
          rcases hle with hnil | hle
          · cases hnil
          · omega
      · simp only [hgt, if_false]
        rw [ih]
        constructor
        · rintro ⟨hall, hv, hle⟩
          refine ⟨?_, by simpa using hv, Or.inr ?_⟩
          · intro x hx
            rcases List.mem_cons.mp hx with rfl | hx
            · exact hd
            · exact hall x hx
          · rcases hle with rfl | hle
            · simp only [List.foldl_nil] at hv; omega
            · exact hle
        · rintro ⟨hall, hv, hle⟩
          refine ⟨fun x hx => hall x (List.mem_cons_of_mem _ hx), by simpa using hv, ?_⟩
          rcases hle with hnil | hle
          · cases hnil
          · exact Or.inr hle
    · simp only [hd]
      constructor
      · intro h; simp at h
      · rintro ⟨hall, _⟩
        exact absurd (hall c (List.mem_cons_self _ _)) hd

/-- `ParseUint32` succeeds exactly on the base-10 unsigned integers that fit 32
bits, and returns their value. -/
theorem ParseUint32_ok_iff (s : List Char) (v : Nat) :
    ParseUint32 s = .ok v ↔ isUint32Decimal s ∧ decimalValue s = v := by
  unfold ParseUint32 isUint32Decimal decimalValue
  by_cases hs : s = []
  · simp [hs]
  · simp only [hs, if_false, parseUintLoop_ok_iff, false_or, ne_eq, not_false_eq_true, true_and]
    constructor
    · rintro ⟨hall, hv, hle⟩
      have : (2 : Nat) ^ 32 - 1 < 2 ^ 32 := by norm_num
      exact ⟨⟨hall, by omega⟩, hv⟩
    · rintro ⟨⟨hall, hlt⟩, hv⟩
      exact ⟨hall, hv, by omega⟩

/-- `ParseUint32` fails exactly on the strings that are not such integers. -/
theorem ParseUint32_error_iff (s : List Char) :
    (∃ err, ParseUint32 s = .error err) ↔ ¬ isUint32Decimal s := by
  constructor
  · rintro ⟨err, herr⟩ hvalid
    have := (ParseUint32_ok_iff s (decimalValue s)).mpr ⟨hvalid, rfl⟩
    rw [herr] at this
    cases this
  · intro hnot
    rcases hp : ParseUint32 s with err | v
    · exact ⟨err, rfl⟩
    · exact absurd ((ParseUint32_ok_iff s v).mp hp).1 hnot

/-- The digits produced by the loop go in front of the accumulator. -/
theorem formatUintLoop_append :
    ∀ (fuel n : Nat) (acc : List Char),
      formatUintLoop fuel n acc = formatUintLoop fuel n [] ++ acc ∨ fuel = 0 := by
  intro fuel
  induction fuel with
  | zero => intro n acc; exact Or.inr rfl
  | succ fuel ih =>
    intro n acc
    left
    simp only [formatUintLoop]
    by_cases h : n / 10 = 0
    · simp [h]
    · simp only [h, if_false]
      rcases ih (n / 10) (digitChar (n % 10) :: acc) with h1 | h1
      · rcases ih (n / 10) [digitChar (n % 10)] with h2 | h2
        · rw [h1, h2]; simp
        · subst h2; simp [formatUintLoop]
      · subst h1; simp [formatUintLoop]

/-- With fuel above the number, the loop does not depend on the fuel. -/
theorem formatUintLoop_fuel :
    ∀ (f1 f2 n : Nat), n < f1 → n < f2 → formatUintLoop f1 n [] = formatUintLoop f2 n [] := by
  intro f1
  induction f1 with
  | zero => intro f2 n h; omega
  | succ f1 ih =>
    intro f2 n h1 h2
    obtain ⟨f2, rfl⟩ : ∃ m, f2 = m + 1 := ⟨f2 - 1, by omega⟩
    simp only [formatUintLoop]
    by_cases h : n / 10 = 0
    · simp [h]
    · simp only [h, if_false]
      have hlt1 : n / 10 < f1 := by omega
      have hlt2 : n / 10 < f2 := by omega
      rcases formatUintLoop_append f1 (n / 10) [digitChar (n % 10)] with e1 | e1
      · rcases formatUintLoop_append f2 (n / 10) [digitChar (n % 10)] with e2 | e2
        · rw [e1, e2, ih f2 (n / 10) hlt1 hlt2]
        · omega
      · omega

/-- A number below ten formats as its digit. -/
theorem FormatUint_lt_ten (n : Nat) (h : n < 10) : FormatUint n = [digitChar n] := by
  have h0 : n / 10 = 0 := by omega
  have h1 : n % 10 = n := by omega
  simp [FormatUint, formatUintLoop, h0, h1]

/-- A number from ten on formats as its tenth followed by its last digit. -/
theorem FormatUint_ge_ten (n : Nat) (h : 10 ≤ n) :
    FormatUint n = FormatUint (n / 10) ++ [digitChar (n % 10)] := by
  have h0 : ¬ n / 10 = 0 := by omega
  have hstep : FormatUint n = formatUintLoop n (n / 10) [digitChar (n % 10)] := by
    simp only [FormatUint, formatUintLoop, h0, if_false]
  rcases formatUintLoop_append n (n / 10) [digitChar (n % 10)] with e | e
  · rw [hstep, e, formatUintLoop_fuel n (n / 10 + 1) (n / 10) (by omega) (by omega)]
    rfl
  · omega

/-- The value of a digit string with one more digit. -/
theorem decimalValue_append_singleton (s : List Char) (c : Char) :
    decimalValue (s ++ [c]) = decimalValue s * 10 + (c.toNat - 48) := by
  simp [decimalValue, List.foldl_append]

/-- A formatted number is in shortest decimal form and has the number as its value. -/
theorem FormatUint_spec (n : Nat) :
    isCanonicalDecimal (FormatUint n) ∧ decimalValue (FormatUint n) = n := by
  induction n using Nat.strong_induction_on with
  | _ n ih =>
    by_cases h : n < 10
    · rw [FormatUint_lt_ten n h]
      refine ⟨⟨by simp, ?_, ?_⟩, ?_⟩
      · intro c hc
        simp at hc
        subst hc
        exact digitChar_isDigit n
      · intro hz
        simp only [List.head?_cons, Option.some.injEq] at hz
        rw [hz]
      · simp [decimalValue, digitChar_value n h]
    · have hge : 10 ≤ n := by omega
      obtain ⟨⟨hne, hdig, hlead⟩, hval⟩ := ih (n / 10) (by omega)
      rw [FormatUint_ge_ten n hge]
      refine ⟨⟨by simp, ?_, ?_⟩, ?_⟩
      · intro c hc
        rcases List.mem_append.mp hc with hc | hc
        · exact hdig c hc
        · simp at hc
          subst hc
          exact digitChar_isDigit _
      · intro hz
        exfalso
        obtain ⟨d, ds, hds⟩ : ∃ d ds, FormatUint (n / 10) = d :: ds := by
          cases hf : FormatUint (n / 10) with
          | nil => exact absurd hf hne
          | cons d ds => exact ⟨d, ds, rfl⟩
        rw [hds] at hz hlead hval
        simp only [List.cons_append, List.head?_cons, Option.some.injEq] at hz
        have := hlead (by simp [hz])
        rw [this] at hval
        simp [decimalValue] at hval
        omega
      · rw [decimalValue_append_singleton, hval, digitChar_value _ (Nat.mod_lt _ (by omega))]
        omega

/-- A string in shortest decimal form is the formatting of its value. -/
theorem FormatUint_decimalValue (s : List Char) (h : isCanonicalDecimal s) :
    FormatUint (decimalValue s) = s := by
  induction s using List.reverseRecOn with
  | nil => exact absurd rfl h.1
  | append_singleton init c ih =>
    obtain ⟨_, hdig, hlead⟩ := h
    have hc : c.isDigit = true := hdig c (by simp)
    have hclt : c.toNat - 48 < 10 := isDigit_value_lt c hc
    rw [decimalValue_append_singleton]
    cases init with
    | nil =>
      simp only [decimalValue, List.foldl_nil, Nat.zero_mul, Nat.zero_add, List.nil_append]
      rw [FormatUint_lt_ten _ hclt, digitChar_of_isDigit c hc]
    | cons d ds =>
      have hd : d.isDigit = true := hdig d (by simp)
      have hd0 : d ≠ '0' := by
        intro e
        have := hlead (by simp [e])
        simp at this
      have hcanon : isCanonicalDecimal (d :: ds) :=
        ⟨by simp, fun x hx => hdig x (by simp at hx ⊢; tauto), fun hz => by
          simp only [List.head?_cons, Option.some.injEq] at hz
          exact absurd hz hd0⟩
      have hpos : 1 ≤ decimalValue (d :: ds) := by
        have h1 : 1 ≤ d.toNat - 48 := by
          have := isDigit_mem_digits d hd
          simp at this
          rcases this with rfl | rfl | rfl | rfl | rfl | rfl | rfl | rfl | rfl | rfl
          · exact absurd rfl hd0
          all_goals decide
        have h2 := le_digitFold ds (0 * 10 + (d.toNat - 48))
        simp only [decimalValue, List.foldl_cons]
        omega
      have hge : 10 ≤ decimalValue (d :: ds) * 10 + (c.toNat - 48) := by omega
      rw [FormatUint_ge_ten _ hge]
      have e1 : (decimalValue (d :: ds) * 10 + (c.toNat - 48)) / 10 = decimalValue (d :: ds) := by
        omega
      have e2 : (decimalValue (d :: ds) * 10 + (c.toNat - 48)) % 10 = c.toNat - 48 := by omega
      rw [e1, e2, ih hcanon, digitChar_of_isDigit c hc]

/-- Parsing a formatted number below `2^32` gives the number back. -/
theorem ParseUint32_FormatUint (n : Nat) (h : n < 2 ^ 32) : ParseUint32 (FormatUint n) = .ok n := by
  obtain ⟨⟨hne, hdig, _⟩, hval⟩ := FormatUint_spec n
  exact (ParseUint32_ok_iff _ _).mpr ⟨⟨hne, hdig, by rw [hval]; exact h⟩, hval⟩

/-- Trimming changes nothing in a string without white space. -/
theorem TrimSpace_of_no_space (s : List Char) (h : ∀ c ∈ s, isSpace c = false) :
    TrimSpace s = s := by
  have key : ∀ t : List Char, (∀ c ∈ t, isSpace c = false) → t.dropWhile isSpace = t := by
    intro t ht
    cases t with
    | nil => rfl
    | cons c cs => simp [List.dropWhile, ht c (List.mem_cons_self _ _)]
  unfold TrimSpace
  rw [key s h, key s.reverse (fun c hc => h c (List.mem_reverse.mp hc)), List.reverse_reverse]

/-- A digit is not white space, not a separator, and lowers to itself. -/
theorem isDigit_plain (c : Char) (h : c.isDigit = true) :
    isSpace c = false ∧ c ≠ ',' ∧ c ≠ ';' ∧ c ≠ ':' ∧ c.toLower = c ∧ c ≠ 'd' := by
  have := isDigit_mem_digits c h
  simp at this
  rcases this with rfl | rfl | rfl | rfl | rfl | rfl | rfl | rfl | rfl | rfl <;> decide

/-- Joining the pieces of a split gives the string back. -/
theorem Join_Split (sep : Char) : ∀ s : List Char, Join (Split s sep) [sep] = s := by
  intro s
  induction s with
  | nil => rfl
  | cons c cs ih =>
    rw [Split]
    by_cases hc : c = sep
    · simp only [hc, if_true]
      cases hsp : Split cs sep with
      | nil => exact absurd hsp (Split_ne_nil cs sep)
      | cons piece pieces =>
        rw [hsp] at ih
        simp only [Join, List.nil_append, List.singleton_append]
        rw [ih]
    · simp only [hc, if_false]
      cases hsp : Split cs sep with
      | nil => exact absurd hsp (Split_ne_nil cs sep)
      | cons piece pieces =>
        rw [hsp] at ih
        cases pieces with
        | nil =>
          simp only [Join] at ih ⊢
          rw [ih]
        | cons q rest =>
          simp only [Join, List.cons_append] at ih ⊢
          rw [ih]

/-! ## The byte-sizes flag -/

/-- The sentinel parses as `unpack.Dynamic`. -/
theorem parseByteSize_sentinel (Dynamic : Nat) :
    parseByteSize Dynamic dynFlagSentinel = .ok Dynamic := by
  have : ToLower dynFlagSentinel = dynFlagSentinel := by decide
  simp [parseByteSize, this]

/-- A string of digits is not the sentinel, also after lowering. -/
theorem ToLower_digits_ne_sentinel (s : List Char) (h : ∀ c ∈ s, c.isDigit = true) :
    ToLower s ≠ dynFlagSentinel := by
  intro e
  cases s with
  | nil => simp [ToLower, dynFlagSentinel] at e
  | cons c cs =>
    have hc := isDigit_plain c (h c (List.mem_cons_self _ _))
    have hd : c.toLower = 'd' := by
      have := congrArg List.head? e
      simpa [ToLower, dynFlagSentinel] using this
    rw [hc.2.2.2.2.1] at hd
    exact hc.2.2.2.2.2 hd

/-- A 32-bit decimal without white space parses as its value. -/
theorem parseByteSize_decimal (Dynamic : Nat) (s : List Char) (h : isUint32Decimal s) :
    parseByteSize Dynamic s = .ok (decimalValue s) := by
  have hlow := ToLower_digits_ne_sentinel s h.2.1
  have htrim : TrimSpace s = s :=
    TrimSpace_of_no_space s (fun c hc => (isDigit_plain c (h.2.1 c hc)).1)
  simp only [parseByteSize, hlow, if_false, htrim]
  exact (ParseUint32_ok_iff s _).mpr ⟨h, rfl⟩

/-- What `String` writes for a size parses as that size. -/
theorem parseByteSize_render (Dynamic v : Nat) (h : v = Dynamic ∨ v < 2 ^ 32) :
    parseByteSize Dynamic (renderByteSize Dynamic v) = .ok v := by
  unfold renderByteSize
  by_cases hv : v = Dynamic
  · simp only [hv, if_true]
    exact parseByteSize_sentinel Dynamic
  · simp only [hv, if_false]
    have hlt : v < 2 ^ 32 := by
      rcases h with h | h
      · exact absurd h hv
      · exact h
    obtain ⟨⟨hne, hdig, _⟩, hval⟩ := FormatUint_spec v
    have := parseByteSize_decimal Dynamic (FormatUint v) ⟨hne, hdig, by rw [hval]; exact hlt⟩
    rw [this, hval]

/-- What `String` writes for a size holds neither separator. -/
theorem renderByteSize_no_sep (Dynamic v : Nat) :
    ',' ∉ renderByteSize Dynamic v ∧ ';' ∉ renderByteSize Dynamic v := by
  unfold renderByteSize
  by_cases hv : v = Dynamic
  · simp only [hv, if_true]
    decide
  · simp only [hv, if_false]
    obtain ⟨⟨_, hdig, _⟩, _⟩ := FormatUint_spec v
    exact ⟨fun hm => (isDigit_plain _ (hdig _ hm)).2.1 rfl,
      fun hm => (isDigit_plain _ (hdig _ hm)).2.2.1 rfl⟩

/-- A parsed size is `unpack.Dynamic` or below `2^32`. -/
theorem parseByteSize_ok_range (Dynamic : Nat) (bStr : List Char) (b : Nat)
    (h : parseByteSize Dynamic bStr = .ok b) : b = Dynamic ∨ b < 2 ^ 32 := by
  unfold parseByteSize at h
  split at h
  · injection h with h; exact Or.inl h.symm
  · have := (ParseUint32_ok_iff _ _).mp h
    right
    rw [← this.2]
    exact this.1.2.2

/-- The sizes of a parsed group: as many as items, each in range. -/
theorem parseGroup_ok_shape (Dynamic : Nat) :
    ∀ (items : List (List Char)) (bytes : List Nat), parseGroup Dynamic items = .ok bytes →
      bytes.length = items.length ∧ ∀ v ∈ bytes, v = Dynamic ∨ v < 2 ^ 32 := by
  intro items
  induction items with
  | nil =>
    intro bytes h
    simp only [parseGroup] at h
    injection h with h
    subst h
    simp
  | cons bStr rest ih =>
    intro bytes h
    rw [parseGroup] at h
    rcases hb : parseByteSize Dynamic bStr with err | b
    · rw [hb] at h; cases h
    · rw [hb] at h
      rcases hr : parseGroup Dynamic rest with err | bs
      · rw [hr] at h; cases h
      · rw [hr] at h
        injection h with h
        subst h
        obtain ⟨hlen, hrange⟩ := ih bs hr
        refine ⟨by simp [hlen], ?_⟩
        intro v hv
        rcases List.mem_cons.mp hv with rfl | hv
        · exact parseByteSize_ok_range Dynamic bStr _ hb
        · exact hrange v hv

/-- The value of parsed groups is one `Set` can store. -/
theorem parseGroups_ok_shape (Dynamic : Nat) :
    ∀ (groups : List (List Char)) (val : List (List Nat)),
      parseGroups Dynamic groups = .ok val →
      val.length = groups.length ∧
        ∀ grp ∈ val, grp ≠ [] ∧ ∀ v ∈ grp, v = Dynamic ∨ v < 2 ^ 32 := by
  intro groups
  induction groups with
  | nil =>
    intro val h
    simp only [parseGroups] at h
    injection h with h
    subst h
    simp
  | cons g rest ih =>
    intro val h
    rw [parseGroups] at h
    rcases hb : parseGroup Dynamic (Split g ',') with err | bytes
    · rw [hb] at h; cases h
    · rw [hb] at h
      rcases hr : parseGroups Dynamic rest with err | vs
      · rw [hr] at h; cases h
      · rw [hr] at h
        injection h with h
        subst h
        obtain ⟨hlen, hrange⟩ := ih vs hr
        obtain ⟨hblen, hbrange⟩ := parseGroup_ok_shape Dynamic _ _ hb
        refine ⟨by simp [hlen], ?_⟩
        intro grp hgrp
        rcases List.mem_cons.mp hgrp with rfl | hgrp
        · refine ⟨?_, hbrange⟩
          intro hnil
          rw [hnil] at hblen
          have := Split_ne_nil g ','
          cases hs : Split g ',' with
          | nil => exact this hs
          | cons a b => rw [hs] at hblen; simp at hblen
        · exact hrange grp hgrp

/-- A value stored by a successful `Set` is one `Set` can store. -/
theorem Set_ok_isSetValue (Dynamic : Nat) (f f' : bytesFlag) (s : List Char)
    (h : bytesFlag.Set Dynamic f s = (f', none)) : isSetValue Dynamic f'.val := by
  unfold bytesFlag.Set at h
  rcases hp : parseGroups Dynamic (Split s ';') with err | val
  · rw [hp] at h; simp at h
  · rw [hp] at h
    simp only [Prod.mk.injEq, and_true] at h
    subst h
    obtain ⟨hlen, hrange⟩ := parseGroups_ok_shape Dynamic _ _ hp
    refine ⟨?_, hrange⟩
    intro hnil
    have hnil' : val = [] := hnil
    rw [hnil'] at hlen
    cases hs : Split s ';' with
    | nil => exact Split_ne_nil s ';' hs
    | cons a b => rw [hs] at hlen; simp at hlen

/-- The rendered sizes of a group parse as the group. -/
theorem parseGroup_render (Dynamic : Nat) :
    ∀ grp : List Nat, (∀ v ∈ grp, v = Dynamic ∨ v < 2 ^ 32) →
      parseGroup Dynamic (grp.map (renderByteSize Dynamic)) = .ok grp := by
  intro grp
  induction grp with
  | nil => intro _; rfl
  | cons v rest ih =>
    intro h
    simp only [List.map_cons, parseGroup,
      parseByteSize_render Dynamic v (h v (List.mem_cons_self _ _)),
      ih (fun x hx => h x (List.mem_cons_of_mem _ hx))]

/-- The rendered groups of a value parse as the value. -/
theorem parseGroups_render (Dynamic : Nat) :
    ∀ val : List (List Nat), (∀ grp ∈ val, grp ≠ [] ∧ ∀ v ∈ grp, v = Dynamic ∨ v < 2 ^ 32) →
      parseGroups Dynamic
        (val.map (fun grp => Join (grp.map (renderByteSize Dynamic)) [','])) = .ok val := by
  intro val
  induction val with
  | nil => intro _; rfl
  | cons grp rest ih =>
    intro h
    obtain ⟨hne, hrange⟩ := h grp (List.mem_cons_self _ _)
    have hsplit : Split (Join (grp.map (renderByteSize Dynamic)) [',']) ','
        = grp.map (renderByteSize Dynamic) := by
      apply Split_Join
      · simpa using hne
      · intro p hp
        obtain ⟨v, _, rfl⟩ := List.mem_map.mp hp
        exact (renderByteSize_no_sep Dynamic v).1
    simp only [List.map_cons, parseGroups, hsplit, parseGroup_render Dynamic grp hrange,
      ih (fun x hx => h x (List.mem_cons_of_mem _ hx))]

/-- `Set` reads back what `String` writes for a value `Set` can store. -/
theorem Set_String_of_isSetValue (Dynamic : Nat) (val : List (List Nat))
    (h : isSetValue Dynamic val) (g : bytesFlag) :
    bytesFlag.Set Dynamic g (bytesFlag.String Dynamic ⟨val⟩) = (⟨val⟩, none) := by
  obtain ⟨hne, hall⟩ := h
  have hstr : bytesFlag.String Dynamic ⟨val⟩
      = Join (val.map (fun grp => Join (grp.map (renderByteSize Dynamic)) [','])) [';'] := rfl
  have hsplit : Split (bytesFlag.String Dynamic ⟨val⟩) ';'
      = val.map (fun grp => Join (grp.map (renderByteSize Dynamic)) [',']) := by
    rw [hstr]
    apply Split_Join
    · simpa using hne
    · intro p hp hmem
      obtain ⟨grp, _, rfl⟩ := List.mem_map.mp hp
      rcases mem_Join ';' [','] _ hmem with hsep | ⟨item, hitem, hc⟩
      · simp at hsep
      · obtain ⟨v, _, rfl⟩ := List.mem_map.mp hitem
        exact (renderByteSize_no_sep Dynamic v).2 hc
  simp only [bytesFlag.Set, hsplit, parseGroups_render Dynamic val hall]

/-- C13: whenever `Set` accepts a string, what `String` then writes is accepted
by `Set` again, on any flag, and stores the same value: `Set` after `String` is
the identity on every value `Set` can produce, whatever `unpack.Dynamic` is. -/
theorem Set_after_String_identity (Dynamic : Nat) (f g f' : bytesFlag) (s : List Char)
    (h : bytesFlag.Set Dynamic f s = (f', none)) :
    bytesFlag.Set Dynamic g (bytesFlag.String Dynamic f') = (f', none) :=
  Set_String_of_isSetValue Dynamic f'.val (Set_ok_isSetValue Dynamic f f' s h) g

/-- Witness of C13: a string with white space, an upper-case sentinel and
leading zeros is accepted, and what `String` writes for the stored value is
read back as that value. -/
theorem Set_after_String_identity_witness :
    bytesFlag.Set 0 ⟨[]⟩ " 1,DYN;007".toList = (⟨[[1, 0], [7]]⟩, none) ∧
      bytesFlag.String 0 ⟨[[1, 0], [7]]⟩ = "1,dyn;7".toList ∧
      bytesFlag.Set 0 ⟨[[5]]⟩ (bytesFlag.String 0 ⟨[[1, 0], [7]]⟩) = (⟨[[1, 0], [7]]⟩, none) :=
  ⟨by decide, by decide,
    Set_after_String_identity 0 ⟨[]⟩ ⟨[[5]]⟩ ⟨[[1, 0], [7]]⟩ " 1,DYN;007".toList (by decide)⟩

/-- Counterexample to C14 as stated: `Set` accepts ` 1`, `DYN` and `007`, and
`String` then writes `1`, `dyn` and `7`; for ` 1` this is so whatever
`unpack.Dynamic` is. -/
theorem String_after_Set_differs :
    bytesFlag.Set 0 ⟨[]⟩ " 1".toList = (⟨[[1]]⟩, none) ∧
      bytesFlag.String 0 ⟨[[1]]⟩ = "1".toList ∧
      bytesFlag.Set 0 ⟨[]⟩ "DYN".toList = (⟨[[0]]⟩, none) ∧
      bytesFlag.String 0 ⟨[[0]]⟩ = "dyn".toList ∧
      bytesFlag.Set 0 ⟨[]⟩ "007".toList = (⟨[[7]]⟩, none) ∧
      bytesFlag.String 0 ⟨[[7]]⟩ = "7".toList ∧
      (∀ (Dynamic : Nat) (f : bytesFlag),
        bytesFlag.Set Dynamic f " 1".toList = (⟨[[1]]⟩, none) ∧
        bytesFlag.String Dynamic ⟨[[1]]⟩ ≠ " 1".toList) := by
  refine ⟨by decide, by decide, by decide, by decide, by decide, by decide, ?_⟩
  intro Dynamic f
  constructor
  · have h1 : Split [' ', '1'] ';' = [[' ', '1']] := by decide
    have h2 : Split [' ', '1'] ',' = [[' ', '1']] := by decide
    have h3 : parseByteSize Dynamic [' ', '1'] = .ok 1 := by
      have hl : ToLower [' ', '1'] ≠ dynFlagSentinel := by decide
      have hp : ParseUint32 (TrimSpace [' ', '1']) = .ok 1 := rfl
      simp only [parseByteSize, hl, if_false, hp]
    show bytesFlag.Set Dynamic f [' ', '1'] = _
    simp only [bytesFlag.Set, h1, parseGroups, h2, parseGroup, h3]
  · have hs : bytesFlag.String Dynamic ⟨[[1]]⟩ = renderByteSize Dynamic 1 := rfl
    rw [hs]
    unfold renderByteSize
    by_cases hd : 1 = Dynamic
    · simp only [hd, if_true]; decide
    · simp only [hd, if_false]; decide

/-- C14, amended: `String` gives back every accepted string that is already in
the form `String` writes. If every item of `s` is the sentinel in lower case or
a number below `2^32`, other than `unpack.Dynamic`, in shortest decimal form
with no white space, then `Set` accepts `s` and `String` afterwards returns `s`. -/
theorem String_after_Set_canonical (Dynamic : Nat) (f : bytesFlag) (s : List Char)
    (h : ∀ g ∈ Split s ';', ∀ item ∈ Split g ',', isCanonicalItem Dynamic item) :
    ∃ f', bytesFlag.Set Dynamic f s = (f', none) ∧ bytesFlag.String Dynamic f' = s := by
  let itemValue : List Char → Nat :=
    fun item => if item = dynFlagSentinel then Dynamic else decimalValue item
  have hrender : ∀ item, isCanonicalItem Dynamic item →
      renderByteSize Dynamic (itemValue item) = item := by
    intro item hitem
    by_cases hs : item = dynFlagSentinel
    · simp [itemValue, hs, renderByteSize]
    · rcases hitem with hitem | ⟨hcanon, _, hne⟩
      · exact absurd hitem hs
      · simp only [itemValue, hs, if_false, renderByteSize, hne]
        exact FormatUint_decimalValue item hcanon
  have hrange : ∀ item, isCanonicalItem Dynamic item →
      itemValue item = Dynamic ∨ itemValue item < 2 ^ 32 := by
    intro item hitem
    by_cases hs : item = dynFlagSentinel
    · left; simp [itemValue, hs]
    · rcases hitem with hitem | ⟨_, hlt, _⟩
      · exact absurd hitem hs
      · right; simpa [itemValue, hs] using hlt
  let val : List (List Nat) := (Split s ';').map (fun g => (Split g ',').map itemValue)
  have hval : isSetValue Dynamic val := by
    refine ⟨by simpa [val] using Split_ne_nil s ';', ?_⟩
    intro grp hgrp
    obtain ⟨g, hg, rfl⟩ := List.mem_map.mp hgrp
    refine ⟨by simpa using Split_ne_nil g ',', ?_⟩
    intro v hv
    obtain ⟨item, hitem, rfl⟩ := List.mem_map.mp hv
    exact hrange item (h g hg item hitem)
  have hstring : bytesFlag.String Dynamic ⟨val⟩ = s := by
    have hgroup : ∀ g ∈ Split s ';',
        Join (((Split g ',').map itemValue).map (renderByteSize Dynamic)) [','] = g := by
      intro g hg
      have : ((Split g ',').map itemValue).map (renderByteSize Dynamic) = Split g ',' := by
        rw [List.map_map]
        conv_rhs => rw [← List.map_id (Split g ',')]
        apply List.map_congr_left
        intro item hitem
        exact hrender item (h g hg item hitem)
      rw [this, Join_Split]
    have hs : bytesFlag.String Dynamic ⟨val⟩
        = Join (val.map (fun grp => Join (grp.map (renderByteSize Dynamic)) [','])) [';'] := rfl
    rw [hs]
    have : val.map (fun grp => Join (grp.map (renderByteSize Dynamic)) [',']) = Split s ';' := by
      simp only [val, List.map_map]
      conv_rhs => rw [← List.map_id (Split s ';')]
      apply List.map_congr_left
      intro g hg
      exact hgroup g hg
    rw [this, Join_Split]
  refine ⟨⟨val⟩, ?_, hstring⟩
  have := Set_String_of_isSetValue Dynamic val hval f
  rw [hstring] at this
  exact this

/-- Witness of C14, amended: `1,dyn;7` is in the written form. -/
theorem String_after_Set_canonical_witness :
    (∀ g ∈ Split "1,dyn;7".toList ';', ∀ item ∈ Split g ',', isCanonicalItem 0 item) ∧
      ∃ f', bytesFlag.Set 0 ⟨[]⟩ "1,dyn;7".toList = (f', none) ∧
        bytesFlag.String 0 f' = "1,dyn;7".toList :=
  have hitems : ∀ g ∈ Split "1,dyn;7".toList ';', ∀ item ∈ Split g ',',
      isCanonicalItem 0 item := by
    have h1 : Split "1,dyn;7".toList ';' = ["1,dyn".toList, "7".toList] := by decide
    have h2 : Split "1,dyn".toList ',' = ["1".toList, "dyn".toList] := by decide
    have h3 : Split "7".toList ',' = ["7".toList] := by decide
    intro g hg item hitem
    rw [h1] at hg
    simp only [List.mem_cons, List.mem_singleton, List.not_mem_nil, or_false] at hg
    rcases hg with rfl | rfl
    · rw [h2] at hitem
      simp only [List.mem_cons, List.mem_singleton, List.not_mem_nil, or_false] at hitem
      rcases hitem with rfl | rfl
      · exact Or.inr ⟨⟨by decide, by decide, by decide⟩, by decide, by decide⟩
      · exact Or.inl rfl
    · rw [h3] at hitem
      simp only [List.mem_cons, List.mem_singleton, List.not_mem_nil, or_false] at hitem
      subst hitem
      exact Or.inr ⟨⟨by decide, by decide, by decide⟩, by decide, by decide⟩
  ⟨hitems, String_after_Set_canonical 0 ⟨[]⟩ "1,dyn;7".toList hitems⟩

/-- C15, the code at the failing input: `1,dyn` is accepted, and with a blank
in front of the sentinel, `1, dyn`, the call returns the syntax error of
`ParseUint` and leaves the flag as it was, while a blank in front of a number is
trimmed; the first two hold whatever `unpack.Dynamic` is. -/
theorem Set_rejects_padded_sentinel :
    bytesFlag.Set 0 ⟨[[9]]⟩ "1,dyn".toList = (⟨[[1, 0]]⟩, none) ∧
      bytesFlag.Set 0 ⟨[[9]]⟩ "1, dyn".toList = (⟨[[9]]⟩, some (.other "invalid syntax")) ∧
      bytesFlag.Set 0 ⟨[[9]]⟩ "1, 4".toList = (⟨[[1, 4]]⟩, none) ∧
      (∀ (Dynamic : Nat) (f : bytesFlag),
        bytesFlag.Set Dynamic f "1,dyn".toList = (⟨[[1, Dynamic]]⟩, none) ∧
        bytesFlag.Set Dynamic f "1, dyn".toList = (f, some (.other "invalid syntax"))) := by
  refine ⟨by decide, by decide, by decide, ?_⟩
  intro Dynamic f
  have h1 : parseByteSize Dynamic ['1'] = .ok 1 := by
    have hl : ToLower ['1'] ≠ dynFlagSentinel := by decide
    have hp : ParseUint32 (TrimSpace ['1']) = .ok 1 := rfl
    simp only [parseByteSize, hl, if_false, hp]
  have h2 : parseByteSize Dynamic ['d', 'y', 'n'] = .ok Dynamic := parseByteSize_sentinel Dynamic
  have h3 : parseByteSize Dynamic [' ', 'd', 'y', 'n'] = .error (.other "invalid syntax") := by
    have hl : ToLower [' ', 'd', 'y', 'n'] ≠ dynFlagSentinel := by decide
    have hp : ParseUint32 (TrimSpace [' ', 'd', 'y', 'n'])
        = .error (.other "invalid syntax") := rfl
    simp only [parseByteSize, hl, if_false, hp]
  constructor
  · have s1 : Split ['1', ',', 'd', 'y', 'n'] ';' = [['1', ',', 'd', 'y', 'n']] := by decide
    have s2 : Split ['1', ',', 'd', 'y', 'n'] ',' = [['1'], ['d', 'y', 'n']] := by decide
    show bytesFlag.Set Dynamic f ['1', ',', 'd', 'y', 'n'] = _
    simp only [bytesFlag.Set, s1, parseGroups, s2, parseGroup, h1, h2]
  · have s1 : Split ['1', ',', ' ', 'd', 'y', 'n'] ';' = [['1', ',', ' ', 'd', 'y', 'n']] := by
      decide
    have s2 : Split ['1', ',', ' ', 'd', 'y', 'n'] ',' = [['1'], [' ', 'd', 'y', 'n']] := by
      decide
    show bytesFlag.Set Dynamic f ['1', ',', ' ', 'd', 'y', 'n'] = _
    simp only [bytesFlag.Set, s1, parseGroups, s2, parseGroup, h1, h3]

/-! ## URL helpers -/

/-- The byte length of a concatenation. -/
theorem goLen_append (a b : List Char) : goLen (a ++ b) = goLen a + goLen b := by
  simp [goLen]

/-- A string has at least as many bytes as characters. -/
theorem length_le_goLen (s : List Char) : s.length ≤ goLen s := by
  induction s with
  | nil => simp [goLen]
  | cons c cs ih =>
    have hc : 1 ≤ c.utf8Size := Char.utf8Size_pos c
    simp only [goLen, List.map_cons, List.sum_cons, List.length_cons] at ih ⊢
    omega

/-- After the scheme `http://`, `GetURIHostAndPort` goes on with the rest. -/
theorem GetURIHostAndPort_http (rest : List Char) (h : rest ≠ []) :
    GetURIHostAndPort ("http://".toList ++ rest) = hostAndPortOf rest := by
  have hlen : 1 ≤ goLen rest := by
    have := length_le_goLen rest
    cases rest with
    | nil => exact absurd rfl h
    | cons c cs => simp only [List.length_cons] at this; omega
  have h7 : goLen "http://".toList = 7 := by decide
  have hgo : goLen ("http://".toList ++ rest) = 7 + goLen rest := by rw [goLen_append, h7]
  have htake : ("http://".toList ++ rest).take 7 = "http://".toList := by
    simp
  have hdrop : ("http://".toList ++ rest).drop 7 = rest := by
    simp
  unfold GetURIHostAndPort
  have hgt : goLen ("http://".toList ++ rest) > 7 := by omega
  have hle : 7 ≤ goLen ("http://".toList ++ rest) := by omega
  simp only [hgt, not_true_eq_false, if_false, sliceTo, sliceFrom, hle, if_true, htake, hdrop]

/-- After the scheme `https://`, `GetURIHostAndPort` goes on with the rest. -/
theorem GetURIHostAndPort_https (rest : List Char) :
    GetURIHostAndPort ("https://".toList ++ rest) = hostAndPortOf rest := by
  have h8 : goLen "https://".toList = 8 := by decide
  have hgo : goLen ("https://".toList ++ rest) = 8 + goLen rest := by rw [goLen_append, h8]
  have htake7 : ("https://".toList ++ rest).take 7 = "https:/".toList := by
    simp
  have hne : "https:/".toList ≠ "http://".toList := by decide
  have htake : ("https://".toList ++ rest).take 8 = "https://".toList := by
    simp
  have hdrop : ("https://".toList ++ rest).drop 8 = rest := by
    simp
  unfold GetURIHostAndPort
  have hgt : goLen ("https://".toList ++ rest) > 7 := by omega
  have hle7 : 7 ≤ goLen ("https://".toList ++ rest) := by omega
  have hle8 : 8 ≤ goLen ("https://".toList ++ rest) := by omega
  simp only [hgt, not_true_eq_false, if_false, sliceTo, sliceFrom, hle7, hle8, if_true, htake7,
    hne, htake, hdrop]

/-- With one colon in the rest, the host is what stands before it and the port
is parsed from what stands after it. -/
theorem hostAndPortOf_one_colon (host tail : List Char) (hhost : ':' ∉ host)
    (htail : ':' ∉ tail) :
    hostAndPortOf (host ++ ':' :: tail) =
      match ParseUint32 tail with
      | .error err => .ret ([], 0, some (.wrap "failed to parse port" err))
      | .ok port => .ret (host, port % 2 ^ 32, none) := by
  unfold hostAndPortOf
  rw [Split_append_sep host tail ':' hhost, Split_of_not_mem tail ':' htail]

/-- C16: for every host without a colon and every port `p` below `2^32`,
`GetURIHostAndPort` returns `(host, p, nil)` for `http://host:p` and for
`https://host:p`, whichever way `p` is written in decimal digits, in particular
in the shortest way. -/
theorem GetURIHostAndPort_host_and_port (host : List Char) (p : Nat) (hhost : ':' ∉ host)
    (hp : p < 2 ^ 32) :
    (∀ portStr : List Char, portStr ≠ [] → (∀ c ∈ portStr, c.isDigit = true) →
        decimalValue portStr = p →
        GetURIHostAndPort ("http://".toList ++ (host ++ ':' :: portStr)) = .ret (host, p, none) ∧
        GetURIHostAndPort ("https://".toList ++ (host ++ ':' :: portStr))
          = .ret (host, p, none)) ∧
      GetURIHostAndPort ("http://".toList ++ (host ++ ':' :: FormatUint p))
        = .ret (host, p, none) ∧
      GetURIHostAndPort ("https://".toList ++ (host ++ ':' :: FormatUint p))
        = .ret (host, p, none) := by
  have key : ∀ portStr : List Char, portStr ≠ [] → (∀ c ∈ portStr, c.isDigit = true) →
      decimalValue portStr = p →
      GetURIHostAndPort ("http://".toList ++ (host ++ ':' :: portStr)) = .ret (host, p, none) ∧
      GetURIHostAndPort ("https://".toList ++ (host ++ ':' :: portStr))
        = .ret (host, p, none) := by
    intro portStr hne hdig hval
    have hcolon : ':' ∉ portStr := fun hm => (isDigit_plain _ (hdig _ hm)).2.2.2.1 rfl
    have hparse : ParseUint32 portStr = .ok p :=
      (ParseUint32_ok_iff portStr p).mpr ⟨⟨hne, hdig, by rw [hval]; exact hp⟩, hval⟩
    have hmod : p % 2 ^ 32 = p := Nat.mod_eq_of_lt hp
    have htail : hostAndPortOf (host ++ ':' :: portStr) = .ret (host, p, none) := by
      rw [hostAndPortOf_one_colon host portStr hhost hcolon, hparse]
      simp only [hmod]
    exact ⟨by rw [GetURIHostAndPort_http _ (by simp), htail],
      by rw [GetURIHostAndPort_https, htail]⟩
  obtain ⟨⟨hne, hdig, _⟩, hval⟩ := FormatUint_spec p
  exact ⟨key, (key _ hne hdig hval).1, (key _ hne hdig hval).2⟩

/-- Witness of C16: host `node`, port 9650. -/
theorem GetURIHostAndPort_host_and_port_witness :
    GetURIHostAndPort "http://node:9650".toList = .ret ("node".toList, 9650, none) ∧
      GetURIHostAndPort "https://node:9650".toList = .ret ("node".toList, 9650, none) :=
  (GetURIHostAndPort_host_and_port "node".toList 9650 (by decide) (by decide)).1
    "9650".toList (by decide) (by decide) (by decide)

/-- C17: for every uri of more than 7 bytes, as every uri of more than 7
characters is, that starts with neither `http://` nor `https://`,
`GetURIHostAndPort` returns the empty host, port 0 and the non-nil error
`invalid uri`. -/
theorem GetURIHostAndPort_invalid_scheme (uri : List Char) (hlen : 7 < goLen uri)
    (hhttp : ¬ "http://".toList <+: uri) (hhttps : ¬ "https://".toList <+: uri) :
    GetURIHostAndPort uri = .ret ([], 0, some (.other ("invalid uri: " ++ String.mk uri))) ∧
      (7 < uri.length → 7 < goLen uri) := by
  refine ⟨?_, fun h => Nat.lt_of_lt_of_le h (length_le_goLen uri)⟩
  have h7 : uri.take 7 ≠ "http://".toList := by
    intro e
    apply hhttp
    rw [List.prefix_iff_eq_take]
    exact e.symm
  have h8 : uri.take 8 ≠ "https://".toList := by
    intro e
    apply hhttps
    rw [List.prefix_iff_eq_take]
    exact e.symm
  unfold GetURIHostAndPort
  have hgt : goLen uri > 7 := hlen
  have hle7 : 7 ≤ goLen uri := by omega
  have hle8 : 8 ≤ goLen uri := by omega
  simp only [hgt, not_true_eq_false, if_false, sliceTo, hle7, hle8, if_true, h7, h8]

/-- Witness of C17: a uri with the scheme `ftp://`. -/
theorem GetURIHostAndPort_invalid_scheme_witness :
    GetURIHostAndPort "ftp://node:9650".toList
        = .ret ([], 0, some (.other "invalid uri: ftp://node:9650")) ∧
      (7 < "ftp://node:9650".toList.length → 7 < goLen "ftp://node:9650".toList) :=
  GetURIHostAndPort_invalid_scheme "ftp://node:9650".toList (by decide) (by decide) (by decide)

/-- C18: for a uri `http://` followed by `h`, `HttpToRPCURI` returns
`http://h/ext/bc/b/rpc` and `HttpToWebsocketURI` returns `ws://h/ext/bc/b/ws`;
`h` is kept whole, also when it starts with `http://` itself, and a uri that
does not start with `http://` is used as it is. -/
theorem HttpToRPCURI_of_http (h b : List Char) :
    HttpToRPCURI ("http://".toList ++ h) b
        = "http://".toList ++ h ++ "/ext/bc/".toList ++ b ++ "/rpc".toList ∧
      HttpToWebsocketURI ("http://".toList ++ h) b
        = "ws://".toList ++ h ++ "/ext/bc/".toList ++ b ++ "/ws".toList ∧
      TrimPrefix ("http://".toList ++ ("http://".toList ++ h)) "http://".toList
        = "http://".toList ++ h ∧
      (∀ uri : List Char, ¬ "http://".toList <+: uri → TrimPrefix uri "http://".toList = uri) := by
  have htrim : ∀ t : List Char, TrimPrefix ("http://".toList ++ t) "http://".toList = t := by
    intro t
    have hpre : ("http://".toList).isPrefixOf ("http://".toList ++ t) = true := by
      rw [List.isPrefixOf_iff_prefix]
      exact List.prefix_append _ _
    simp only [TrimPrefix, hpre, if_true]
    simp
  refine ⟨?_, ?_, htrim _, ?_⟩
  · simp only [HttpToRPCURI, htrim]
  · simp only [HttpToWebsocketURI, htrim]
  · intro uri hnot
    have hpre : ("http://".toList).isPrefixOf uri = false := by
      rw [Bool.eq_false_iff]
      intro e
      exact hnot (List.isPrefixOf_iff_prefix.mp e)
    simp only [TrimPrefix, hpre]
    rfl

/-- C20: for a uri made of a valid scheme, a host without a colon, one colon and
a tail without a colon, `GetURIHostAndPort` returns, and the returned error is
non-nil exactly when the tail is not a base-10 unsigned integer that fits 32
bits; with the error come the empty host and port 0, without it the host and
the value of the tail. -/
theorem GetURIHostAndPort_port_error_iff (scheme host tail : List Char)
    (hscheme : scheme = "http://".toList ∨ scheme = "https://".toList)
    (hhost : ':' ∉ host) (htail : ':' ∉ tail) :
    ∃ h p err, GetURIHostAndPort (scheme ++ (host ++ ':' :: tail)) = .ret (h, p, err) ∧
      (err ≠ none ↔ ¬ isUint32Decimal tail) ∧
      (err ≠ none → h = [] ∧ p = 0) ∧
      (err = none → h = host ∧ p = decimalValue tail) := by
  have hstep : GetURIHostAndPort (scheme ++ (host ++ ':' :: tail))
      = hostAndPortOf (host ++ ':' :: tail) := by
    rcases hscheme with rfl | rfl
    · exact GetURIHostAndPort_http _ (by simp)
    · exact GetURIHostAndPort_https _
  rw [hstep, hostAndPortOf_one_colon host tail hhost htail]
  rcases hp : ParseUint32 tail with e | v
  · refine ⟨[], 0, some (.wrap "failed to parse port" e), rfl, ?_, fun _ => ⟨rfl, rfl⟩, ?_⟩
    · constructor
      · intro _
        exact (ParseUint32_error_iff tail).mp ⟨e, hp⟩
      · intro _; simp
    · intro h; cases h
  · obtain ⟨hvalid, hval⟩ := (ParseUint32_ok_iff tail v).mp hp
    have hmod : v % 2 ^ 32 = v := Nat.mod_eq_of_lt (by rw [← hval]; exact hvalid.2.2)
    refine ⟨host, v, none, by simp only [hmod], ?_, ?_, fun _ => ⟨rfl, hval.symm⟩⟩
    · constructor
      · intro h; exact absurd rfl h
      · intro h; exact absurd hvalid h
    · intro h; exact absurd rfl h

/-- Witness of C20: an empty, a signed, a too large tail and one followed by a
path are no 32-bit decimals, and the signed one makes the call return an error. -/
theorem GetURIHostAndPort_port_error_iff_witness :
    ¬ isUint32Decimal "".toList ∧ ¬ isUint32Decimal "+80".toList ∧
      ¬ isUint32Decimal "80/x".toList ∧ ¬ isUint32Decimal "4294967296".toList ∧
      isUint32Decimal "4294967295".toList ∧
      ∃ h p err, GetURIHostAndPort ("https://".toList ++ ("node".toList ++ ':' :: "+80".toList))
          = .ret (h, p, err) ∧
        (err ≠ none ↔ ¬ isUint32Decimal "+80".toList) ∧
        (err ≠ none → h = [] ∧ p = 0) ∧
        (err = none → h = "node".toList ∧ p = decimalValue "+80".toList) :=
  ⟨by decide, by decide, by decide, by decide, by decide,
    GetURIHostAndPort_port_error_iff "https://".toList "node".toList "+80".toList
      (Or.inr rfl) (by decide) (by decide)⟩

/-! ## Retries of the receipt wait -/

/-- C19: in `waitForTransactionReceipt` only a `NotFound` error is retried.
Whenever the call returns, every response that was followed by a further query
was a `NotFound` error; and the first response with another error, reached
after `k` `NotFound` responses with the context not done, ends the call there:
it returns `(nil, err)` with that error after exactly `k + 1` queries and `k`
waits, so without a further query or wait. -/
theorem waitForTransactionReceipt_retries_only_notFound (env : Env) (txHash : Nat) :
    (∀ (rounds : Nat) (p p' : Progress) (rc : Option Receipt) (er : Option GoError),
        waitForTransactionReceipt env txHash rounds p = .ret ((rc, er), p') →
        ∀ i, p.receiptQueries + i + 1 < p'.receiptQueries →
          ∃ e, env.receipts txHash (p.receiptQueries + i) = .failure e ∧
            e.isNotFound = true) ∧
      (∀ (k rounds : Nat) (p : Progress) (err : GoError), k < rounds →
        (∀ i, i < k → ∃ e, env.receipts txHash (p.receiptQueries + i) = .failure e ∧
          e.isNotFound = true) →
        (∀ i, i < k → env.waits (p.waited + i) = none) →
        env.receipts txHash (p.receiptQueries + k) = .failure err →
        err.isNotFound = false →
        ∃ p', waitForTransactionReceipt env txHash rounds p = .ret ((none, some err), p') ∧
          p'.receiptQueries = p.receiptQueries + (k + 1) ∧
          p'.waited = p.waited + k) := by
  constructor
  · intro rounds p p' rc er h i hi
    obtain ⟨n, _, hgo, hq, _, _⟩ := waitForTransactionReceipt_ret_inv env txHash rounds p rc er p' h
    obtain ⟨e, he, hnf, _⟩ := hgo i (by omega)
    exact ⟨e, he, hnf⟩
  · intro k
    induction k with
    | zero =>
      intro rounds p err hr _ _ hfail hnot
      obtain ⟨rounds, rfl⟩ : ∃ m, rounds = m + 1 := ⟨rounds - 1, by omega⟩
      rw [waitForTransactionReceipt_succ]
      simp only [Nat.add_zero] at hfail
      rw [hfail]
      simp only [hnot]
      exact ⟨_, rfl, rfl, rfl⟩
    | succ k ih =>
      intro rounds p err hr hnf hw hfail hnot
      obtain ⟨rounds, rfl⟩ : ∃ m, rounds = m + 1 := ⟨rounds - 1, by omega⟩
      rw [waitForTransactionReceipt_succ]
      obtain ⟨e, a, b⟩ := hnf 0 (by omega)
      have w := hw 0 (by omega)
      simp only [Nat.add_zero] at a w
      rw [a]
      simp only [b, if_true, w]
      have := ih rounds ((p.afterReceiptQuery (.failure e)).afterWait none) err (by omega)
        (by
          intro i hi
          obtain ⟨e', a', b'⟩ := hnf (i + 1) (by omega)
          refine ⟨e', ?_, b'⟩
          rw [← a']; simp only [Progress.afterReceiptQuery, Progress.afterWait]; congr 1; omega)
        (by
          intro i hi
          rw [← hw (i + 1) (by omega)]
          simp only [Progress.afterReceiptQuery, Progress.afterWait]; congr 1; omega)
        (by
          rw [← hfail]; simp only [Progress.afterReceiptQuery, Progress.afterWait]
          congr 1; omega)
        hnot
      obtain ⟨p', hp', h1, h2⟩ := this
      refine ⟨p', hp', ?_, ?_⟩
      · rw [h1]; simp only [Progress.afterReceiptQuery, Progress.afterWait]; omega
      · rw [h2]; simp only [Progress.afterReceiptQuery, Progress.afterWait]; omega

/-- Witness of C19: in `brokenEnv` the second response is an error other than
`NotFound`; the call returns it after two queries and one wait. -/
theorem waitForTransactionReceipt_retries_only_notFound_witness :
    waitForTransactionReceipt brokenEnv 9 5 .start
        = .ret ((none, some (.other "connection reset")),
            ⟨2, 0, 1, [.receiptQuery (.failure .notFound), .wait none,
              .receiptQuery (.failure (.other "connection reset"))]⟩) ∧
      ∃ p', waitForTransactionReceipt brokenEnv 9 5 .start
          = .ret ((none, some (.other "connection reset")), p') ∧
        p'.receiptQueries = Progress.start.receiptQueries + (1 + 1) ∧
        p'.waited = Progress.start.waited + 1 :=
  ⟨rfl, (waitForTransactionReceipt_retries_only_notFound brokenEnv 9).2 1 5 .start
    (.other "connection reset") (by decide)
    (fun i hi => ⟨.notFound, by
      have : i = 0 := by omega
      subst this
      exact ⟨rfl, rfl⟩⟩)
    (fun _ _ => rfl) rfl rfl⟩

/-! ## The message codec -/

/-- A big-endian form has the width it was asked for. -/
theorem bigEndian_length : ∀ (width v : Nat), (bigEndian width v).length = width := by
  intro width
  induction width with
  | zero => intro v; rfl
  | succ width ih => intro v; simp [bigEndian, ih]

/-- Reading a big-endian form gives the number, cut to the width. -/
theorem fromBigEndian_bigEndian : ∀ (width v : Nat),
    fromBigEndian (bigEndian width v) = v % 256 ^ width := by
  intro width
  induction width with
  | zero => intro v; simp [bigEndian, fromBigEndian, Nat.mod_one]
  | succ width ih =>
    intro v
    have h := ih (v / 256)
    simp only [fromBigEndian] at h
    simp only [bigEndian, fromBigEndian, List.foldl_append, List.foldl_cons, List.foldl_nil, h]
    rw [Nat.pow_succ, Nat.mul_comm (256 ^ width) 256, Nat.mod_mul]
    omega

/-- The fields of a packed registration, read back by position. -/
theorem registration_fields (a b c d : List Byte) (ha : a.length = 8) (hb : b.length = 32)
    (hc : c.length = 8) :
    (a ++ b ++ c ++ d).take 8 = a ∧ ((a ++ b ++ c ++ d).drop 8).take 32 = b ∧
      ((a ++ b ++ c ++ d).drop 40).take 8 = c ∧ (a ++ b ++ c ++ d).drop 48 = d := by
  have e1 : (a ++ b ++ c ++ d).drop 8 = b ++ (c ++ d) := by
    rw [List.append_assoc, List.append_assoc]
    exact List.drop_left' ha
  have e2 : (a ++ b ++ c ++ d).drop 40 = c ++ d := by
    have : (a ++ b ++ c ++ d) = (a ++ b) ++ (c ++ d) := by simp
    rw [this]
    exact List.drop_left' (by simp [ha, hb])
  have e3 : (a ++ b ++ c ++ d).drop 48 = d := by
    exact List.drop_left' (by simp [ha, hb, hc])
  refine ⟨?_, ?_, ?_, e3⟩
  · rw [List.append_assoc, List.append_assoc]
    exact List.take_left' ha
  · rw [e1]; exact List.take_left' hb
  · rw [e2]; exact List.take_left' hc

/-- The fields of a packed set-weight message, read back by position. -/
theorem setWeight_fields (a b c : List Byte) (n : Nat) (ha : a.length = 32)
    (hb : b.length = n) (hc : c.length = 8) :
    (a ++ b ++ c).take 32 = a ∧ ((a ++ b ++ c).drop 32).take n = b ∧
      ((a ++ b ++ c).drop (32 + n)).take 8 = c := by
  have e1 : (a ++ b ++ c).drop 32 = b ++ c := by
    rw [List.append_assoc]
    exact List.drop_left' ha
  have e2 : (a ++ b ++ c).drop (32 + n) = c := List.drop_left' (by simp [ha, hb])
  refine ⟨?_, ?_, ?_⟩
  · rw [List.append_assoc]; exact List.take_left' ha
  · rw [e1]; exact List.take_left' hb
  · rw [e2]; simp [← hc]

/-- C11: on the modelled codec, for every layout, every representable
registration message and every representable set-weight message is encoded,
and decoding the encoding as a message of its type returns the message. -/
theorem decode_encode_roundtrip (layout : CodecLayout) (x : Message)
    (h : layout.representable x) :
    ∃ bytes, encode layout x = .ok bytes ∧ decode layout x.type bytes = .ok x := by
  cases x with
  | Registration weight nodeID expiry blsPublicKey =>
    obtain ⟨hw, hn, he, hk⟩ := h
    refine ⟨layout.registrationTag ::
      (bigEndian 8 weight ++ nodeID ++ bigEndian 8 expiry ++ blsPublicKey), ?_, ?_⟩
    · simp [encode, encodeRegistration, hk]
    · obtain ⟨f1, f2, f3, f4⟩ := registration_fields (bigEndian 8 weight) nodeID
        (bigEndian 8 expiry) blsPublicKey (bigEndian_length 8 weight) hn
        (bigEndian_length 8 expiry)
      have hlen : (bigEndian 8 weight ++ nodeID ++ bigEndian 8 expiry ++ blsPublicKey).length
          = 8 + 32 + 8 + layout.blsPublicKeyLength := by
        simp [bigEndian_length, hn, hk]
        omega
      have hw' : weight % 256 ^ 8 = weight := Nat.mod_eq_of_lt (by norm_num at hw ⊢; exact hw)
      have he' : expiry % 256 ^ 8 = expiry := Nat.mod_eq_of_lt (by norm_num at he ⊢; exact he)
      simp only [decode, Message.type, CodecLayout.tag, CodecLayout.payloadSize, ne_eq,
        not_true_eq_false, false_and, if_false, hlen, f1, f2, f3, f4, fromBigEndian_bigEndian,
        hw', he']
  | SetWeight validationID nonce weight =>
    obtain ⟨hv, hn, hw⟩ := h
    refine ⟨layout.setWeightTag ::
      (validationID ++ bigEndian layout.nonceWidth nonce ++ bigEndian 8 weight), rfl, ?_⟩
    obtain ⟨f1, f2, f3⟩ := setWeight_fields validationID (bigEndian layout.nonceWidth nonce)
      (bigEndian 8 weight) layout.nonceWidth hv (bigEndian_length _ nonce)
      (bigEndian_length 8 weight)
    have hlen : (validationID ++ bigEndian layout.nonceWidth nonce ++ bigEndian 8 weight).length
        = 32 + layout.nonceWidth + 8 := by
      simp [bigEndian_length, hv]
      omega
    have hw' : weight % 256 ^ 8 = weight := Nat.mod_eq_of_lt (by norm_num at hw ⊢; exact hw)
    have hn' : nonce % 256 ^ layout.nonceWidth = nonce := Nat.mod_eq_of_lt hn
    simp only [decode, Message.type, CodecLayout.tag, CodecLayout.payloadSize, ne_eq,
      not_true_eq_false, and_false, if_false, hlen, f1, f2, f3, fromBigEndian_bigEndian,
      hw', hn']

/-- Witness of C11: a registration and a set-weight message in `plainLayout`. -/
theorem decode_encode_roundtrip_witness :
    plainLayout.representable plainRegistration ∧
      (∃ bytes, encode plainLayout plainRegistration = .ok bytes ∧
        decode plainLayout .Registration bytes = .ok plainRegistration) ∧
      plainLayout.representable plainSetWeight ∧
      (∃ bytes, encode plainLayout plainSetWeight = .ok bytes ∧
        decode plainLayout .SetWeight bytes = .ok plainSetWeight) :=
  have h1 : plainLayout.representable plainRegistration :=
    ⟨by decide, by decide, by decide, by decide⟩
  have h2 : plainLayout.representable plainSetWeight :=
    ⟨by decide, by decide, by decide⟩
  ⟨h1, decode_encode_roundtrip plainLayout plainRegistration h1,
    h2, decode_encode_roundtrip plainLayout plainSetWeight h2⟩

/-! ## The churn limiter -/

/-- The churn of two lists of operations adds up. -/
theorem hourlyChurn_append (a b : List (Nat × Nat)) (now : Nat) :
    hourlyChurn (a ++ b) now = hourlyChurn a now + hourlyChurn b now := by
  simp [hourlyChurn]

/-- The churn of the rolling hour only falls as time goes on without operations. -/
theorem hourlyChurn_antitone (churned : List (Nat × Nat)) (now later : Nat) (h : now ≤ later) :
    hourlyChurn churned later ≤ hourlyChurn churned now := by
  induction churned with
  | nil => simp [hourlyChurn]
  | cons e rest ih =>
    simp only [hourlyChurn, List.filter_cons] at ih ⊢
    by_cases h1 : later < e.1 + 3600
    · have h2 : now < e.1 + 3600 := by omega
      simp only [h1, h2, decide_True, if_true, List.map_cons, List.sum_cons]
      omega
    · by_cases h2 : now < e.1 + 3600
      · simp only [h1, h2, decide_True, decide_False, if_true, Bool.false_eq_true, if_false,
          List.map_cons, List.sum_cons]
        omega
      · simp only [h1, h2, decide_False, Bool.false_eq_true, if_false]
        exact ih

/-- Operations all within the rolling hour count with their whole weight. -/
theorem hourlyChurn_all_within (churned : List (Nat × Nat)) (now : Nat)
    (h : ∀ e ∈ churned, now < e.1 + 3600) :
    hourlyChurn churned now = (churned.map Prod.snd).sum := by
  induction churned with
  | nil => simp [hourlyChurn]
  | cons e rest ih =>
    have he := h e (List.mem_cons_self _ _)
    have hrest := ih (fun x hx => h x (List.mem_cons_of_mem _ hx))
    simp only [hourlyChurn, List.filter_cons, he, decide_True, if_true, List.map_cons,
      List.sum_cons] at hrest ⊢
    rw [hrest]

/-- A state within the limit stays within it as time goes on without operations. -/
theorem withinChurnLimit_later (settings : ValidatorManagerSettings) (s : ChurnState)
    (now later : Nat) (h : now ≤ later) (hs : withinChurnLimit settings s now) :
    withinChurnLimit settings s later := by
  unfold withinChurnLimit at hs ⊢
  have := hourlyChurn_antitone s.churned now later h
  exact Nat.le_trans (Nat.mul_le_mul_right 100 this) hs

/-- One submitted operation: applied whole and within the limit, or rejected. -/
theorem submitChurn_cases (settings : ValidatorManagerSettings) (now : Nat)
    (op : ChurnOperation) (s : ChurnState) :
    (withinChurnLimit settings
        ⟨op.applyTo s.totalWeight, s.churned ++ [(now, op.weight)]⟩ now ∧
      submitChurn settings now op s
        = .ok ⟨op.applyTo s.totalWeight, s.churned ++ [(now, op.weight)]⟩) ∨
    (¬ withinChurnLimit settings
        ⟨op.applyTo s.totalWeight, s.churned ++ [(now, op.weight)]⟩ now ∧
      submitChurn settings now op s = .error .ChurnLimitExceeded) := by
  unfold submitChurn
  by_cases h : withinChurnLimit settings
      ⟨op.applyTo s.totalWeight, s.churned ++ [(now, op.weight)]⟩ now
  · left; exact ⟨h, by simp only [h, if_true]⟩
  · right; exact ⟨h, by simp only [h, if_false]⟩

/-- The limit holds after every run of operations in time order. -/
theorem runChurn_within (settings : ValidatorManagerSettings) :
    ∀ (ops : List (Nat × ChurnOperation)) (s : ChurnState) (t0 : Nat),
      List.Chain (fun a b => a ≤ b) t0 (ops.map Prod.fst) →
      withinChurnLimit settings s t0 →
      withinChurnLimit settings (runChurn settings ops s) (lastTime t0 ops) := by
  intro ops
  induction ops with
  | nil => intro s t0 _ hs; exact hs
  | cons o rest ih =>
    intro s t0 hchain hs
    obtain ⟨now, op⟩ := o
    simp only [List.map_cons, List.chain_cons] at hchain
    obtain ⟨hle, hrest⟩ := hchain
    simp only [lastTime]
    rcases submitChurn_cases settings now op s with ⟨hin, hok⟩ | ⟨_, herr⟩
    · simp only [runChurn, hok]
      exact ih _ now hrest hin
    · simp only [runChurn, herr]
      exact ih s now hrest (withinChurnLimit_later settings s t0 now hle hs)

/-- A run appends the operations it applied, in order, and nothing else. -/
theorem runChurn_churned (settings : ValidatorManagerSettings) :
    ∀ (ops : List (Nat × ChurnOperation)) (s : ChurnState),
      ∃ applied : List (Nat × Nat),
        (runChurn settings ops s).churned = s.churned ++ applied ∧
        applied.Sublist (ops.map (fun o => (o.1, o.2.weight))) := by
  intro ops
  induction ops with
  | nil => intro s; exact ⟨[], by simp [runChurn], List.Sublist.refl _⟩
  | cons o rest ih =>
    intro s
    obtain ⟨now, op⟩ := o
    rcases submitChurn_cases settings now op s with ⟨_, hok⟩ | ⟨_, herr⟩
    · obtain ⟨applied, ha, hsub⟩ := ih ⟨op.applyTo s.totalWeight, s.churned ++ [(now, op.weight)]⟩
      refine ⟨(now, op.weight) :: applied, ?_, ?_⟩
      · simp only [runChurn, hok, ha]
        simp
      · simpa using hsub
    · obtain ⟨applied, ha, hsub⟩ := ih s
      refine ⟨applied, ?_, ?_⟩
      · simp only [runChurn, herr, ha]
      · simp only [List.map_cons]
        exact List.Sublist.cons _ hsub

/-- C12: on the modelled churn limiter, for every sequence of add and remove
operations in time order, from a state within the limit. After the sequence the
cumulative churn of the rolling hour is at most `MaximumHourlyChurn` percent of
the total active weight; when the whole sequence lies within one rolling hour,
the weights of the operations it applied add up to at most that share; and an
operation that would exceed the limit is rejected and leaves the state as it
was. -/
theorem churn_within_limit (settings : ValidatorManagerSettings)
    (ops : List (Nat × ChurnOperation)) (s : ChurnState) (t0 : Nat)
    (hsorted : List.Chain (fun a b => a ≤ b) t0 (ops.map Prod.fst))
    (hstart : withinChurnLimit settings s t0) :
    withinChurnLimit settings (runChurn settings ops s) (lastTime t0 ops) ∧
      (∃ applied : List (Nat × Nat),
        (runChurn settings ops s).churned = s.churned ++ applied ∧
        applied.Sublist (ops.map (fun o => (o.1, o.2.weight))) ∧
        ((∀ o ∈ ops, lastTime t0 ops < o.1 + 3600) →
          (applied.map Prod.snd).sum * 100
            ≤ settings.MaximumHourlyChurn * (runChurn settings ops s).totalWeight)) ∧
      (∀ (now : Nat) (op : ChurnOperation) (st : ChurnState),
        ¬ withinChurnLimit settings
            ⟨op.applyTo st.totalWeight, st.churned ++ [(now, op.weight)]⟩ now →
        submitChurn settings now op st = .error .ChurnLimitExceeded ∧
          runChurn settings [(now, op)] st = st) := by
  have hinv := runChurn_within settings ops s t0 hsorted hstart
  refine ⟨hinv, ?_, ?_⟩
  · obtain ⟨applied, ha, hsub⟩ := runChurn_churned settings ops s
    refine ⟨applied, ha, hsub, ?_⟩
    intro hhour
    have hall : ∀ e ∈ applied, lastTime t0 ops < e.1 + 3600 := by
      intro e he
      obtain ⟨o, ho, rfl⟩ := List.mem_map.mp (hsub.subset he)
      exact hhour o ho
    unfold withinChurnLimit at hinv
    rw [ha, hourlyChurn_append, hourlyChurn_all_within applied _ hall] at hinv
    have : (applied.map Prod.snd).sum * 100
        ≤ (hourlyChurn s.churned (lastTime t0 ops) + (applied.map Prod.snd).sum) * 100 :=
      Nat.mul_le_mul_right 100 (Nat.le_add_left _ _)
    exact Nat.le_trans this hinv
  · intro now op st hnot
    rcases submitChurn_cases settings now op st with ⟨hin, _⟩ | ⟨_, herr⟩
    · exact absurd hin hnot
    · exact ⟨herr, by simp only [runChurn, herr]⟩

/-- Witness of C12: with 20 percent and a total weight of 1000, adding 100 is
applied, removing 200 ten seconds later is rejected, adding 50 is applied. -/
theorem churn_within_limit_witness :
    runChurn churn20 [(0, .add 100), (10, .remove 200), (20, .add 50)] ⟨1000, []⟩
        = ⟨1150, [(0, 100), (20, 50)]⟩ ∧
      withinChurnLimit churn20
        (runChurn churn20 [(0, .add 100), (10, .remove 200), (20, .add 50)] ⟨1000, []⟩)
        (lastTime 0 [(0, .add 100), (10, .remove 200), (20, .add 50)]) :=
  ⟨by decide,
    (churn_within_limit churn20 [(0, .add 100), (10, .remove 200), (20, .add 50)] ⟨1000, []⟩ 0
      (by simp) (by decide)).1⟩

/-! ## Slices and indexes of `GetURIHostAndPort` -/

/-- The tail with its indexes written out is the tail. -/
theorem hostAndPortChecked_eq (rest : List Char) :
    hostAndPortChecked rest = hostAndPortOf rest := by
  unfold hostAndPortChecked hostAndPortOf
  rcases hs : Split rest ':' with _ | ⟨a, _ | ⟨b, _ | ⟨c, tl⟩⟩⟩
  · simp
  · simp
  · simp only [List.length_cons, List.length_nil, ne_eq, not_true_eq_false, if_false]
    simp only [List.getElem?_cons_succ, List.getElem?_cons_zero]
  · simp

/-- The tail never ends in an out-of-range slice or index. -/
theorem hostAndPortOf_in_range (rest : List Char) :
    hostAndPortOf rest ≠ .abort "slice bounds out of range" ∧
      hostAndPortOf rest ≠ .abort "index out of range" := by
  unfold hostAndPortOf
  split
  · split <;> simp
  · constructor
    · intro h
      injection h with h
      exact absurd h (by decide)
    · intro h
      injection h with h
      exact absurd h (by decide)

/-- C21: under the asserted precondition `len(uri) > 7` every slice and index
of `GetURIHostAndPort` is in range: `uri[:7]`, `uri[:8]`, `uri[7:]` and
`uri[8:]` are defined, also when `len(uri)` is exactly 8; after the assertion
that the split has two parts, `hostAndPort[0]` and `hostAndPort[1]` are
defined and the tail with the indexes written out is the tail of the function;
so the call never ends in an out-of-range panic. -/
theorem GetURIHostAndPort_in_range (uri : List Char) :
    (7 < goLen uri →
        sliceTo uri 7 = some (uri.take 7) ∧ sliceTo uri 8 = some (uri.take 8) ∧
        sliceFrom uri 7 = some (uri.drop 7) ∧ sliceFrom uri 8 = some (uri.drop 8)) ∧
      (∀ rest : List Char, (Split rest ':').length = 2 →
        ∃ host portStr, (Split rest ':')[0]? = some host ∧
          (Split rest ':')[1]? = some portStr) ∧
      (∀ rest : List Char, hostAndPortChecked rest = hostAndPortOf rest) ∧
      GetURIHostAndPort uri ≠ .abort "slice bounds out of range" ∧
      GetURIHostAndPort uri ≠ .abort "index out of range" := by
  have hslices : 7 < goLen uri →
      sliceTo uri 7 = some (uri.take 7) ∧ sliceTo uri 8 = some (uri.take 8) ∧
      sliceFrom uri 7 = some (uri.drop 7) ∧ sliceFrom uri 8 = some (uri.drop 8) := by
    intro h
    have h7 : 7 ≤ goLen uri := by omega
    have h8 : 8 ≤ goLen uri := by omega
    simp only [sliceTo, sliceFrom, h7, h8, if_true, and_self]
  refine ⟨hslices, ?_, hostAndPortChecked_eq, ?_⟩
  · intro rest hlen
    rcases hs : Split rest ':' with _ | ⟨a, _ | ⟨b, _ | ⟨c, tl⟩⟩⟩
    · rw [hs] at hlen; simp at hlen
    · rw [hs] at hlen; simp at hlen
    · exact ⟨a, b, rfl, rfl⟩
    · rw [hs] at hlen; simp at hlen
  · have hexp1 : ("Expected len(uri) to be > 7" : String) ≠ "slice bounds out of range" := by
      decide
    have hexp2 : ("Expected len(uri) to be > 7" : String) ≠ "index out of range" := by decide
    unfold GetURIHostAndPort
    by_cases hlen : 7 < goLen uri
    · obtain ⟨s7, s8, f7, f8⟩ := hslices hlen
      have hgt : goLen uri > 7 := hlen
      simp only [hgt, not_true_eq_false, if_false, s7, s8, f7, f8]
      split
      · exact hostAndPortOf_in_range _
      · split
        · exact hostAndPortOf_in_range _
        · constructor <;> simp
    · have hgt : ¬ goLen uri > 7 := hlen
      simp only [hgt, not_false_eq_true, if_true]
      constructor
      · intro h; injection h with h; exact hexp1 h
      · intro h; injection h with h; exact hexp2 h

/-- Witness of C21: `https://` has exactly 8 bytes; all four slices are defined
and the call ends in the failed two-part assertion, not in a panic. -/
theorem GetURIHostAndPort_in_range_witness :
    goLen "https://".toList = 8 ∧
      (sliceTo "https://".toList 7 = some ("https://".toList.take 7) ∧
        sliceTo "https://".toList 8 = some ("https://".toList.take 8) ∧
        sliceFrom "https://".toList 7 = some ("https://".toList.drop 7) ∧
        sliceFrom "https://".toList 8 = some ("https://".toList.drop 8)) ∧
      GetURIHostAndPort "https://".toList
        = .abort "Expected the length of hostAndPort to equal 2" :=
  ⟨by decide, (GetURIHostAndPort_in_range "https://".toList).1 (by decide), by decide⟩

/-! ## The value stored by `bytesFlag.Set` -/

/-- `Split` returns one piece more than there are separators. -/
theorem Split_length (s : List Char) (sep : Char) :
    (Split s sep).length = 1 + s.count sep := by
  induction s with
  | nil => simp [Split]
  | cons c cs ih =>
    rw [Split]
    by_cases hc : c = sep
    · subst hc
      simp only [if_true, List.length_cons, ih, List.count_cons_self]
      omega
    · have hne : (c == sep) = false := by simpa using hc
      simp only [hc, if_false, List.count_cons, hne]
      rcases hs : Split cs sep with _ | ⟨piece, pieces⟩
      · exact absurd hs (Split_ne_nil cs sep)
      · rw [hs] at ih
        simp only [List.length_cons] at ih ⊢
        simp only [Bool.false_eq_true, if_false, Nat.add_zero]
        omega

/-- `parseByteSize` succeeds with exactly the value its item denotes. -/
theorem parseByteSize_ok_iff (Dynamic : Nat) (item : List Char) (v : Nat) :
    parseByteSize Dynamic item = .ok v ↔ itemDenotes Dynamic item v := by
  unfold parseByteSize itemDenotes
  by_cases hl : ToLower item = dynFlagSentinel
  · simp only [hl, if_true, ne_eq, not_true_eq_false, false_and, or_false, true_and]
    constructor
    · intro h; injection h with h; exact h.symm
    · intro h; rw [h]
  · simp only [hl, if_false, ne_eq, not_false_eq_true, true_and, false_and, false_or]
    rw [ParseUint32_ok_iff]
    constructor
    · rintro ⟨h1, h2⟩; exact ⟨h1, h2.symm⟩
    · rintro ⟨h1, h2⟩; exact ⟨h1, h2.symm⟩

/-- `parseByteSize` fails exactly on the items that cannot be parsed. -/
theorem parseByteSize_error_iff (Dynamic : Nat) (item : List Char) :
    (∃ err, parseByteSize Dynamic item = .error err) ↔ isBadItem item := by
  unfold parseByteSize isBadItem
  by_cases hl : ToLower item = dynFlagSentinel
  · simp [hl]
  · simp only [hl, if_false, ne_eq, not_false_eq_true, true_and]
    exact ParseUint32_error_iff _

/-- A group parses to the values its items denote, item by item. -/
theorem parseGroup_ok_iff (Dynamic : Nat) :
    ∀ (items : List (List Char)) (bytes : List Nat),
      parseGroup Dynamic items = .ok bytes ↔
        List.Forall₂ (itemDenotes Dynamic) items bytes := by
  intro items
  induction items with
  | nil =>
    intro bytes
    simp only [parseGroup, List.forall₂_nil_left_iff]
    constructor
    · intro h; injection h with h; exact h.symm
    · intro h; rw [h]
  | cons item rest ih =>
    intro bytes
    rw [parseGroup]
    rcases hb : parseByteSize Dynamic item with err | b
    · constructor
      · intro h; cases h
      · intro h
        cases h with
        | cons h1 _ =>
          rw [(parseByteSize_ok_iff _ _ _).mpr h1] at hb
          cases hb
    · rcases hr : parseGroup Dynamic rest with err | bs
      · constructor
        · intro h; cases h
        · intro h
          cases h with
          | cons _ h2 =>
            rw [(ih _).mpr h2] at hr
            cases hr
      · constructor
        · intro h
          injection h with h
          subst h
          exact List.Forall₂.cons ((parseByteSize_ok_iff _ _ _).mp hb) ((ih _).mp hr)
        · intro h
          cases h with
          | cons h1 h2 =>
            rw [(parseByteSize_ok_iff _ _ _).mpr h1] at hb
            rw [(ih _).mpr h2] at hr
            injection hb with hb
            injection hr with hr
            rw [hb, hr]

/-- A group fails to parse exactly when one of its items cannot be parsed. -/
theorem parseGroup_error_iff (Dynamic : Nat) :
    ∀ items : List (List Char),
      (∃ err, parseGroup Dynamic items = .error err) ↔ ∃ item ∈ items, isBadItem item := by
  intro items
  induction items with
  | nil => simp [parseGroup]
  | cons item rest ih =>
    rw [parseGroup]
    rcases hb : parseByteSize Dynamic item with err | b
    · have hbad := (parseByteSize_error_iff Dynamic item).mp ⟨err, hb⟩
      constructor
      · intro _; exact ⟨item, List.mem_cons_self _ _, hbad⟩
      · intro _; exact ⟨err, rfl⟩
    · have hgood : ¬ isBadItem item := by
        intro hbad
        obtain ⟨e, he⟩ := (parseByteSize_error_iff Dynamic item).mpr hbad
        rw [he] at hb
        cases hb
      rcases hr : parseGroup Dynamic rest with err | bs
      · constructor
        · intro _
          obtain ⟨i, hi, hbad⟩ := ih.mp ⟨err, hr⟩
          exact ⟨i, List.mem_cons_of_mem _ hi, hbad⟩
        · intro _; exact ⟨err, rfl⟩
      · constructor
        · rintro ⟨e, he⟩; cases he
        · rintro ⟨i, hi, hbad⟩
          rcases List.mem_cons.mp hi with rfl | hi
          · exact absurd hbad hgood
          · obtain ⟨e, he⟩ := ih.mpr ⟨i, hi, hbad⟩
            rw [he] at hr
            cases hr

/-- The groups parse to the values their items denote, group by group. -/
theorem parseGroups_ok_iff (Dynamic : Nat) :
    ∀ (groups : List (List Char)) (val : List (List Nat)),
      parseGroups Dynamic groups = .ok val ↔
        List.Forall₂ (fun g grp => List.Forall₂ (itemDenotes Dynamic) (Split g ',') grp)
          groups val := by
  intro groups
  induction groups with
  | nil =>
    intro val
    simp only [parseGroups, List.forall₂_nil_left_iff]
    constructor
    · intro h; injection h with h; exact h.symm
    · intro h; rw [h]
  | cons g rest ih =>
    intro val
    rw [parseGroups]
    rcases hb : parseGroup Dynamic (Split g ',') with err | b
    · constructor
      · intro h; cases h
      · intro h
        cases h with
        | cons h1 _ =>
          rw [(parseGroup_ok_iff _ _ _).mpr h1] at hb
          cases hb
    · rcases hr : parseGroups Dynamic rest with err | bs
      · constructor
        · intro h; cases h
        · intro h
          cases h with
          | cons _ h2 =>
            rw [(ih _).mpr h2] at hr
            cases hr
      · constructor
        · intro h
          injection h with h
          subst h
          exact List.Forall₂.cons ((parseGroup_ok_iff _ _ _).mp hb) ((ih _).mp hr)
        · intro h
          cases h with
          | cons h1 h2 =>
            rw [(parseGroup_ok_iff _ _ _).mpr h1] at hb
            rw [(ih _).mpr h2] at hr
            injection hb with hb
            injection hr with hr
            rw [hb, hr]

/-- The groups fail to parse exactly when an item of a group cannot be parsed. -/
theorem parseGroups_error_iff (Dynamic : Nat) :
    ∀ groups : List (List Char),
      (∃ err, parseGroups Dynamic groups = .error err) ↔
        ∃ g ∈ groups, ∃ item ∈ Split g ',', isBadItem item := by
  intro groups
  induction groups with
  | nil => simp [parseGroups]
  | cons g rest ih =>
    rw [parseGroups]
    rcases hb : parseGroup Dynamic (Split g ',') with err | b
    · have hbad := (parseGroup_error_iff Dynamic _).mp ⟨err, hb⟩
      constructor
      · intro _; exact ⟨g, List.mem_cons_self _ _, hbad⟩
      · intro _; exact ⟨err, rfl⟩
    · have hgood : ¬ ∃ item ∈ Split g ',', isBadItem item := by
        intro hbad
        obtain ⟨e, he⟩ := (parseGroup_error_iff Dynamic _).mpr hbad
        rw [he] at hb
        cases hb
      rcases hr : parseGroups Dynamic rest with err | bs
      · constructor
        · intro _
          obtain ⟨i, hi, hbad⟩ := ih.mp ⟨err, hr⟩
          exact ⟨i, List.mem_cons_of_mem _ hi, hbad⟩
        · intro _; exact ⟨err, rfl⟩
      · constructor
        · rintro ⟨e, he⟩; cases he
        · rintro ⟨i, hi, hbad⟩
          rcases List.mem_cons.mp hi with rfl | hi
          · exact absurd hbad hgood
          · obtain ⟨e, he⟩ := ih.mpr ⟨i, hi, hbad⟩
            rw [he] at hr
            cases hr

/-- C22: when `bytesFlag.Set` succeeds on `s`, the stored value has one group
per semicolon-separated segment of `s`, that is `1 +` the number of `;` in
`s`; each group has one entry per comma-separated item of its segment, in
input order, and is not empty; the entry of a numeric item is its base-10
value and the entry of an item equal to `dyn` is `unpack.Dynamic`. -/
theorem Set_stored_value_shape (Dynamic : Nat) (f f' : bytesFlag) (s : List Char)
    (h : bytesFlag.Set Dynamic f s = (f', none)) :
    f'.val.length = 1 + s.count ';' ∧
      List.Forall₂
        (fun segment grp =>
          grp ≠ [] ∧ grp.length = 1 + segment.count ',' ∧
            List.Forall₂ (itemDenotes Dynamic) (Split segment ',') grp)
        (Split s ';') f'.val ∧
      (∀ segment grp item v, List.Forall₂ (itemDenotes Dynamic) (Split segment ',') grp →
        (item, v) ∈ (Split segment ',').zip grp →
          (item = dynFlagSentinel → v = Dynamic) ∧
          (ToLower item ≠ dynFlagSentinel → v = decimalValue (TrimSpace item) ∧ v < 2 ^ 32)) := by
  unfold bytesFlag.Set at h
  rcases hp : parseGroups Dynamic (Split s ';') with err | val
  · rw [hp] at h; cases h
  · rw [hp] at h
    injection h with h1 _
    subst h1
    have hall := (parseGroups_ok_iff Dynamic _ _).mp hp
    refine ⟨?_, ?_, ?_⟩
    · show val.length = _
      rw [← Split_length, hall.length_eq]
    · show List.Forall₂ _ (Split s ';') val
      refine hall.imp ?_
      intro segment grp hg
      have hlen : grp.length = 1 + segment.count ',' := by
        rw [← Split_length, hg.length_eq]
      refine ⟨?_, hlen, hg⟩
      intro hnil
      rw [hnil] at hlen
      simp only [List.length_nil] at hlen
      omega
    · intro segment grp item v hg hmem
      have hden : itemDenotes Dynamic item v := by
        clear hall hp
        generalize Split segment ',' = items at hg hmem
        induction hg with
        | nil => simp at hmem
        | cons h1 _ ih =>
          rcases List.mem_cons.mp hmem with heq | hmem
          · injection heq with e1 e2
            subst e1; subst e2
            exact h1
          · exact ih hmem
      constructor
      · intro hitem
        subst hitem
        rcases hden with ⟨_, hv⟩ | ⟨hne, _⟩
        · exact hv
        · exact absurd (by decide) hne
      · intro hne
        rcases hden with ⟨hl, _⟩ | ⟨_, hdec, hv⟩
        · exact absurd hl hne
        · exact ⟨hv, by rw [hv]; exact hdec.2.2⟩

/-- Witness of C22: ` 1,dyn;007` is stored as two groups, `1` and
`unpack.Dynamic`, then `7`. -/
theorem Set_stored_value_shape_witness :
    bytesFlag.Set 99 ⟨[]⟩ " 1,dyn;007".toList = (⟨[[1, 99], [7]]⟩, none) ∧
      (⟨[[1, 99], [7]]⟩ : bytesFlag).val.length = 1 + " 1,dyn;007".toList.count ';' :=
  ⟨by decide,
    (Set_stored_value_shape 99 ⟨[]⟩ ⟨[[1, 99], [7]]⟩ " 1,dyn;007".toList (by decide)).1⟩

/-- C23: `bytesFlag.Set` is atomic. It returns an error exactly when some item
of some segment is neither the `dyn` sentinel nor, after trimming, a base-10
unsigned integer below `2^32`; the flag it leaves is then the flag it was
given, whatever items parsed before the bad one. -/
theorem Set_error_keeps_value (Dynamic : Nat) (f : bytesFlag) (s : List Char) :
    ((bytesFlag.Set Dynamic f s).2 ≠ none ↔
        ∃ segment ∈ Split s ';', ∃ item ∈ Split segment ',', isBadItem item) ∧
      (∀ f' err, bytesFlag.Set Dynamic f s = (f', some err) → f' = f) := by
  have hiff : ∀ t : List Char, (bytesFlag.Set Dynamic f t).2 ≠ none ↔
      ∃ segment ∈ Split t ';', ∃ item ∈ Split segment ',', isBadItem item := by
    intro t
    rw [← parseGroups_error_iff Dynamic]
    unfold bytesFlag.Set
    rcases hp : parseGroups Dynamic (Split t ';') with err | val
    · simp
    · simp
  have hkeep : ∀ t : List Char, (bytesFlag.Set Dynamic f t).2 ≠ none →
      (bytesFlag.Set Dynamic f t).1 = f := by
    intro t
    unfold bytesFlag.Set
    rcases hp : parseGroups Dynamic (Split t ';') with err | val
    · simp
    · simp
  refine ⟨hiff s, ?_⟩
  intro f' err h
  have := hkeep s (by rw [h]; simp)
  rw [h] at this
  exact this

/-- Witness of C23: in `1,2;3,x` three items parse before `x` does not; the
call returns the syntax error and the flag still holds what it held. -/
theorem Set_error_keeps_value_witness :
    bytesFlag.Set 0 ⟨[[9]]⟩ "1,2;3,x".toList = (⟨[[9]]⟩, some (.other "invalid syntax")) ∧
      (⟨[[9]]⟩ : bytesFlag) = ⟨[[9]]⟩ :=
  ⟨by decide,
    (Set_error_keeps_value 0 ⟨[[9]]⟩ "1,2;3,x".toList).2 ⟨[[9]]⟩ (.other "invalid syntax")
      (by decide)⟩

/-! ## Transaction parameters -/

/-- The result of `CalculateTxParams` when the three queries succeed: the
pointers are those of the two decoded answers, distinct, and the cells are the
fee cap computed in place and the untouched tip cap. -/
theorem CalculateTxParams_ret (rpc : FeeClient) (BaseFeeFactor MaxPriorityFeePerGas : Int)
    (fundedAddress : Nat) (heap : BigHeap) (baseFee tip : Int) (nonce : Nat)
    (hb : rpc.EstimateBaseFee = .value baseFee) (ht : rpc.SuggestGasTipCap = .value tip)
    (hn : rpc.NonceAt fundedAddress = .value nonce) :
    ∃ heap1 : BigHeap,
      CalculateTxParams rpc BaseFeeFactor MaxPriorityFeePerGas fundedAddress heap
        = .ret ((heap.next, heap.next + 1, nonce), heap1) ∧
      heap1.cells heap.next = baseFee * BaseFeeFactor + MaxPriorityFeePerGas ∧
      heap1.cells (heap.next + 1) = tip ∧
      ∀ p, p < heap.next → heap1.cells p = heap.cells p := by
  simp only [CalculateTxParams, hb, ht, hn, BigHeap.alloc, BigHeap.Mul, BigHeap.Add]
  have e1 : heap.next ≠ heap.next + 1 + 1 + 1 := by omega
  have e2 : heap.next ≠ heap.next + 1 + 1 := by omega
  have e3 : heap.next + 1 ≠ heap.next + 1 + 1 + 1 := by omega
  have e4 : heap.next + 1 ≠ heap.next + 1 + 1 := by omega
  refine ⟨_, rfl, ?_, ?_, ?_⟩
  · simp [e1, e2]
  · simp [e3, e4]
  · intro p hp
    have h0 : p ≠ heap.next := by omega
    have h1 : p ≠ heap.next + 1 := by omega
    have h2 : p ≠ heap.next + 1 + 1 := by omega
    have h3 : p ≠ heap.next + 1 + 1 + 1 := by omega
    simp [h0, h1, h2, h3]

/-- C24: when the three queries succeed, `CalculateTxParams` returns the fee
cap `baseFee * BaseFeeFactor + MaxPriorityFeePerGas` in exact integer
arithmetic, `baseFee` being the base-fee estimate of the RPC, and returns the
suggested tip cap and the nonce of the account unchanged; the fee cap is
computed in the cell of the base fee, a cell other than that of the tip cap,
and no cell allocated before the call is written. -/
theorem CalculateTxParams_fee_cap_exact (rpc : FeeClient)
    (BaseFeeFactor MaxPriorityFeePerGas : Int) (fundedAddress : Nat) (heap : BigHeap)
    (baseFee tip : Int) (nonce : Nat)
    (hb : rpc.EstimateBaseFee = .value baseFee) (ht : rpc.SuggestGasTipCap = .value tip)
    (hn : rpc.NonceAt fundedAddress = .value nonce) :
    txParamValues (CalculateTxParams rpc BaseFeeFactor MaxPriorityFeePerGas fundedAddress heap)
        = .ret (baseFee * BaseFeeFactor + MaxPriorityFeePerGas, tip, nonce) ∧
      ∃ (gasFeeCap gasTipCap : Nat) (after : BigHeap),
        CalculateTxParams rpc BaseFeeFactor MaxPriorityFeePerGas fundedAddress heap
          = .ret ((gasFeeCap, gasTipCap, nonce), after) ∧
        gasFeeCap ≠ gasTipCap ∧
        after.cells gasFeeCap = baseFee * BaseFeeFactor + MaxPriorityFeePerGas ∧
        after.cells gasTipCap = tip ∧
        ∀ p, p < heap.next → after.cells p = heap.cells p := by
  obtain ⟨after, hret, hfee, htip, hframe⟩ :=
    CalculateTxParams_ret rpc BaseFeeFactor MaxPriorityFeePerGas fundedAddress heap
      baseFee tip nonce hb ht hn
  refine ⟨?_, heap.next, heap.next + 1, after, hret, by omega, hfee, htip, hframe⟩
  rw [hret]
  simp only [txParamValues, hfee, htip]

/-- Witness of C24: base fee 25, tip 3, nonce 7, factor 2 and priority fee
100 give the fee cap 150. -/
theorem CalculateTxParams_fee_cap_exact_witness :
    txParamValues (CalculateTxParams (answeringClient 25 3 7) 2 100 0 BigHeap.empty)
      = .ret (25 * 2 + 100, 3, 7) :=
  (CalculateTxParams_fee_cap_exact (answeringClient 25 3 7) 2 100 0 BigHeap.empty 25 3 7
    rfl rfl rfl).1

/-- Counterexample to C25 as stated: with the factor 2 and the priority fee
2500000000, a base fee of 1 and a suggested tip of 10000000000 give a fee cap
of 2500000002, below the tip cap, and the transaction built from them is not
well formed; whatever the two constants and the base fee are, the tip one above
the computed fee cap is returned as it is. -/
theorem CalculateTxParams_tip_above_fee_cap :
    txParamValues
        (CalculateTxParams (answeringClient 1 10000000000 0) 2 2500000000 0 BigHeap.empty)
        = .ret (2500000002, 10000000000, 0) ∧
      CreateNativeTransferTransaction (answeringClient 1 10000000000 0) 2 2500000000
          43113 0 1 5 BigHeap.empty
        = .ret ⟨43113, 0, 1, 21000, 2500000002, 10000000000, 5⟩ ∧
      ¬ (⟨43113, 0, 1, 21000, 2500000002, 10000000000, 5⟩ : DynamicFeeTx).wellFormed ∧
      (∀ factor priority baseFee : Int,
        txParamValues (CalculateTxParams
            (answeringClient baseFee (baseFee * factor + priority + 1) 0) factor priority 0
            BigHeap.empty)
          = .ret (baseFee * factor + priority, baseFee * factor + priority + 1, 0)) := by
  refine ⟨by decide, by decide, by decide, ?_⟩
  intro factor priority baseFee
  exact (CalculateTxParams_ret (answeringClient baseFee (baseFee * factor + priority + 1) 0)
    factor priority 0 BigHeap.empty baseFee (baseFee * factor + priority + 1) 0
    rfl rfl rfl).elim (fun after h => by
      rw [h.1]
      simp only [txParamValues, h.2.1, h.2.2.1])

/-- C25, amended: when the three queries succeed, the transaction built by
`CreateNativeTransferTransaction` carries the fee cap
`baseFee * BaseFeeFactor + MaxPriorityFeePerGas` and the suggested tip cap, and
its fee cap is at least its tip cap exactly when the suggested tip is at most
that sum; this is so whenever `baseFee * BaseFeeFactor` is not negative and the
suggested tip is at most `MaxPriorityFeePerGas`. -/
theorem CreateNativeTransferTransaction_wellFormed_iff (rpc : FeeClient)
    (BaseFeeFactor MaxPriorityFeePerGas EVMChainID : Int) (fromAddress recipient : Nat)
    (amount : Int) (heap : BigHeap) (baseFee tip : Int) (nonce : Nat)
    (hb : rpc.EstimateBaseFee = .value baseFee) (ht : rpc.SuggestGasTipCap = .value tip)
    (hn : rpc.NonceAt fromAddress = .value nonce) :
    ∃ tx : DynamicFeeTx,
      CreateNativeTransferTransaction rpc BaseFeeFactor MaxPriorityFeePerGas EVMChainID
          fromAddress recipient amount heap = .ret tx ∧
      tx = ⟨EVMChainID, nonce, recipient, NativeTransferGas,
        baseFee * BaseFeeFactor + MaxPriorityFeePerGas, tip, amount⟩ ∧
      (tx.wellFormed ↔ tip ≤ baseFee * BaseFeeFactor + MaxPriorityFeePerGas) ∧
      (0 ≤ baseFee * BaseFeeFactor → tip ≤ MaxPriorityFeePerGas → tx.wellFormed) := by
  obtain ⟨after, hret, hfee, htip, _⟩ :=
    CalculateTxParams_ret rpc BaseFeeFactor MaxPriorityFeePerGas fromAddress heap
      baseFee tip nonce hb ht hn
  refine ⟨_, ?_, rfl, ?_, ?_⟩
  · simp only [CreateNativeTransferTransaction, hret, hfee, htip]
  · simp only [DynamicFeeTx.wellFormed]
  · intro h0 h1
    simp only [DynamicFeeTx.wellFormed]
    omega

/-- Witness of C25, amended: base fee 25 and tip 3 with the factor 2 and the
priority fee 100 give a well-formed transaction. -/
theorem CreateNativeTransferTransaction_wellFormed_iff_witness :
    ∃ tx : DynamicFeeTx,
      CreateNativeTransferTransaction (answeringClient 25 3 7) 2 100 43113 0 1 5 BigHeap.empty
        = .ret tx ∧
      tx = ⟨43113, 7, 1, NativeTransferGas, 25 * 2 + 100, 3, 5⟩ ∧
      (tx.wellFormed ↔ (3 : Int) ≤ 25 * 2 + 100) ∧
      ((0 : Int) ≤ 25 * 2 → (3 : Int) ≤ 100 → tx.wellFormed) :=
  CreateNativeTransferTransaction_wellFormed_iff (answeringClient 25 3 7) 2 100 43113 0 1 5
    BigHeap.empty 25 3 7 rfl rfl rfl

/-! ## Chain configurations -/

/-- C26: `ChainConfigMap.Add` stores `chainConfig` under the key `C` when
`subnet.SubnetID` is the primary network ID and under
`subnet.BlockchainID.String()` otherwise, whatever the map held at that key,
and every other key of the map holds what it held. -/
theorem Add_stores_under_key (PrimaryNetworkID : Nat) (idString : Nat → String)
    (m : ChainConfigMap) (subnet : SubnetTestInfo) (chainConfig : String) :
    (subnet.SubnetID = PrimaryNetworkID →
        ChainConfigMap.Add PrimaryNetworkID idString m subnet chainConfig "C"
            = some chainConfig ∧
          ∀ k, k ≠ "C" →
            ChainConfigMap.Add PrimaryNetworkID idString m subnet chainConfig k = m k) ∧
      (subnet.SubnetID ≠ PrimaryNetworkID →
        ChainConfigMap.Add PrimaryNetworkID idString m subnet chainConfig
            (idString subnet.BlockchainID) = some chainConfig ∧
          ∀ k, k ≠ idString subnet.BlockchainID →
            ChainConfigMap.Add PrimaryNetworkID idString m subnet chainConfig k = m k) := by
  constructor
  · intro hp
    simp only [ChainConfigMap.Add, hp, if_true, GoMap.set, CChainPathSpecifier, true_and]
    intro k hk
    simp only [hk, if_false]
  · intro hp
    simp only [ChainConfigMap.Add, hp, if_false, GoMap.set, if_true, true_and]
    intro k hk
    simp only [hk, if_false]

/-- Witness of C26: for the primary network the entry at `C` is overwritten
and the entry of another chain is kept. -/
theorem Add_stores_under_key_witness :
    ChainConfigMap.Add 0 idDecimal ((GoMap.empty.set "C" "old").set "77" "other") ⟨0, 5⟩ "new" "C"
        = some "new" ∧
      ChainConfigMap.Add 0 idDecimal ((GoMap.empty.set "C" "old").set "77" "other") ⟨0, 5⟩ "new"
        "77" = some "other" :=
  ⟨((Add_stores_under_key 0 idDecimal ((GoMap.empty.set "C" "old").set "77" "other") ⟨0, 5⟩
      "new").1 rfl).1,
    by decide⟩

/-- The loop appends the encodings in order. -/
theorem appendHexMessages_eq (messages : List (List Byte)) :
    ∀ acc : List String, appendHexMessages acc messages = acc ++ messages.map hexEncode := by
  induction messages with
  | nil => intro acc; simp [appendHexMessages]
  | cons m rest ih =>
    intro acc
    simp only [appendHexMessages, ih, List.map_cons, List.append_assoc, List.singleton_append]

/-- Two hexadecimal digits per byte. -/
theorem hexDigits_length (b : List Byte) : (hexDigits b).length = 2 * b.length := by
  induction b with
  | nil => rfl
  | cons x rest ih => simp only [hexDigits, List.length_cons, ih]; omega

/-- C27: `GetChainConfigWithOffChainMessages` writes into the map that the
package variable `WarpEnabledChainConfig` refers to, not into a copy. After the
call the variable refers to the same map; that map holds under
`warp-off-chain-messages` the list of the encodings of the messages, one per
message in input order, each `0x` followed by two hexadecimal digits per byte,
and the empty list for no messages; every other key of that map and every
other map is unchanged; a later call replaces the entry; and the string
returned is the marshalling of the map as written. -/
theorem GetChainConfigWithOffChainMessages_writes_global
    (marshal : FlagsMap → Response String) (messages later : List (List Byte))
    (pkg : PackageState) :
    (GetChainConfigWithOffChainMessages marshal messages pkg).2.WarpEnabledChainConfig
        = pkg.WarpEnabledChainConfig ∧
      (GetChainConfigWithOffChainMessages marshal messages pkg).2.maps
          pkg.WarpEnabledChainConfig "warp-off-chain-messages"
        = some (.strings (messages.map hexEncode)) ∧
      (messages.map hexEncode).length = messages.length ∧
      (∀ m ∈ messages, ∃ digits : List Char,
        hexEncode m = String.mk ('0' :: 'x' :: digits) ∧ digits.length = 2 * m.length) ∧
      (GetChainConfigWithOffChainMessages marshal [] pkg).2.maps
          pkg.WarpEnabledChainConfig "warp-off-chain-messages" = some (.strings []) ∧
      (∀ k, k ≠ "warp-off-chain-messages" →
        (GetChainConfigWithOffChainMessages marshal messages pkg).2.maps
          pkg.WarpEnabledChainConfig k = pkg.maps pkg.WarpEnabledChainConfig k) ∧
      (∀ ref, ref ≠ pkg.WarpEnabledChainConfig →
        (GetChainConfigWithOffChainMessages marshal messages pkg).2.maps ref = pkg.maps ref) ∧
      (GetChainConfigWithOffChainMessages marshal later
          (GetChainConfigWithOffChainMessages marshal messages pkg).2).2.maps
          pkg.WarpEnabledChainConfig "warp-off-chain-messages"
        = some (.strings (later.map hexEncode)) ∧
      (GetChainConfigWithOffChainMessages marshal messages pkg).1
        = (match marshal ((GetChainConfigWithOffChainMessages marshal messages pkg).2.maps
              pkg.WarpEnabledChainConfig) with
          | .failure _ => .abort "Expected err to be nil"
          | .value json => .ret json) := by
  have hstate : ∀ (msgs : List (List Byte)) (p : PackageState),
      (GetChainConfigWithOffChainMessages marshal msgs p).2
        = p.assign p.WarpEnabledChainConfig "warp-off-chain-messages"
            (.strings (msgs.map hexEncode)) := by
    intro msgs p
    simp only [GetChainConfigWithOffChainMessages, appendHexMessages_eq, List.nil_append]
    split <;> rfl
  refine ⟨?_, ?_, ?_, ?_, ?_, ?_, ?_, ?_, ?_⟩
  · rw [hstate]; rfl
  · rw [hstate]; simp [PackageState.assign, GoMap.set]
  · simp
  · intro m _
    exact ⟨hexDigits m, rfl, hexDigits_length m⟩
  · rw [hstate]; simp [PackageState.assign, GoMap.set]
  · intro k hk
    rw [hstate]
    simp [PackageState.assign, GoMap.set, hk]
  · intro ref href
    rw [hstate]
    simp [PackageState.assign, href]
  · rw [hstate, hstate]
    simp [PackageState.assign, GoMap.set]
  · rw [hstate]
    simp only [GetChainConfigWithOffChainMessages, appendHexMessages_eq, List.nil_append]
    split <;> simp_all [PackageState.assign]

/-- Witness of C27: from the initial package, a call with the message `de ad`
leaves `0xdead` in the global map and keeps `log-level`; the string returned
counts the one message. -/
theorem GetChainConfigWithOffChainMessages_writes_global_witness :
    (GetChainConfigWithOffChainMessages countingMarshal [[222, 173]] PackageState.initial).2.maps
        PackageState.initial.WarpEnabledChainConfig "warp-off-chain-messages"
        = some (.strings ([[222, 173]].map hexEncode)) ∧
      [[(222 : Byte), 173]].map hexEncode = ["0xdead"] ∧
      (GetChainConfigWithOffChainMessages countingMarshal [[222, 173]] PackageState.initial).2.maps
        0 "log-level" = some (.str "debug") ∧
      (GetChainConfigWithOffChainMessages countingMarshal [[222, 173]] PackageState.initial).1
        = .ret "1" :=
  ⟨(GetChainConfigWithOffChainMessages_writes_global countingMarshal [[222, 173]] []
      PackageState.initial).2.1,
    by decide, by decide, by decide⟩

/-! ## The genesis template -/

/-- A run that starts with a character the leading text lacks lies behind it. -/
theorem infix_append_of_head_not_mem (a : Char) (q : List Char) :
    ∀ (V T : List Char), a ∉ V → (a :: q) <:+: V ++ T → (a :: q) <:+: T := by
  intro V
  induction V with
  | nil => intro T _ h; simpa using h
  | cons v V ih =>
    intro T hmem h
    rw [List.cons_append, List.infix_cons_iff] at h
    rcases h with h | h
    · obtain ⟨t, ht⟩ := h
      injection ht with h1 _
      exact absurd (h1 ▸ List.mem_cons_self _ _) hmem
    · exact ih T (fun hm => hmem (List.mem_cons_of_mem _ hm)) h

/-- A text that starts the output of the scan without holding the first
character of `new` starts the input. -/
theorem prefix_of_prefix_replaceLoop (old : List Char) (v : Char) (rest : List Char) :
    ∀ (q : List Char), v ∉ q → ∀ (fuel : Nat) (s : List Char), s.length ≤ fuel →
      q <+: replaceLoop old (v :: rest) fuel s → q <+: s := by
  intro q
  induction q with
  | nil => intro _ _ _ _ _; exact List.nil_prefix
  | cons x q ih =>
    intro hv fuel s hfuel h
    have hvx : v ≠ x := fun e => hv (e ▸ List.mem_cons_self _ _)
    have hvq : v ∉ q := fun hm => hv (List.mem_cons_of_mem _ hm)
    cases s with
    | nil =>
      cases fuel with
      | zero => simp [replaceLoop] at h
      | succ f => simp [replaceLoop] at h
    | cons c cs =>
      cases fuel with
      | zero => simp at hfuel
      | succ f =>
        have hf : cs.length ≤ f := by simpa using hfuel
        rw [replaceLoop] at h
        by_cases hp : old.isPrefixOf (c :: cs) = true
        · rw [if_pos hp] at h
          obtain ⟨t, ht⟩ := h
          rw [List.cons_append, List.cons_append] at ht
          injection ht with h1 _
          exact absurd h1.symm hvx
        · rw [if_neg hp] at h
          obtain ⟨t, ht⟩ := h
          rw [List.cons_append] at ht
          injection ht with h1 h2
          subst h1
          have := ih hvq f cs hf ⟨t, h2⟩
          obtain ⟨u, hu⟩ := this
          exact ⟨u, by rw [List.cons_append, hu]⟩

/-- The scan leaves no occurrence of a text `a :: q` that is the replaced text
or was absent, when `new` lacks `a` and starts with a character that `q`
lacks. -/
theorem replaceLoop_no_infix (old : List Char) (v : Char) (rest : List Char) (a : Char)
    (q : List Char) (hold : old ≠ []) (ha : a ∉ v :: rest) (hv : v ∉ q) :
    ∀ (fuel : Nat) (s : List Char), s.length ≤ fuel →
      (a :: q = old ∨ ¬ (a :: q) <:+: s) →
      ¬ (a :: q) <:+: replaceLoop old (v :: rest) fuel s := by
  intro fuel
  induction fuel with
  | zero =>
    intro s hs hcond h
    have hnil : s = [] := List.length_eq_zero.mp (Nat.le_zero.mp hs)
    subst hnil
    simp [replaceLoop] at h
  | succ f ih =>
    intro s hs hcond h
    cases s with
    | nil => simp [replaceLoop] at h
    | cons c cs =>
      have hf : cs.length ≤ f := by simpa using hs
      rw [replaceLoop] at h
      by_cases hp : old.isPrefixOf (c :: cs) = true
      · rw [if_pos hp] at h
        have h2 := infix_append_of_head_not_mem a q _ _ ha h
        have hlen : ((c :: cs).drop old.length).length ≤ f := by
          have : 0 < old.length := List.length_pos.mpr hold
          simp only [List.length_drop, List.length_cons]
          omega
        refine ih _ hlen ?_ h2
        rcases hcond with e | hne
        · exact Or.inl e
        · right
          intro hin
          exact hne (hin.trans (List.drop_suffix _ _).isInfix)
      · rw [if_neg hp] at h
        rw [List.infix_cons_iff] at h
        rcases h with h | h
        · obtain ⟨t, ht⟩ := h
          rw [List.cons_append] at ht
          injection ht with h1 h2
          subst h1
          have hq : q <+: cs := prefix_of_prefix_replaceLoop old v rest q hv f cs hf ⟨t, h2⟩
          have hpre : (a :: q) <+: (a :: cs) := by
            obtain ⟨u, hu⟩ := hq
            exact ⟨u, by rw [List.cons_append, hu]⟩
          rcases hcond with e | hne
          · rw [← e] at hp
            exact hp (List.isPrefixOf_iff_prefix.mpr hpre)
          · exact hne hpre.isInfix
        · refine ih cs hf ?_ h
          rcases hcond with e | hne
          · exact Or.inl e
          · right
            intro hin
            exact hne (List.infix_cons hin)

/-- `ReplaceAll` leaves no occurrence of a placeholder that is the replaced
text or was absent, when the value is plain. -/
theorem ReplaceAll_no_target (target old value s : List Char) (ht : isTarget target)
    (hold : old ≠ []) (hv : isPlainValue value)
    (hcond : target = old ∨ ¬ target <:+: s) : ¬ target <:+: ReplaceAll s old value := by
  obtain ⟨q, rfl, hq⟩ := ht
  obtain ⟨v, rest, rfl, hdigit, hopen⟩ := hv
  have hvq : v ∉ q := by
    intro hm
    rw [hq v hm] at hdigit
    cases hdigit
  simp only [ReplaceAll, hold, if_false]
  exact replaceLoop_no_infix old v rest '<' q hold hopen hvq _ s (Nat.le_refl _) hcond

/-- The decimal digits of a number are a plain value. -/
theorem FormatUint_isPlainValue (n : Nat) : isPlainValue (FormatUint n) := by
  obtain ⟨⟨hne, hdig, _⟩, _⟩ := FormatUint_spec n
  cases hs : FormatUint n with
  | nil => exact absurd hs hne
  | cons v rest =>
    rw [hs] at hdig
    refine ⟨v, rest, rfl, hdig v (List.mem_cons_self _ _), ?_⟩
    intro hm
    have := hdig _ hm
    exact absurd this (by decide)

/-- A `0x`-prefixed hex string is a plain value. -/
theorem is0xHex_isPlainValue (s : List Char) (h : is0xHex s) : isPlainValue s := by
  obtain ⟨hpre, hdig⟩ := h
  have hs : s = '0' :: 'x' :: s.drop 2 := by
    match s, hpre with
    | a :: b :: t, hpre =>
      simp only [List.take_succ_cons, List.take_zero, List.cons.injEq, and_true] at hpre
      obtain ⟨rfl, rfl⟩ := hpre
      rfl
  refine ⟨'0', 'x' :: s.drop 2, hs, by decide, ?_⟩
  intro hm
  rw [hs] at hm
  rcases List.mem_cons.mp hm with e | hm
  · exact absurd e (by decide)
  · rcases List.mem_cons.mp hm with e | hm
    · exact absurd e (by decide)
    · exact absurd (hdig _ hm) (by decide)

/-- The four placeholders are placeholders. -/
theorem targets_are_targets :
    isTarget chainIDTarget ∧ isTarget contractAddressTarget ∧
      isTarget deployedBytecodeTarget ∧ isTarget deployerAddressTarget :=
  ⟨⟨_, rfl, by decide⟩, ⟨_, rfl, by decide⟩, ⟨_, rfl, by decide⟩, ⟨_, rfl, by decide⟩⟩

/-- C28: for every template text, chain ID and pair of addresses, whose `Hex`
is a `0x`-prefixed hex string, and every deployed bytecode given as a
`0x`-prefixed hex string, when the template is read and the temporary file
created, the text that `InstantiateGenesisTemplate` writes after its four
substitutions contains none of the four placeholders. -/
theorem InstantiateGenesisTemplate_no_placeholder (Hex : Nat → List Char)
    (readFile : String → Response (List Char)) (createTemp : Response String)
    (templateFileName name : String) (template : List Char) (chainID : Nat)
    (teleporterContractAddress : Nat) (teleporterDeployedBytecode : List Char)
    (teleporterDeployerAddress : Nat)
    (hHex : ∀ a, is0xHex (Hex a)) (hcode : is0xHex teleporterDeployedBytecode)
    (hread : readFile templateFileName = .value template)
    (htemp : createTemp = .value name) :
    ∃ replaced : List Char,
      InstantiateGenesisTemplate Hex readFile createTemp templateFileName chainID
          teleporterContractAddress teleporterDeployedBytecode teleporterDeployerAddress
        = .ret (name, replaced) ∧
      replaced =
        ReplaceAll (ReplaceAll (ReplaceAll (ReplaceAll template
          chainIDTarget (FormatUint chainID))
          contractAddressTarget (Hex teleporterContractAddress))
          deployedBytecodeTarget teleporterDeployedBytecode)
          deployerAddressTarget (Hex teleporterDeployerAddress) ∧
      ¬ containsText replaced chainIDTarget ∧
      ¬ containsText replaced contractAddressTarget ∧
      ¬ containsText replaced deployedBytecodeTarget ∧
      ¬ containsText replaced deployerAddressTarget := by
  obtain ⟨t1, t2, t3, t4⟩ := targets_are_targets
  have v1 := FormatUint_isPlainValue chainID
  have v2 := is0xHex_isPlainValue _ (hHex teleporterContractAddress)
  have v3 := is0xHex_isPlainValue _ hcode
  have v4 := is0xHex_isPlainValue _ (hHex teleporterDeployerAddress)
  have n1 : chainIDTarget ≠ [] := by decide
  have n2 : contractAddressTarget ≠ [] := by decide
  have n3 : deployedBytecodeTarget ≠ [] := by decide
  have n4 : deployerAddressTarget ≠ [] := by decide
  refine ⟨_, ?_, rfl, ?_, ?_, ?_, ?_⟩
  · simp only [InstantiateGenesisTemplate, hread, htemp, substitutions, applySubstitutions]
  · unfold containsText
    refine ReplaceAll_no_target _ _ _ _ t1 n4 v4 (Or.inr ?_)
    refine ReplaceAll_no_target _ _ _ _ t1 n3 v3 (Or.inr ?_)
    refine ReplaceAll_no_target _ _ _ _ t1 n2 v2 (Or.inr ?_)
    exact ReplaceAll_no_target _ _ _ _ t1 n1 v1 (Or.inl rfl)
  · unfold containsText
    refine ReplaceAll_no_target _ _ _ _ t2 n4 v4 (Or.inr ?_)
    refine ReplaceAll_no_target _ _ _ _ t2 n3 v3 (Or.inr ?_)
    exact ReplaceAll_no_target _ _ _ _ t2 n2 v2 (Or.inl rfl)
  · unfold containsText
    refine ReplaceAll_no_target _ _ _ _ t3 n4 v4 (Or.inr ?_)
    exact ReplaceAll_no_target _ _ _ _ t3 n3 v3 (Or.inl rfl)
  · unfold containsText
    exact ReplaceAll_no_target _ _ _ _ t4 n4 v4 (Or.inl rfl)

/-- Witness of C28: a template with two placeholders, one of them inside the
broken pieces of another, for the chain 43113. -/
theorem InstantiateGenesisTemplate_no_placeholder_witness :
    InstantiateGenesisTemplate plainHex templateFile (.value "genesis") "template.json" 43113
        7 "0x60".toList 9
      = .ret ("genesis", "id=43113,at=0x7,<EVM_43113".toList) ∧
    ∃ replaced : List Char,
      InstantiateGenesisTemplate plainHex templateFile (.value "genesis") "template.json" 43113
          7 "0x60".toList 9
        = .ret ("genesis", replaced) ∧
      replaced =
        ReplaceAll (ReplaceAll (ReplaceAll (ReplaceAll
          "id=<EVM_CHAIN_ID>,at=<TELEPORTER_MESSENGER_CONTRACT_ADDRESS>,<EVM_<EVM_CHAIN_ID>".toList
          chainIDTarget (FormatUint 43113))
          contractAddressTarget (plainHex 7))
          deployedBytecodeTarget "0x60".toList)
          deployerAddressTarget (plainHex 9) ∧
      ¬ containsText replaced chainIDTarget ∧
      ¬ containsText replaced contractAddressTarget ∧
      ¬ containsText replaced deployedBytecodeTarget ∧
      ¬ containsText replaced deployerAddressTarget :=
  ⟨by decide,
    InstantiateGenesisTemplate_no_placeholder plainHex templateFile (.value "genesis")
      "template.json" "genesis"
      "id=<EVM_CHAIN_ID>,at=<TELEPORTER_MESSENGER_CONTRACT_ADDRESS>,<EVM_<EVM_CHAIN_ID>".toList
      43113 7 "0x60".toList 9
      (fun a => ⟨rfl, fun c hc => by
        have := (FormatUint_spec a).1.2.1 c hc
        simp [isHexDigit, this]⟩)
      (by decide) rfl rfl⟩

/-! ## The log iterator -/

/-- On a failed iterator `Next` returns false and changes nothing. -/
theorem Next_of_failed (UnpackLog : Log → Nat × Option GoError) (pick : SelectCase)
    (it : PoAValidatorManagerInitializedIterator) (e : GoError) (h : it.fail = some e) :
    it.Next UnpackLog pick = .ret (false, it) := by
  simp [PoAValidatorManagerInitializedIterator.Next, h]

/-- On a failed iterator every sequence of calls returns false and changes
nothing. -/
theorem runNext_of_failed (UnpackLog : Log → Nat × Option GoError)
    (it : PoAValidatorManagerInitializedIterator) (e : GoError) (h : it.fail = some e) :
    ∀ picks : List SelectCase,
      runNext UnpackLog picks it = .ret (picks.map (fun _ => none), it) := by
  intro picks
  induction picks with
  | nil => rfl
  | cons pick picks ih =>
    simp only [runNext, Next_of_failed UnpackLog pick it e h, ih, List.map_cons]
    rfl

/-- A received log that leaves the iterator failed did not unpack, and is
consumed. -/
theorem receiveLog_failed (UnpackLog : Log → Nat × Option GoError)
    (it after : PoAValidatorManagerInitializedIterator) (log : Log) (rest : List Log)
    (more : Bool) (e : GoError) (hit : it.fail = none)
    (h : receiveLog UnpackLog it log rest = (more, after)) (hfail : after.fail = some e) :
    more = false ∧ (UnpackLog log).2 = some e ∧ after.logs = rest ∧ after.done = it.done := by
  unfold receiveLog at h
  rcases hu : UnpackLog log with ⟨version, _ | err⟩
  · rw [hu] at h
    simp only [Prod.mk.injEq] at h
    obtain ⟨_, rfl⟩ := h
    simp only [hit] at hfail
    cases hfail
  · rw [hu] at h
    simp only [Prod.mk.injEq] at h
    obtain ⟨rfl, rfl⟩ := h
    simp only [Option.some.injEq] at hfail
    subst hfail
    exact ⟨rfl, rfl, rfl, rfl⟩

/-- A poll that leaves the iterator failed received a log that did not unpack. -/
theorem pollBuffered_failed (UnpackLog : Log → Nat × Option GoError)
    (it after : PoAValidatorManagerInitializedIterator) (more : Bool) (e : GoError)
    (hit : it.fail = none) (h : pollBuffered UnpackLog it = (more, after))
    (hfail : after.fail = some e) :
    more = false ∧ ∃ log rest, it.logs = log :: rest ∧ (UnpackLog log).2 = some e ∧
      after.logs = rest ∧ after.done = it.done := by
  unfold pollBuffered at h
  rcases hl : it.logs with _ | ⟨log, rest⟩
  · rw [hl] at h
    simp only [Prod.mk.injEq] at h
    obtain ⟨_, rfl⟩ := h
    rw [hit] at hfail
    cases hfail
  · rw [hl] at h
    obtain ⟨h1, h2, h3, h4⟩ := receiveLog_failed UnpackLog it after log rest more e hit h hfail
    exact ⟨h1, log, rest, rfl, h2, h3, h4⟩

/-- The ways the handling of the error channel leaves the iterator failed: the
channel delivered the error, or it delivered `nil` and the first buffered log
did not unpack. -/
theorem receiveErr_failed (UnpackLog : Log → Nat × Option GoError)
    (it after : PoAValidatorManagerInitializedIterator) (err : Option GoError)
    (errs : List (Option GoError)) (more : Bool) (e : GoError)
    (h : receiveErr UnpackLog it err errs = (more, after)) (hfail : after.fail = some e) :
    more = false ∧ after.done = true ∧
      ((err = some e ∧ after.logs = it.logs) ∨
        (err = none ∧ ∃ log rest, it.logs = log :: rest ∧ (UnpackLog log).2 = some e ∧
          after.logs = rest)) := by
  unfold receiveErr at h
  cases err with
  | some e1 =>
    simp only [ne_eq, reduceCtorEq, not_false_eq_true, if_true, Prod.mk.injEq] at h
    obtain ⟨rfl, rfl⟩ := h
    simp only [Option.some.injEq] at hfail
    subst hfail
    exact ⟨rfl, rfl, Or.inl ⟨rfl, rfl⟩⟩
  | none =>
    simp only [ne_eq, not_true_eq_false, if_false] at h
    obtain ⟨h1, log, rest, h2, h3, h4, h5⟩ :=
      pollBuffered_failed UnpackLog _ after more e rfl h hfail
    exact ⟨h1, h5, Or.inr ⟨rfl, log, rest, h2, h3, h4⟩⟩

/-- C29: failure of the log iterator is terminal. When a call of `Next` leaves
the iterator with an error, the call returned false and the error is one of
three: the error the iterator already had, the error of unpacking the received
log, or the error delivered by the subscription; `Error` returns that error;
and every later call of `Next` returns false and leaves the iterator as it is,
so that no log is consumed and the error stays. -/
theorem Next_failure_terminal (UnpackLog : Log → Nat × Option GoError) (pick : SelectCase)
    (it after : PoAValidatorManagerInitializedIterator) (more : Bool) (e : GoError)
    (hret : it.Next UnpackLog pick = .ret (more, after)) (hfail : after.fail = some e) :
    more = false ∧ after.Error = some e ∧
      ((it.fail = some e ∧ after = it) ∨
        (it.fail = none ∧ ∃ log rest, it.logs = log :: rest ∧ (UnpackLog log).2 = some e ∧
          after.logs = rest) ∨
        (it.fail = none ∧ it.done = false ∧ ∃ errs, it.subErr = some e :: errs ∧
          after.logs = it.logs)) ∧
      (∀ later, after.Next UnpackLog later = .ret (false, after)) ∧
      (∀ picks, runNext UnpackLog picks after = .ret (picks.map (fun _ => none), after)) := by
  have hterminal := Next_of_failed UnpackLog
  have hrun := runNext_of_failed UnpackLog after e hfail
  suffices hcases : more = false ∧
      ((it.fail = some e ∧ after = it) ∨
        (it.fail = none ∧ ∃ log rest, it.logs = log :: rest ∧ (UnpackLog log).2 = some e ∧
          after.logs = rest) ∨
        (it.fail = none ∧ it.done = false ∧ ∃ errs, it.subErr = some e :: errs ∧
          after.logs = it.logs)) from
    ⟨hcases.1, hfail, hcases.2, fun later => hterminal later after e hfail, hrun⟩
  unfold PoAValidatorManagerInitializedIterator.Next at hret
  by_cases hf : it.fail = none
  · simp only [hf, ne_eq, not_true_eq_false, if_false] at hret
    by_cases hd : it.done = true
    · simp only [hd, if_true] at hret
      injection hret with hret
      obtain ⟨h1, log, rest, h2, h3, h4, _⟩ :=
        pollBuffered_failed UnpackLog it after more e hf hret hfail
      exact ⟨h1, Or.inr (Or.inl ⟨hf, log, rest, h2, h3, h4⟩)⟩
    · have hd2 : it.done = false := by simpa using hd
      simp only [hd, if_false] at hret
      have hlog : ∀ log rest, it.logs = log :: rest →
          receiveLog UnpackLog it log rest = (more, after) →
          more = false ∧
            ((it.fail = some e ∧ after = it) ∨
              (it.fail = none ∧ ∃ log rest, it.logs = log :: rest ∧
                (UnpackLog log).2 = some e ∧ after.logs = rest) ∨
              (it.fail = none ∧ it.done = false ∧ ∃ errs, it.subErr = some e :: errs ∧
                after.logs = it.logs)) := by
        intro log rest hl h
        obtain ⟨h1, h2, h3, _⟩ := receiveLog_failed UnpackLog it after log rest more e hf h hfail
        exact ⟨h1, Or.inr (Or.inl ⟨hf, log, rest, hl, h2, h3⟩)⟩
      have herr : ∀ err errs, it.subErr = err :: errs →
          receiveErr UnpackLog it err errs = (more, after) →
          more = false ∧
            ((it.fail = some e ∧ after = it) ∨
              (it.fail = none ∧ ∃ log rest, it.logs = log :: rest ∧
                (UnpackLog log).2 = some e ∧ after.logs = rest) ∨
              (it.fail = none ∧ it.done = false ∧ ∃ errs, it.subErr = some e :: errs ∧
                after.logs = it.logs)) := by
        intro err errs hs h
        obtain ⟨h1, _, h2 | h2⟩ := receiveErr_failed UnpackLog it after err errs more e h hfail
        · obtain ⟨rfl, h3⟩ := h2
          exact ⟨h1, Or.inr (Or.inr ⟨hf, hd2, errs, hs, h3⟩)⟩
        · obtain ⟨_, log, rest, h3, h4, h5⟩ := h2
          exact ⟨h1, Or.inr (Or.inl ⟨hf, log, rest, h3, h4, h5⟩)⟩
      rcases hl : it.logs with _ | ⟨log, rest⟩ <;> rcases hs : it.subErr with _ | ⟨err, errs⟩
      · rw [hl, hs] at hret
        cases hret
      · rw [hl, hs] at hret
        injection hret with hret
        simpa only [hl, hs] using herr err errs hs hret
      · rw [hl, hs] at hret
        injection hret with hret
        simpa only [hl, hs] using hlog log rest hl hret
      · rw [hl, hs] at hret
        cases pick with
        | log =>
          injection hret with hret
          simpa only [hl, hs] using hlog log rest hl hret
        | err =>
          injection hret with hret
          simpa only [hl, hs] using herr err errs hs hret
  · simp only [hf, ne_eq, not_false_eq_true, if_true] at hret
    injection hret with hret
    simp only [Prod.mk.injEq] at hret
    obtain ⟨rfl, rfl⟩ := hret
    exact ⟨rfl, Or.inl ⟨hfail, rfl⟩⟩

/-- Witness of C29: the first buffered log does not unpack; `Next` returns
false with that error, and two later calls return false and leave the second
log in the channel. -/
theorem Next_failure_terminal_witness :
    (iteratorWith [⟨1, [], []⟩, ⟨1, [], [5]⟩] []).Next unpackVersion .log
        = .ret (false, ⟨some ⟨0, zeroLog⟩, [⟨1, [], [5]⟩], [], false,
            some (.other "abi: attempting to unmarshall an empty string")⟩) ∧
      runNext unpackVersion [.log, .err]
          ⟨some ⟨0, zeroLog⟩, [⟨1, [], [5]⟩], [], false,
            some (.other "abi: attempting to unmarshall an empty string")⟩
        = .ret ([SelectCase.log, SelectCase.err].map (fun _ => none),
            ⟨some ⟨0, zeroLog⟩, [⟨1, [], [5]⟩], [], false,
              some (.other "abi: attempting to unmarshall an empty string")⟩) :=
  ⟨by decide,
    (Next_failure_terminal unpackVersion .log (iteratorWith [⟨1, [], []⟩, ⟨1, [], [5]⟩] [])
      ⟨some ⟨0, zeroLog⟩, [⟨1, [], [5]⟩], [], false,
        some (.other "abi: attempting to unmarshall an empty string")⟩ false
      (.other "abi: attempting to unmarshall an empty string") (by decide) rfl).2.2.2.2
      [.log, .err]⟩

/-- A completed iterator without error delivers the buffered logs that unpack,
in order, each as the `Raw` of its event, and then returns false: with no
error when no log is left, with the error of the next log when that one does
not unpack. -/
theorem runNext_of_done (UnpackLog : Log → Nat × Option GoError) :
    ∀ (good tail : List Log) (picks : List SelectCase)
      (it : PoAValidatorManagerInitializedIterator),
      it.fail = none → it.done = true → it.logs = good ++ tail →
      picks.length = good.length + 1 →
      (∀ log ∈ good, (UnpackLog log).2 = none) →
      (∀ bad ∈ tail.head?, (UnpackLog bad).2 ≠ none) →
      ∃ after : PoAValidatorManagerInitializedIterator,
        runNext UnpackLog picks it
          = .ret (good.map (fun log => some ⟨(UnpackLog log).1, log⟩) ++ [none], after) ∧
        after.done = true ∧ after.logs = tail.tail ∧
        after.fail = tail.head?.bind (fun bad => (UnpackLog bad).2) := by
  intro good
  induction good with
  | nil =>
    intro tail picks it hf hd hl hp _ hbad
    obtain ⟨pick, rfl⟩ : ∃ pick, picks = [pick] := by
      match picks, hp with
      | [pick], _ => exact ⟨pick, rfl⟩
    simp only [List.nil_append] at hl
    cases tail with
    | nil =>
      refine ⟨it, ?_, hd, by simpa using hl, by simpa using hf⟩
      simp [runNext, PoAValidatorManagerInitializedIterator.Next, hf, hd, pollBuffered, hl]
    | cons bad rest =>
      have hb := hbad bad (by simp)
      rcases hu : UnpackLog bad with ⟨version, _ | err⟩
      · rw [hu] at hb; exact absurd rfl hb
      · refine ⟨{ it with Event := some ⟨version, zeroLog⟩, logs := rest, fail := some err },
          ?_, hd, rfl, by simp [hu]⟩
        simp [runNext, PoAValidatorManagerInitializedIterator.Next, hf, hd, pollBuffered, hl,
          receiveLog, hu]
  | cons g gs ih =>
    intro tail picks it hf hd hl hp hgood hbad
    obtain ⟨pick, later, rfl⟩ : ∃ pick later, picks = pick :: later := by
      match picks, hp with
      | pick :: later, _ => exact ⟨pick, later, rfl⟩
    have hg := hgood g (List.mem_cons_self _ _)
    rcases hu : UnpackLog g with ⟨version, _ | err⟩
    · obtain ⟨after, hrun, h1, h2, h3⟩ := ih tail later
        { it with Event := some ⟨version, g⟩, logs := gs ++ tail } hf hd rfl
        (by simpa using hp) (fun log hm => hgood log (List.mem_cons_of_mem _ hm)) hbad
      refine ⟨after, ?_, h1, h2, h3⟩
      have hnext : it.Next UnpackLog pick
          = .ret (true, { it with Event := some ⟨version, g⟩, logs := gs ++ tail }) := by
        simp [PoAValidatorManagerInitializedIterator.Next, hf, hd, pollBuffered, hl,
          receiveLog, hu]
      rw [runNext, hnext]
      simp only [hrun, if_true, List.map_cons, hu, List.cons_append]
    · rw [hu] at hg
      cases hg

/-- Counterexample to C30 as stated: two logs are buffered, the first without
data, and the error channel delivers `nil`. The call that receives the `nil`
marks the iterator done, receives the first log, which does not unpack, and
returns false with that error; the later calls return false, and the second
buffered log, which unpacks, stays in the channel. -/
theorem Next_buffered_log_not_delivered :
    runNext unpackVersion [.err, .err, .err]
        (iteratorWith [⟨1, [], []⟩, ⟨1, [], [5]⟩] [none])
      = .ret ([none, none, none],
          ⟨some ⟨0, zeroLog⟩, [⟨1, [], [5]⟩], [], true,
            some (.other "abi: attempting to unmarshall an empty string")⟩) ∧
      unpackVersion ⟨1, [], [5]⟩ = (5, none) ∧
      (⟨some ⟨0, zeroLog⟩, [⟨1, [], [5]⟩], [], true,
          some (.other "abi: attempting to unmarshall an empty string")⟩ :
        PoAValidatorManagerInitializedIterator).Error ≠ none := by
  refine ⟨by decide, by decide, by decide⟩

/-- C30, amended: an iterator in progress and without error takes the case of
the error channel. When the channel delivers `nil`, the iterator is marked done
and the calls of `Next`, this one included, deliver the buffered logs in order,
each with `Event.Raw` set to that log, as long as they unpack; the next call
returns false, with `Error` `nil` when every buffered log was delivered, and
with the error of the first buffered log that does not unpack otherwise, that
log being consumed and the logs behind it left in the channel. When the channel
delivers an error, `Next` returns false at once, `Error` is that error, and the
buffered logs stay in the channel at every later call. -/
theorem Next_after_subscription_end (UnpackLog : Log → Nat × Option GoError)
    (it : PoAValidatorManagerInitializedIterator) (pick : SelectCase)
    (delivered : Option GoError) (errs : List (Option GoError))
    (hfail : it.fail = none) (hdone : it.done = false) (hsub : it.subErr = delivered :: errs)
    (hpick : it.logs = [] ∨ pick = .err) :
    (delivered = none →
        ∀ (good tail : List Log) (later : List SelectCase),
          it.logs = good ++ tail → later.length = good.length →
          (∀ log ∈ good, (UnpackLog log).2 = none) →
          (∀ bad ∈ tail.head?, (UnpackLog bad).2 ≠ none) →
          ∃ after : PoAValidatorManagerInitializedIterator,
            runNext UnpackLog (pick :: later) it
              = .ret (good.map (fun log => some ⟨(UnpackLog log).1, log⟩) ++ [none], after) ∧
            after.done = true ∧ after.logs = tail.tail ∧
            after.Error = tail.head?.bind (fun bad => (UnpackLog bad).2)) ∧
      (∀ e, delivered = some e →
        ∃ after : PoAValidatorManagerInitializedIterator,
          it.Next UnpackLog pick = .ret (false, after) ∧
          after.Error = some e ∧ after.done = true ∧ after.logs = it.logs ∧
          ∀ picks, runNext UnpackLog picks after = .ret (picks.map (fun _ => none), after)) := by
  have hnext : it.Next UnpackLog pick = .ret (receiveErr UnpackLog it delivered errs) := by
    unfold PoAValidatorManagerInitializedIterator.Next
    simp only [hfail, ne_eq, not_true_eq_false, if_false, hdone, Bool.false_eq_true, hsub]
    rcases hl : it.logs with _ | ⟨log, rest⟩
    · rfl
    · rcases hpick with h | h
      · rw [hl] at h; cases h
      · subst h; rfl
  constructor
  · intro hnil good tail later hl hlen hgood hbad
    subst hnil
    have hsame : it.Next UnpackLog pick
        = ({ it with done := true, fail := none, subErr := errs } :
            PoAValidatorManagerInitializedIterator).Next UnpackLog pick := by
      rw [hnext]
      simp [PoAValidatorManagerInitializedIterator.Next, receiveErr]
    obtain ⟨after, hrun, h1, h2, h3⟩ := runNext_of_done UnpackLog good tail (pick :: later)
      { it with done := true, fail := none, subErr := errs } rfl rfl hl
      (by simp [hlen]) hgood hbad
    refine ⟨after, ?_, h1, h2, h3⟩
    rw [← hrun, runNext, runNext, hsame]
  · intro e he
    subst he
    refine ⟨{ it with done := true, fail := some e, subErr := errs }, ?_, rfl, rfl, rfl, ?_⟩
    · rw [hnext]
      simp [receiveErr]
    · exact runNext_of_failed UnpackLog _ e rfl

/-- Witness of C30, amended: two logs that unpack are buffered and the error
channel delivers `nil`; three calls deliver the versions 5 and 6 with the logs
as `Raw` and then return false, with no error. -/
theorem Next_after_subscription_end_witness :
    ∃ after : PoAValidatorManagerInitializedIterator,
      runNext unpackVersion [.err, .log, .log]
          (iteratorWith [⟨1, [], [5]⟩, ⟨1, [], [6]⟩] [none])
        = .ret ([(⟨1, [], [5]⟩ : Log), ⟨1, [], [6]⟩].map
              (fun log => some ⟨(unpackVersion log).1, log⟩) ++ [none], after) ∧
      after.done = true ∧ after.logs = ([] : List Log).tail ∧
      after.Error = ([] : List Log).head?.bind (fun bad => (unpackVersion bad).2) :=
  (Next_after_subscription_end unpackVersion
      (iteratorWith [⟨1, [], [5]⟩, ⟨1, [], [6]⟩] [none]) .err none [] rfl rfl rfl
      (Or.inr rfl)).1 rfl [⟨1, [], [5]⟩, ⟨1, [], [6]⟩] [] [.log, .log] rfl rfl
    (by decide) (by simp)

end Teleporter
